import Mathlib

/-!
# A shallow embedding of the io300 buffered file layer (`impl.c`)

The C program keeps one fixed-size window (`cache`) over an open descriptor and
serves character and block reads/writes from it.  The embedding below follows
`impl.c` function by function.

Modelling conventions
* A C `int` is a mathematical integer that is reduced to 32-bit two's complement
  (`toInt32`) every time the program computes or stores an `int`.  The argument
  of `io300_seek` is an `off_t` (64 bit) and is narrowed the same way when it is
  assigned to the `int` field `head` and when it is returned as `int`.
* A byte is a `Fin 256`; the caller's buffers are lists of bytes.
* The kernel side of the descriptor is the record `Fd`: the bytes of the regular
  file, the descriptor offset, and two flags for failing system calls: `ok` says
  that every call succeeds; when it is `false`, `reads` says whether only `write`
  fails (a device that takes no more data) or every call does.
* `assert` failures and accesses outside the window buffer end the run with a
  `Fault`; every operation therefore returns `Except Fault _`.
* The diagnostic `description` string has no influence on behaviour and is left
  out; the statistics counters are kept.
-/

namespace Io300

/-- Window capacity: `#define CACHE_SIZE 8`. -/
def CACHE_SIZE : Nat := 8

/-- One byte of file or buffer content. -/
abbrev Byte := Fin 256

/-- The value a C `int` holds after the integer `x` is stored in it. -/
def toInt32 (x : Int) : Int := (x + 2147483648) % 4294967296 - 2147483648

/-- The byte stored by `(char) ch`. -/
def toByte (ch : Int) : Byte := Fin.ofNat (ch % 256).toNat

/-- Ways a run can end without returning to the caller. -/
inductive Fault where
  | assertion
  | out_of_bounds
  deriving DecidableEq, Repr

/-- Kernel state behind the file descriptor.  With `ok = true` every system call
succeeds.  With `ok = false` the call `write` fails, and `lseek`, `read` and
`fstat` fail too unless `reads = true`. -/
structure Fd where
  data : List Byte
  off : Nat
  ok : Bool
  reads : Bool := false
  deriving DecidableEq, Repr

/-- The counters of `struct io300_statistics`. -/
structure io300_statistics where
  read_calls : Int
  write_calls : Int
  seeks : Int
  deriving DecidableEq, Repr

/-- The handle `struct io300_file`. -/
structure io300_file where
  fd : Fd
  cache : List Byte
  valid_bytes : Int
  dirty : Int
  head : Int
  cache_start : Int
  stats : io300_statistics
  deriving DecidableEq, Repr

/-! ## System calls on a regular file -/

/-- Positional write on the file bytes: a hole between the old end and `off` is
zero filled; a write of no bytes changes nothing. -/
def pwrite (data : List Byte) (off : Nat) (bs : List Byte) : List Byte :=
  match bs with
  | [] => data
  | b :: rest =>
    (data ++ List.replicate (off - data.length) 0).take off ++ (b :: rest)
      ++ data.drop (off + (b :: rest).length)

/-- The call `lseek(fd, o, SEEK_SET)`: fails on a negative offset. -/
def lseek (d : Fd) (o : Int) : Int × Fd :=
  if (d.ok = true ∨ d.reads = true) ∧ 0 ≤ o then (o, { d with off := o.toNat }) else (-1, d)

/-- The call `read(fd, buf, n)`: the count, the bytes delivered, the new descriptor. -/
def read (d : Fd) (n : Nat) : Int × List Byte × Fd :=
  if d.ok = true ∨ d.reads = true then
    let bs := (d.data.drop d.off).take n
    ((bs.length : Int), bs, { d with off := d.off + bs.length })
  else (-1, [], d)

/-- The call `write(fd, buf, n)` with `bs` the `n` bytes at `buf`. -/
def write (d : Fd) (bs : List Byte) : Int × Fd :=
  if d.ok = true then
    ((bs.length : Int), { d with data := pwrite d.data d.off bs, off := d.off + bs.length })
  else (-1, d)

/-- The size reported by `fstat`, or `-1` when the call fails. -/
def fstat_size (d : Fd) : Int :=
  if d.ok = true ∨ d.reads = true then (d.data.length : Int) else -1

/-! ## Accesses to the window buffer -/

/-- The byte at index `i` of a byte sequence, `0` past its end. -/
def byteAt (l : List Byte) (i : Nat) : Byte := l.getD i 0

/-- Load of `buf[i]`. -/
def load (buf : List Byte) (i : Int) : Except Fault Byte :=
  if 0 ≤ i ∧ i < buf.length then .ok (byteAt buf i.toNat) else .error .out_of_bounds

/-- Store `buf[i] = b`. -/
def store (buf : List Byte) (i : Int) (b : Byte) : Except Fault (List Byte) :=
  if 0 ≤ i ∧ i < buf.length then .ok (buf.set i.toNat b) else .error .out_of_bounds

/-- The source range of `memcpy(dst, buf + i, n)`. -/
def loadn (buf : List Byte) (i : Int) (n : Int) : Except Fault (List Byte) :=
  if 0 ≤ i ∧ 0 ≤ n ∧ i + n ≤ buf.length then .ok ((buf.drop i.toNat).take n.toNat)
  else .error .out_of_bounds

/-- The effect of `memcpy(buf + i, src, n)` with `bs` the `n` bytes at `src`. -/
def storen (buf : List Byte) (i : Int) (bs : List Byte) : Except Fault (List Byte) :=
  if 0 ≤ i ∧ i + bs.length ≤ buf.length then
    .ok (buf.take i.toNat ++ bs ++ buf.drop (i.toNat + bs.length))
  else .error .out_of_bounds

/-! ## The functions of `impl.c` -/

/-- The assertions of `check_invariants` (the pointer and descriptor checks always
hold in the embedding). -/
def check_invariants (f : io300_file) : Bool :=
  decide (f.valid_bytes ≤ CACHE_SIZE ∧ 0 ≤ f.valid_bytes)
    && decide (0 ≤ f.cache_start)
    && decide (0 ≤ toInt32 (f.cache_start + f.head))
    && decide (f.dirty = 1 ∨ f.dirty = 0)

/-- Run `check_invariants` and abort when an assertion fails. -/
def guard_invariants (f : io300_file) : Except Fault Unit :=
  if check_invariants f = true then .ok () else .error .assertion

/-- The function `io300_seek`. -/
def io300_seek (f : io300_file) (pos : Int) : Except Fault (Int × io300_file) := do
  guard_invariants f
  if pos < 0 then
    .ok (toInt32 (-1), f)
  else
    .ok (toInt32 pos, { f with head := toInt32 (pos - f.cache_start) })

/-- The function `io300_filesize`. -/
def io300_filesize (f : io300_file) : Except Fault Int := do
  guard_invariants f
  .ok (fstat_size f.fd)

/-- The function `io300_flush`. -/
def io300_flush (f : io300_file) : Except Fault (Int × io300_file) := do
  guard_invariants f
  if f.dirty ≠ 0 then
    let d1 := (lseek f.fd f.cache_start).2
    let d2 := (write d1 (f.cache.take f.valid_bytes.toNat)).2
    .ok (0, { f with fd := d2, dirty := 0 })
  else
    .ok (0, f)

/-- The function `io300_fetch`. -/
def io300_fetch (f : io300_file) : Except Fault (Int × io300_file) := do
  guard_invariants f
  let (_, f1) ← io300_flush f
  let (current_pos, d1) := lseek f1.fd (toInt32 (f1.cache_start + f1.head))
  if current_pos = -1 then
    .ok (-1, { f1 with fd := d1 })
  else
    let f2 := { f1 with fd := d1, cache := List.replicate CACHE_SIZE 0 }
    let size ← io300_filesize f2
    if toInt32 (f2.head + f2.cache_start) ≥ size then
      .ok (0, { f2 with cache_start := toInt32 (f2.cache_start + f2.head),
                        head := 0, valid_bytes := 0 })
    else
      let (bytes_read, bs, d2) := read f2.fd CACHE_SIZE
      if bytes_read = -1 then
        .ok (-1, { f2 with fd := d2 })
      else
        .ok (0, { f2 with fd := d2,
                          cache := bs ++ f2.cache.drop bs.length,
                          valid_bytes := toInt32 bytes_read,
                          cache_start := toInt32 (f2.cache_start + f2.head),
                          head := 0, dirty := 0 })

/-- The function `io300_open`, given the freshly opened descriptor and the
uninitialised buffer returned by `malloc`. -/
def io300_open (d : Fd) (mem : List Byte) : Except Fault io300_file := do
  let ret : io300_file :=
    { fd := d, cache := mem, valid_bytes := 0, dirty := 0, head := 0, cache_start := 0,
      stats := { read_calls := 0, write_calls := 0, seeks := 0 } }
  let (_, ret1) ← io300_fetch ret
  guard_invariants ret1
  .ok ret1

/-- The function `io300_close`: the descriptor state left behind. -/
def io300_close (f : io300_file) : Except Fault (Int × Fd) := do
  guard_invariants f
  let (_, f1) ← io300_flush f
  .ok (0, f1.fd)

/-- The statement `f->stats.read_calls++`. -/
def count_read (f : io300_file) : io300_file :=
  { f with stats := { f.stats with read_calls := toInt32 (f.stats.read_calls + 1) } }

/-- The statement `f->stats.write_calls++`. -/
def count_write (f : io300_file) : io300_file :=
  { f with stats := { f.stats with write_calls := toInt32 (f.stats.write_calls + 1) } }

/-- The function `io300_readc`. -/
def io300_readc (f0 : io300_file) : Except Fault (Int × io300_file) := do
  guard_invariants f0
  let f := count_read f0
  if f.head < 0 ∨ f.head ≥ CACHE_SIZE then
    let (_, f1) ← io300_fetch f
    if f1.valid_bytes = 0 then
      .ok (-1, f1)
    else
      let c ← load f1.cache f1.head
      .ok ((c.val : Int), { f1 with head := toInt32 (f1.head + 1) })
  else
    if f.valid_bytes ≤ f.head then
      .ok (-1, f)
    else
      let c ← load f.cache f.head
      .ok ((c.val : Int), { f with head := toInt32 (f.head + 1) })

/-- The shared tail of both branches of `io300_writec`: store, advance, extend, mark. -/
def writec_store (f : io300_file) (ch : Int) : Except Fault (Int × io300_file) := do
  let cache1 ← store f.cache f.head (toByte ch)
  let h := toInt32 (f.head + 1)
  let v := if h > f.valid_bytes then h else f.valid_bytes
  .ok (ch, { f with cache := cache1, head := h, valid_bytes := v, dirty := 1 })

/-- The function `io300_writec`. -/
def io300_writec (f0 : io300_file) (ch : Int) : Except Fault (Int × io300_file) := do
  guard_invariants f0
  let f := count_write f0
  if f.head < 0 ∨ f.head ≥ CACHE_SIZE then
    let (_, f1) ← io300_fetch f
    writec_store f1 ch
  else
    writec_store f ch

/-- The function `io300_read`; the result carries the bytes placed in `buff`. -/
def io300_read (f0 : io300_file) (sz : Nat) :
    Except Fault ((Int × List Byte) × io300_file) := do
  guard_invariants f0
  let f := count_read f0
  if sz > CACHE_SIZE then
    let (_, f1) ← io300_flush f
    let d1 := (lseek f1.fd (toInt32 (f1.cache_start + f1.head))).2
    let (bytes_read, bs, d2) := read d1 sz
    let f2 := { f1 with fd := d2, head := toInt32 (f1.head + toInt32 bytes_read) }
    let (_, f3) ← io300_fetch f2
    .ok ((bytes_read, bs), f3)
  else if f.head < 0 ∨ toInt32 (f.head + toInt32 sz) ≥ f.valid_bytes then
    let (_, f1) ← io300_fetch f
    let readable_bytes := if f1.valid_bytes < toInt32 sz then f1.valid_bytes else toInt32 sz
    let bs ← loadn f1.cache f1.head readable_bytes
    .ok ((readable_bytes, bs), { f1 with head := toInt32 (f1.head + readable_bytes) })
  else
    let bs ← loadn f.cache f.head sz
    .ok (((sz : Int), bs), { f with head := toInt32 (f.head + sz) })

/-- The shared tail of the two window branches of `io300_write`. -/
def write_store (f : io300_file) (buff : List Byte) : Except Fault (Int × io300_file) := do
  let cache1 ← storen f.cache f.head buff
  let h := toInt32 (f.head + toInt32 buff.length)
  let v := if h > f.valid_bytes then h else f.valid_bytes
  .ok ((buff.length : Int), { f with cache := cache1, dirty := 1, head := h, valid_bytes := v })

/-- The function `io300_write`, `buff` being the `sz` bytes handed in. -/
def io300_write (f0 : io300_file) (buff : List Byte) : Except Fault (Int × io300_file) := do
  guard_invariants f0
  let f := count_write f0
  if buff.length > CACHE_SIZE then
    let (_, f1) ← io300_flush f
    let d1 := (lseek f1.fd (toInt32 (f1.cache_start + f1.head))).2
    let (bytes_written, d2) := write d1 buff
    let f2 := { f1 with fd := d2, head := toInt32 (f1.head + toInt32 bytes_written) }
    let (_, f3) ← io300_fetch f2
    .ok (bytes_written, f3)
  else if f.head ≥ 0 ∧ toInt32 (f.head + toInt32 buff.length) < CACHE_SIZE then
    write_store f buff
  else
    let (_, f1) ← io300_fetch f
    write_store f1 buff

/-! ## Invariants and the logical view of a handle -/

/-- Largest value of a C `int`. -/
def INT_MAX : Int := 2147483647

/-- The integer `x` is the value of some C `int`. -/
def isInt32 (x : Int) : Prop := -INT_MAX - 1 ≤ x ∧ x ≤ INT_MAX

/-- What the C types alone guarantee of a handle: the buffer has `CACHE_SIZE`
bytes and each `int` field holds a 32-bit value. -/
structure WellTyped (f : io300_file) : Prop where
  buf_len : f.cache.length = CACHE_SIZE
  valid_rng : isInt32 f.valid_bytes
  dirty_rng : isInt32 f.dirty
  head_rng : isInt32 f.head
  start_rng : isInt32 f.cache_start

/-- A handle state that satisfies the invariants: it is well typed and passes
every assertion of `check_invariants`. -/
def Invariants (f : io300_file) : Prop := WellTyped f ∧ check_invariants f = true

/-- The absolute logical position `cache_start + head`. -/
def position (f : io300_file) : Int := f.cache_start + f.head

/-- The logical file: the bytes of the underlying file with the pending dirty
window applied. -/
def contents (f : io300_file) : List Byte :=
  if f.dirty ≠ 0 then pwrite f.fd.data f.cache_start.toNat (f.cache.take f.valid_bytes.toNat)
  else f.fd.data

/-- The representation invariant of the states the operations produce: the
invariants hold, the descriptor works, a clean window mirrors the file, and a
window that is not full ends at the end of the file and is zero behind its
valid bytes. -/
structure Coherent (f : io300_file) : Prop where
  inv : Invariants f
  fd_ok : f.fd.ok = true
  clean : f.dirty = 0 → ∀ i : Nat, (i : Int) < f.valid_bytes →
    f.cache_start + i < f.fd.data.length ∧
      byteAt f.cache i = byteAt f.fd.data (f.cache_start.toNat + i)
  tail : f.valid_bytes < CACHE_SIZE →
    (f.fd.data.length : Int) ≤ f.cache_start + f.valid_bytes ∧
      ∀ i : Nat, f.valid_bytes ≤ (i : Int) → byteAt f.cache i = 0

/-! ## Operations as data, runs, and the unbuffered reference -/

/-- One operation on a handle together with its argument. -/
inductive Op where
  | seek (pos : Int)
  | readc
  | writec (ch : Int)
  | read (sz : Nat)
  | write (buff : List Byte)
  | flush
  | fetch
  deriving DecidableEq, Repr

/-- The handle state one operation leaves; the value it returns is dropped. -/
def step (f : io300_file) : Op → Except Fault io300_file
  | .seek pos => do let r ← io300_seek f pos; .ok r.2
  | .readc => do let r ← io300_readc f; .ok r.2
  | .writec ch => do let r ← io300_writec f ch; .ok r.2
  | .read sz => do let r ← io300_read f sz; .ok r.2
  | .write buff => do let r ← io300_write f buff; .ok r.2
  | .flush => do let r ← io300_flush f; .ok r.2
  | .fetch => do let r ← io300_fetch f; .ok r.2

/-- The handle state a sequence of operations leaves. -/
def run (f : io300_file) : List Op → Except Fault io300_file
  | [] => .ok f
  | op :: ops => do let f1 ← step f op; run f1 ops

/-- The number of bytes by which an operation can advance the position. -/
def span : Op → Int
  | .seek _ => 0
  | .readc => 1
  | .writec _ => 1
  | .read sz => sz
  | .write buff => buff.length
  | .flush => 0
  | .fetch => 0

/-- The operation stays within the positions an `int` can hold: a seek target
is at most `INT_MAX`, and elsewhere the position plus the bytes requested is. -/
def fits (f : io300_file) : Op → Prop
  | .seek pos => pos ≤ INT_MAX
  | op => position f + span op ≤ INT_MAX

/-- Handle states reached from `io300_open` on a working descriptor (with the
`CACHE_SIZE` bytes of buffer that `malloc` returned) through any operations
that return to the caller. -/
inductive Reachable : io300_file → Prop where
  | opened (d : Fd) (mem : List Byte) (f : io300_file) :
      d.ok = true → mem.length = CACHE_SIZE → io300_open d mem = .ok f → Reachable f
  | next (f f1 : io300_file) (op : Op) :
      Reachable f → step f op = .ok f1 → Reachable f1

/-- A handle that is coherent up to its cursor: `head` holds an `int`, and some
cursor value makes the handle coherent.  Only the assertion on
`cache_start + head` can fail on such a handle. -/
def Sound (f : io300_file) : Prop :=
  isInt32 f.head ∧ ∃ h : Int, Coherent { f with head := h }

/-- Every operation of the run stays within `int` positions, judged on the
states the run goes through. -/
def runFits (f : io300_file) : List Op → Prop
  | [] => True
  | op :: ops => fits f op ∧ ∀ f1, step f op = .ok f1 → runFits f1 ops

/-- The unbuffered file: its bytes and the position of the next transfer. -/
structure Plain where
  data : List Byte
  pos : Int
  deriving DecidableEq, Repr

/-- One operation applied directly to the file: a seek to a non-negative
position moves there; a read advances over the bytes present; a write at
position `p` replaces bytes `p .. p+len-1`, extending the file and zero-filling
any hole; flush and fetch do nothing. -/
def Plain.step (s : Plain) : Op → Plain
  | .seek pos => if pos < 0 then s else { s with pos := pos }
  | .readc => if s.pos < s.data.length then { s with pos := s.pos + 1 } else s
  | .writec ch => { data := pwrite s.data s.pos.toNat [toByte ch], pos := s.pos + 1 }
  | .read sz => { s with pos := s.pos + ((s.data.drop s.pos.toNat).take sz).length }
  | .write buff => { data := pwrite s.data s.pos.toNat buff, pos := s.pos + buff.length }
  | .flush => s
  | .fetch => s

/-- A sequence of operations applied directly to the file. -/
def Plain.run (s : Plain) : List Op → Plain
  | [] => s
  | op :: ops => Plain.run (s.step op) ops

/-- Conditions on a run of the unbuffered file: seek targets and transfers stay
within `int` positions and every block write carries at least one byte. -/
def Plain.admits (s : Plain) : List Op → Prop
  | [] => True
  | op :: ops =>
    (match op with
      | .seek pos => pos ≤ INT_MAX
      | .write buff => buff ≠ [] ∧ s.pos + buff.length ≤ INT_MAX
      | o => s.pos + span o ≤ INT_MAX) ∧ Plain.admits (s.step op) ops

/-- The four calls of the round trip: seek, write, seek back, read as many bytes. -/
def write_then_read (f : io300_file) (p : Int) (S : List Byte) :
    Except Fault ((Int × List Byte) × io300_file) := do
  let (_, f1) ← io300_seek f p
  let (_, f2) ← io300_write f1 S
  let (_, f3) ← io300_seek f2 p
  io300_read f3 S.length

/-- A working descriptor on an empty file, as `open` returns it. -/
def fd_empty : Fd := { data := [], off := 0, ok := true }

/-- The handle `io300_open` returns for an empty file. -/
def f_empty : io300_file :=
  { fd := fd_empty, cache := List.replicate CACHE_SIZE 0, valid_bytes := 0, dirty := 0,
    head := 0, cache_start := 0, stats := { read_calls := 0, write_calls := 0, seeks := 0 } }

/-- The handle left by `io300_seek` to `2^31` on the handle of the empty file. -/
def f_stuck : io300_file := { f_empty with head := -2147483648 }

/-- The handle left by a seek to `INT_MAX` and a character write of `65` on the
handle of the empty file. -/
def f_brim : io300_file :=
  { fd := { data := [], off := 2147483647, ok := true },
    cache := [65, 0, 0, 0, 0, 0, 0, 0], valid_bytes := 1, dirty := 1, head := 1,
    cache_start := 2147483647,
    stats := { read_calls := 0, write_calls := 1, seeks := 0 } }

/-- The handle left by a seek to `12` and a character read (which fetches and
reports the end of the stream) on the handle of the empty file. -/
def f_far : io300_file :=
  { fd := { data := [], off := 12, ok := true },
    cache := List.replicate CACHE_SIZE 0, valid_bytes := 0, dirty := 0, head := 0,
    cache_start := 12, stats := { read_calls := 1, write_calls := 0, seeks := 0 } }

/-- A working descriptor on a file holding the three bytes `1, 2, 3`. -/
def fd_abc : Fd := { data := [1, 2, 3], off := 0, ok := true }

/-- The handle `io300_open` returns for the file `1, 2, 3`. -/
def f_abc : io300_file :=
  { fd := { data := [1, 2, 3], off := 3, ok := true },
    cache := [1, 2, 3, 0, 0, 0, 0, 0], valid_bytes := 3, dirty := 0, head := 0,
    cache_start := 0, stats := { read_calls := 0, write_calls := 0, seeks := 0 } }

/-- The handle left by a character write of `9` on the handle opened on the
file `1, 2, 3`: a dirty window whose first byte differs from the file. -/
def f_ink : io300_file :=
  { fd := { data := [1, 2, 3], off := 3, ok := true },
    cache := [9, 2, 3, 0, 0, 0, 0, 0], valid_bytes := 3, dirty := 1, head := 1,
    cache_start := 0, stats := { read_calls := 0, write_calls := 1, seeks := 0 } }

/-- The handle left by a seek to `INT_MAX - 5` on the handle of the empty file. -/
def f_edge : io300_file := { f_empty with head := 2147483642 }

/-- The handle left by a block write of seven bytes `4` on `f_ink`: the window
was written back and moved to offset `1` before the bytes were stored. -/
def f_ink_full : io300_file :=
  { fd := { data := [9, 2, 3], off := 3, ok := true },
    cache := [4, 4, 4, 4, 4, 4, 4, 0], valid_bytes := 7, dirty := 1, head := 7,
    cache_start := 1, stats := { read_calls := 0, write_calls := 2, seeks := 0 } }

/-- The handle left by a seek to `INT_MAX` on the handle of the empty file. -/
def f_top : io300_file := { f_empty with head := 2147483647 }

/-- The calls of the size test: seek to `p`, write `S`, ask for the file size. -/
def size_after_write (f : io300_file) (p : Int) (S : List Byte) : Except Fault Int := do
  let (_, f1) ← io300_seek f p
  let (_, f2) ← io300_write f1 S
  io300_filesize f2

/-- The calls of the size test with a flush: seek to `p`, write `S`, flush, ask
for the file size. -/
def size_after_flush (f : io300_file) (p : Int) (S : List Byte) : Except Fault Int := do
  let (_, f1) ← io300_seek f p
  let (_, f2) ← io300_write f1 S
  let (_, f3) ← io300_flush f2
  io300_filesize f3

/-- The same with a character write: seek to `p`, write `ch`, flush, ask for the
file size. -/
def size_after_writec (f : io300_file) (p : Int) (ch : Int) : Except Fault Int := do
  let (_, f1) ← io300_seek f p
  let (_, f2) ← io300_writec f1 ch
  let (_, f3) ← io300_flush f2
  io300_filesize f3

/-- A handle over the file `1, 2, 3` whose descriptor has stopped working (every
system call on it fails), with the cursor moved outside the window by a seek to `8`. -/
def f_dead : io300_file :=
  { fd := { data := [1, 2, 3], off := 3, ok := false },
    cache := [1, 2, 3, 0, 0, 0, 0, 0], valid_bytes := 3, dirty := 0, head := 8,
    cache_start := 0, stats := { read_calls := 0, write_calls := 0, seeks := 0 } }

/-- The same handle with the cursor at offset `1`, inside the window. -/
def f_dead_in : io300_file := { f_dead with head := 1 }

/-- The handle `f_ink` on a device that accepts no more data: `write` fails,
while `lseek`, `read` and `fstat` still succeed. -/
def f_ink_ro : io300_file :=
  { fd := { data := [1, 2, 3], off := 3, ok := false, reads := true },
    cache := [9, 2, 3, 0, 0, 0, 0, 0], valid_bytes := 3, dirty := 1, head := 1,
    cache_start := 0, stats := { read_calls := 0, write_calls := 1, seeks := 0 } }

/-- The handle `io300_flush` leaves on `f_ink_ro`: the descriptor was moved to
offset `0`, the write failed, the file is as before, and `dirty` is cleared. -/
def f_ink_ro_flushed : io300_file :=
  { fd := { data := [1, 2, 3], off := 0, ok := false, reads := true },
    cache := [9, 2, 3, 0, 0, 0, 0, 0], valid_bytes := 3, dirty := 0, head := 1,
    cache_start := 0, stats := { read_calls := 0, write_calls := 1, seeks := 0 } }

/-- The handle `io300_fetch` leaves on `f_ink_ro`: the window shows the bytes at
offset `1` of the file, which never received the byte `9` of the old window. -/
def f_ink_ro_fetched : io300_file :=
  { fd := { data := [1, 2, 3], off := 3, ok := false, reads := true },
    cache := [2, 3, 0, 0, 0, 0, 0, 0], valid_bytes := 2, dirty := 0, head := 0,
    cache_start := 1, stats := { read_calls := 0, write_calls := 1, seeks := 0 } }

/-- The handle `io300_fetch` leaves on `f_ink`: the window was written back, so
the file starts with `9`, and the window shows the bytes at offset `1`. -/
def f_ink_fetched : io300_file :=
  { fd := { data := [9, 2, 3], off := 3, ok := true },
    cache := [2, 3, 0, 0, 0, 0, 0, 0], valid_bytes := 2, dirty := 0, head := 0,
    cache_start := 1, stats := { read_calls := 0, write_calls := 1, seeks := 0 } }

/-- The handle a character read leaves on `f_top`: the window was moved to
`INT_MAX`, beyond the end of the file, and is empty. -/
def f_top_read : io300_file :=
  { fd := { data := [], off := 2147483647, ok := true },
    cache := List.replicate CACHE_SIZE 0, valid_bytes := 0, dirty := 0, head := 0,
    cache_start := 2147483647, stats := { read_calls := 1, write_calls := 0, seeks := 0 } }

/-! ## Properties -/

theorem byteAt_ge (l : List Byte) (i : Nat) (h : l.length ≤ i) : byteAt l i = 0 := by
  unfold byteAt; exact List.getD_eq_default _ _ h

theorem byteAt_append (a b : List Byte) (i : Nat) :
    byteAt (a ++ b) i = if i < a.length then byteAt a i else byteAt b (i - a.length) := by
  unfold byteAt
  split
  · rename_i h; exact List.getD_append _ _ _ _ h
  · rename_i h; exact List.getD_append_right _ _ _ _ (by omega)

theorem byteAt_take (l : List Byte) (n i : Nat) :
    byteAt (l.take n) i = if i < n then byteAt l i else 0 := by
  unfold byteAt
  simp only [List.getD_eq_getElem?_getD, List.getElem?_take]
  split <;> simp

theorem byteAt_drop (l : List Byte) (n i : Nat) :
    byteAt (l.drop n) i = byteAt l (n + i) := by
  unfold byteAt
  simp [List.getElem?_drop]

theorem byteAt_replicate (n i : Nat) : byteAt (List.replicate n 0) i = 0 := by
  unfold byteAt
  simp only [List.getD_eq_getElem?_getD, List.getElem?_replicate]
  split <;> simp

theorem byteAt_set (l : List Byte) (j : Nat) (b : Byte) (i : Nat) :
    byteAt (l.set j b) i = if i = j ∧ j < l.length then b else byteAt l i := by
  unfold byteAt
  simp only [List.getD_eq_getElem?_getD, List.getElem?_set]
  by_cases h : j = i
  · subst h
    by_cases h2 : j < l.length
    · simp [h2]
    · have h3 : l[j]? = none := List.getElem?_eq_none (by omega)
      simp [h2, h3]
  · have : ¬ (i = j) := fun e => h e.symm
    simp [h, this]

theorem byteAt_cons_zero (b : Byte) (l : List Byte) : byteAt (b :: l) 0 = b := rfl

theorem list_ext (a b : List Byte) (hl : a.length = b.length)
    (h : ∀ i, i < a.length → byteAt a i = byteAt b i) : a = b := by
  apply List.ext_getElem hl
  intro n h1 h2
  have := h n h1
  unfold byteAt at this
  rw [List.getD_eq_getElem _ _ h1, List.getD_eq_getElem _ _ h2] at this
  exact this

theorem pwrite_length (data : List Byte) (off : Nat) (bs : List Byte) :
    (pwrite data off bs).length =
      if bs.length = 0 then data.length else max data.length (off + bs.length) := by
  cases bs with
  | nil => simp [pwrite]
  | cons b rest =>
    simp only [pwrite, List.length_append, List.length_take, List.length_replicate,
      List.length_cons, List.length_drop]
    split <;> omega

theorem pwrite_byteAt (data : List Byte) (off : Nat) (bs : List Byte) (i : Nat) :
    byteAt (pwrite data off bs) i =
      if off ≤ i ∧ i < off + bs.length then byteAt bs (i - off) else byteAt data i := by
  cases bs with
  | nil =>
    have e : ¬ (off ≤ i ∧ i < off + ([] : List Byte).length) := by
      simp only [List.length_nil]; omega
    simp only [pwrite, e, if_false]
  | cons b rest =>
    have hA : ((data ++ List.replicate (off - data.length) 0).take off).length = off := by
      simp only [List.length_take, List.length_append, List.length_replicate]; omega
    have hAi : ∀ k, k < off →
        byteAt ((data ++ List.replicate (off - data.length) 0).take off) k = byteAt data k := by
      intro k hk
      rw [byteAt_take, if_pos hk, byteAt_append]
      split
      · rfl
      · rw [byteAt_replicate, byteAt_ge]; omega
    simp only [pwrite]
    rw [byteAt_append, List.length_append, hA, byteAt_append, hA]
    by_cases h1 : i < off
    · have e0 : i < off + (b :: rest).length := by omega
      have e2 : ¬ (off ≤ i ∧ i < off + (b :: rest).length) := by omega
      rw [if_pos e0, if_pos h1, if_neg e2, hAi i h1]
    · by_cases h2 : i < off + (b :: rest).length
      · have e2 : (off ≤ i ∧ i < off + (b :: rest).length) := by omega
        rw [if_pos h2, if_neg h1, if_pos e2]
      · have e2 : ¬ (off ≤ i ∧ i < off + (b :: rest).length) := by omega
        rw [if_neg h2, if_neg e2, byteAt_drop]
        congr 1
        omega
theorem toInt32_eq (x : Int) (h : isInt32 x) : toInt32 x = x := by
  unfold isInt32 INT_MAX at h; unfold toInt32; omega

theorem check_iff (f : io300_file) : check_invariants f = true ↔
    (0 ≤ f.valid_bytes ∧ f.valid_bytes ≤ CACHE_SIZE ∧ 0 ≤ f.cache_start ∧
      0 ≤ toInt32 (f.cache_start + f.head) ∧ (f.dirty = 0 ∨ f.dirty = 1)) := by
  unfold check_invariants
  simp only [Bool.and_eq_true, decide_eq_true_eq]
  constructor
  · rintro ⟨⟨⟨⟨h1, h2⟩, h3⟩, h4⟩, h5⟩
    exact ⟨h2, h1, h3, h4, h5.symm⟩
  · rintro ⟨h1, h2, h3, h4, h5⟩
    exact ⟨⟨⟨⟨h2, h1⟩, h3⟩, h4⟩, h5.symm⟩

theorem Invariants.bounds {f : io300_file} (h : Invariants f) :
    0 ≤ f.valid_bytes ∧ f.valid_bytes ≤ 8 ∧ 0 ≤ f.cache_start ∧ f.cache_start ≤ 2147483647 ∧
      0 ≤ f.cache_start + f.head ∧ f.cache_start + f.head ≤ 2147483647 ∧
      (f.dirty = 0 ∨ f.dirty = 1) ∧ f.cache.length = 8 := by
  obtain ⟨wt, ck⟩ := h
  rw [check_iff] at ck
  obtain ⟨h1, h2, h3, h4, h5⟩ := ck
  have a := wt.head_rng
  have b := wt.start_rng
  have c := wt.buf_len
  unfold isInt32 INT_MAX at a b
  unfold CACHE_SIZE at h2 c
  unfold toInt32 at h4
  refine ⟨h1, by simpa using h2, h3, b.2, ?_, ?_, h5, c⟩ <;> omega

theorem Invariants.of_nums {f : io300_file}
    (h1 : 0 ≤ f.valid_bytes) (h2 : f.valid_bytes ≤ 8) (h3 : 0 ≤ f.cache_start)
    (h5 : 0 ≤ f.cache_start + f.head) (h6 : f.cache_start + f.head ≤ 2147483647)
    (h7 : f.dirty = 0 ∨ f.dirty = 1) (h8 : f.cache.length = 8) (h9 : f.cache_start ≤ 2147483647) : Invariants f := by
  refine ⟨⟨by unfold CACHE_SIZE; exact h8, ?_, ?_, ?_, ?_⟩, ?_⟩
  · unfold isInt32 INT_MAX; omega
  · unfold isInt32 INT_MAX; omega
  · unfold isInt32 INT_MAX; omega
  · unfold isInt32 INT_MAX; omega
  · rw [check_iff]
    refine ⟨h1, by unfold CACHE_SIZE; simpa using h2, h3, ?_, h7⟩
    unfold toInt32; omega

theorem guard_ok {f : io300_file} (h : check_invariants f = true) :
    guard_invariants f = .ok () := by
  unfold guard_invariants; rw [if_pos h]

theorem flush_clean (f : io300_file) (h : check_invariants f = true) (hd : f.dirty = 0) :
    io300_flush f = .ok (0, f) := by
  unfold io300_flush
  simp [guard_ok h, hd, bind, Except.bind]

theorem flush_dirty (f : io300_file) (h : check_invariants f = true) (hd : f.dirty ≠ 0) :
    io300_flush f = .ok (0, { f with
      fd := (write (lseek f.fd f.cache_start).2 (f.cache.take f.valid_bytes.toNat)).2,
      dirty := 0 }) := by
  unfold io300_flush
  simp [guard_ok h, hd, bind, Except.bind]

theorem Coherent.nums {f : io300_file} (h : Coherent f) :
    0 ≤ f.valid_bytes ∧ f.valid_bytes ≤ 8 ∧ 0 ≤ f.cache_start ∧ f.cache_start ≤ 2147483647 ∧
      0 ≤ f.cache_start + f.head ∧ f.cache_start + f.head ≤ 2147483647 ∧
      (f.dirty = 0 ∨ f.dirty = 1) ∧ f.cache.length = 8 := h.inv.bounds

/-- Length of the logical file of a coherent handle. -/
theorem contents_length {f : io300_file} (hc : Coherent f) :
    ((contents f).length : Int) =
      if 0 < f.valid_bytes then max (f.fd.data.length : Int) (f.cache_start + f.valid_bytes)
      else f.fd.data.length := by
  obtain ⟨h1, h2, h3, h4, h5, h6, h7, h8⟩ := hc.nums
  unfold contents
  by_cases hd : f.dirty = 0
  · have hcl := hc.clean hd
    simp only [hd, ne_eq, not_true_eq_false, if_false]
    split
    · rename_i hv
      have := (hcl (f.valid_bytes - 1).toNat (by omega)).1
      omega
    · rfl
  · simp only [ne_eq, hd, not_false_eq_true, if_true]
    rw [pwrite_length, List.length_take, h8]
    split <;> split <;> omega

/-- Bytes of the logical file of a coherent handle: the window where it is
valid, the underlying file elsewhere. -/
theorem contents_byteAt {f : io300_file} (hc : Coherent f) (i : Nat) :
    byteAt (contents f) i =
      if f.cache_start ≤ (i : Int) ∧ (i : Int) < f.cache_start + f.valid_bytes then
        byteAt f.cache ((i : Int) - f.cache_start).toNat
      else byteAt f.fd.data i := by
  obtain ⟨h1, h2, h3, h4, h5, h6, h7, h8⟩ := hc.nums
  unfold contents
  by_cases hd : f.dirty = 0
  · have hcl := hc.clean hd
    simp only [hd, ne_eq, not_true_eq_false, if_false]
    split
    · rename_i hi
      have := (hcl ((i : Int) - f.cache_start).toNat (by omega)).2
      rw [this]
      congr 1
      omega
    · rfl
  · simp only [ne_eq, hd, not_false_eq_true, if_true]
    rw [pwrite_byteAt, List.length_take, h8]
    by_cases hi : f.cache_start ≤ (i : Int) ∧ (i : Int) < f.cache_start + f.valid_bytes
    · have e : f.cache_start.toNat ≤ i ∧ i < f.cache_start.toNat + min f.valid_bytes.toNat 8 := by
        omega
      rw [if_pos hi, if_pos e, byteAt_take]
      have e2 : i - f.cache_start.toNat < f.valid_bytes.toNat := by omega
      rw [if_pos e2]
      congr 1
      omega
    · have e : ¬ (f.cache_start.toNat ≤ i ∧ i < f.cache_start.toNat + min f.valid_bytes.toNat 8) := by
        omega
      rw [if_neg hi, if_neg e]

theorem lseek_ok (d : Fd) (o : Int) (hok : d.ok = true) (ho : 0 ≤ o) :
    lseek d o = (o, { d with off := o.toNat }) := by
  unfold lseek; rw [if_pos ⟨Or.inl hok, ho⟩]

/-- Flush on a coherent handle: the file becomes the logical file, the window
is clean and otherwise untouched. -/
theorem flush_spec {f : io300_file} (hc : Coherent f) :
    ∃ f1, io300_flush f = .ok (0, f1) ∧ Coherent f1 ∧ f1.dirty = 0 ∧
      f1.fd.data = contents f ∧ f1.cache = f.cache ∧ f1.valid_bytes = f.valid_bytes ∧
      f1.head = f.head ∧ f1.cache_start = f.cache_start ∧ f1.stats = f.stats := by
  obtain ⟨h1, h2, h3, h4, h5, h6, h7, h8⟩ := hc.nums
  by_cases hd : f.dirty = 0
  · refine ⟨f, flush_clean f hc.inv.2 hd, hc, hd, ?_, rfl, rfl, rfl, rfl, rfl⟩
    unfold contents; simp [hd]
  · have hlen := contents_length hc
    have hby := contents_byteAt hc
    have hdata : (write (lseek f.fd f.cache_start).2 (f.cache.take f.valid_bytes.toNat)).2.data
        = contents f := by
      rw [lseek_ok _ _ hc.fd_ok h3]
      unfold write contents
      simp [hc.fd_ok, hd]
    have hok : (write (lseek f.fd f.cache_start).2 (f.cache.take f.valid_bytes.toNat)).2.ok
        = true := by
      rw [lseek_ok _ _ hc.fd_ok h3]
      unfold write
      simp [hc.fd_ok]
    refine ⟨_, flush_dirty f hc.inv.2 hd, ?_, rfl, hdata, rfl, rfl, rfl, rfl, rfl⟩
    refine ⟨Invariants.of_nums h1 h2 h3 h5 h6 (Or.inl rfl) h8 h4, hok, ?_, ?_⟩
    · intro _ i hi
      dsimp only at hi ⊢
      rw [hdata, hlen, hby]
      have e : f.cache_start ≤ ((f.cache_start.toNat + i : Nat) : Int) ∧
          ((f.cache_start.toNat + i : Nat) : Int) < f.cache_start + f.valid_bytes := by omega
      rw [if_pos e]
      constructor
      · split <;> omega
      · congr 1; omega
    · intro hv
      dsimp only at hv ⊢
      rw [hdata, hlen]
      have := hc.tail hv
      refine ⟨?_, this.2⟩
      split <;> omega


/-- Fetch, given the state its internal flush leaves: the window is reloaded at
the logical position from the file as it then is. -/
theorem fetch_core {f f0 : io300_file} (hck : check_invariants f = true)
    (hfl : io300_flush f = .ok (0, f0)) (hi0 : Invariants f0) (hok0 : f0.fd.ok = true)
    (hd0 : f0.dirty = 0) :
    ∃ f1, io300_fetch f = .ok (0, f1) ∧ Coherent f1 ∧ f1.dirty = 0 ∧
      f1.fd.data = f0.fd.data ∧ f1.cache_start = f0.cache_start + f0.head ∧ f1.head = 0 ∧
      f1.stats = f0.stats ∧
      f1.valid_bytes =
        min 8 (max 0 ((f0.fd.data.length : Int) - (f0.cache_start + f0.head))) := by
  obtain ⟨h1, h2, h3, h4, h5, h6, h7, h8⟩ := hi0.bounds
  have hP : toInt32 (f0.cache_start + f0.head) = f0.cache_start + f0.head := by
    apply toInt32_eq; unfold isInt32 INT_MAX; omega
  have hP2 : toInt32 (f0.head + f0.cache_start) = f0.cache_start + f0.head := by
    rw [Int.add_comm]; exact hP
  have hne : ¬ (f0.cache_start + f0.head = -1) := by omega
  have hck0 : ∀ (d : Fd) (c : List Byte), check_invariants
      { fd := d, cache := c, valid_bytes := f0.valid_bytes, dirty := f0.dirty,
        head := f0.head, cache_start := f0.cache_start, stats := f0.stats } = true := by
    intro d c
    have := hi0.2
    rw [check_iff] at this ⊢
    exact this
  have hsz : ∀ (o : Nat) (c : List Byte), io300_filesize
      { fd := { data := f0.fd.data, off := o, ok := f0.fd.ok, reads := f0.fd.reads }, cache := c,
        valid_bytes := f0.valid_bytes, dirty := f0.dirty,
        head := f0.head, cache_start := f0.cache_start, stats := f0.stats }
        = .ok (f0.fd.data.length : Int) := by
    intro o c
    unfold io300_filesize fstat_size
    simp only [guard_ok (hck0 _ _), bind, Except.bind, hok0, true_or, if_true]
  have hrd : ∀ (o : Nat),
      read { data := f0.fd.data, off := o, ok := f0.fd.ok, reads := f0.fd.reads } CACHE_SIZE
      = ((((((f0.fd.data).drop o).take 8).length : Nat) : Int), ((f0.fd.data).drop o).take 8,
          Fd.mk f0.fd.data (o + (((f0.fd.data).drop o).take 8).length) f0.fd.ok f0.fd.reads) := by
    intro o
    unfold read CACHE_SIZE
    simp only [hok0, true_or, if_true]
  unfold io300_fetch
  simp only [guard_ok hck, bind, Except.bind, hfl, hP, hP2, lseek_ok _ _ hok0 h5,
    if_neg hne, hsz, hrd]
  by_cases hE : f0.cache_start + f0.head ≥ (f0.fd.data.length : Int)
  · rw [if_pos hE]
    clear hrd hsz hck0 hP hP2 hne
    refine ⟨_, rfl, ?_, hd0, rfl, rfl, rfl, rfl, ?_⟩
    · refine ⟨?_, hok0, ?_, ?_⟩
      · apply Invariants.of_nums <;> dsimp only <;> first | omega | simp [CACHE_SIZE]
      · intro _ i hi
        dsimp only at hi
        omega
      · intro _
        dsimp only
        refine ⟨by omega, fun i _ => byteAt_replicate _ _⟩
    · dsimp only; omega
  · rw [if_neg hE]
    have hlen : ((((f0.fd.data).drop (f0.cache_start + f0.head).toNat).take 8).length : Int)
        = min 8 ((f0.fd.data.length : Int) - (f0.cache_start + f0.head)) := by
      rw [List.length_take, List.length_drop]; omega
    have hn1 : ¬ (((((f0.fd.data).drop (f0.cache_start + f0.head).toNat).take 8).length : Int)
        = -1) := by
      omega
    have hv : toInt32 ((((f0.fd.data).drop (f0.cache_start + f0.head).toNat).take 8).length : Int)
        = min 8 ((f0.fd.data.length : Int) - (f0.cache_start + f0.head)) := by
      rw [toInt32_eq, hlen]
      unfold isInt32 INT_MAX; omega
    rw [if_neg hn1, hv]
    clear hv hn1 hrd hsz hck0 hP hP2 hne
    refine ⟨_, rfl, ?_, rfl, rfl, rfl, rfl, rfl, ?_⟩
    · refine ⟨?_, hok0, ?_, ?_⟩
      · apply Invariants.of_nums <;> dsimp only <;>
          first
          | omega
          | (simp only [List.length_append, List.length_drop, List.length_replicate,
              List.length_take, CACHE_SIZE]; omega)
      · intro _ i hi
        dsimp only at hi ⊢
        refine ⟨by omega, ?_⟩
        rw [byteAt_append]
        have e : i < (((f0.fd.data).drop (f0.cache_start + f0.head).toNat).take 8).length := by
          omega
        rw [if_pos e, byteAt_take, byteAt_drop]
        have e8 : i < 8 := by omega
        rw [if_pos e8]
      · intro hlt
        dsimp only at hlt ⊢
        unfold CACHE_SIZE at hlt
        refine ⟨by omega, ?_⟩
        intro i hi
        rw [byteAt_append]
        have e : ¬ (i < (((f0.fd.data).drop (f0.cache_start + f0.head).toNat).take 8).length) := by
          omega
        rw [if_neg e, byteAt_drop, byteAt_replicate]
    · dsimp only; omega

/-- Fetch on a coherent handle. -/
theorem fetch_spec {f : io300_file} (hc : Coherent f) :
    ∃ f1, io300_fetch f = .ok (0, f1) ∧ Coherent f1 ∧ f1.dirty = 0 ∧
      f1.fd.data = contents f ∧ f1.cache_start = f.cache_start + f.head ∧ f1.head = 0 ∧
      f1.stats = f.stats ∧
      f1.valid_bytes =
        min 8 (max 0 (((contents f).length : Int) - (f.cache_start + f.head))) := by
  obtain ⟨f0, hfl, hc0, hd0, hdata0, -, -, hh0, hs0, hst0⟩ := flush_spec hc
  obtain ⟨f1, e, c1, d1, da, cs, hd, st, vb⟩ := fetch_core hc.inv.2 hfl hc0.inv hc0.fd_ok hd0
  rw [hdata0, hs0, hh0] at vb
  exact ⟨f1, e, c1, d1, da.trans hdata0, by rw [cs, hs0, hh0], hd, st.trans hst0, vb⟩

/-- Fetch on a clean handle that need not mirror the file. -/
theorem fetch_of_clean {f : io300_file} (hi : Invariants f) (hok : f.fd.ok = true)
    (hd : f.dirty = 0) :
    ∃ f1, io300_fetch f = .ok (0, f1) ∧ Coherent f1 ∧ f1.dirty = 0 ∧
      f1.fd.data = f.fd.data ∧ f1.cache_start = f.cache_start + f.head ∧ f1.head = 0 ∧
      f1.stats = f.stats ∧
      f1.valid_bytes =
        min 8 (max 0 ((f.fd.data.length : Int) - (f.cache_start + f.head))) :=
  fetch_core hi.2 (flush_clean f hi.2 hd) hi hok hd

theorem contents_clean {f : io300_file} (hd : f.dirty = 0) : contents f = f.fd.data := by
  unfold contents; simp [hd]

theorem coherent_count_read {f : io300_file} (hc : Coherent f) : Coherent (count_read f) :=
  ⟨⟨⟨hc.inv.1.buf_len, hc.inv.1.valid_rng, hc.inv.1.dirty_rng, hc.inv.1.head_rng,
    hc.inv.1.start_rng⟩, hc.inv.2⟩, hc.fd_ok, hc.clean, hc.tail⟩

theorem coherent_count_write {f : io300_file} (hc : Coherent f) : Coherent (count_write f) :=
  ⟨⟨⟨hc.inv.1.buf_len, hc.inv.1.valid_rng, hc.inv.1.dirty_rng, hc.inv.1.head_rng,
    hc.inv.1.start_rng⟩, hc.inv.2⟩, hc.fd_ok, hc.clean, hc.tail⟩

/-- Moving the cursor of a coherent handle to another representable position. -/
theorem coherent_with_head {f : io300_file} (hc : Coherent f) (h : Int)
    (h0 : 0 ≤ f.cache_start + h) (h1 : f.cache_start + h ≤ 2147483647) :
    Coherent { f with head := h } := by
  obtain ⟨a1, a2, a3, a4, a5, a6, a7, a8⟩ := hc.nums
  exact ⟨Invariants.of_nums a1 a2 a3 h0 h1 a7 a8 a4, hc.fd_ok, hc.clean, hc.tail⟩

/-- The valid part of the window of a coherent handle lies inside the logical file. -/
theorem window_inside {f : io300_file} (hc : Coherent f) (hv : 0 < f.valid_bytes) :
    f.cache_start + f.valid_bytes ≤ ((contents f).length : Int) := by
  have := contents_length hc
  rw [if_pos hv] at this
  omega

/-- A window that is not full reaches the end of the logical file. -/
theorem window_reaches_end {f : io300_file} (hc : Coherent f) (hv : f.valid_bytes < 8) :
    ((contents f).length : Int) ≤ f.cache_start + f.valid_bytes := by
  have h1 := contents_length hc
  have h2 := (hc.tail (by unfold CACHE_SIZE; exact_mod_cast hv)).1
  split at h1 <;> omega

/-- The valid part of the window shows the logical file. -/
theorem window_byteAt {f : io300_file} (hc : Coherent f) (i : Nat)
    (hi : (i : Int) < f.valid_bytes) (p : Nat) (hp : (p : Int) = f.cache_start + i) :
    byteAt f.cache i = byteAt (contents f) p := by
  have h := contents_byteAt hc p
  have e : f.cache_start ≤ (p : Int) ∧ (p : Int) < f.cache_start + f.valid_bytes := by omega
  rw [if_pos e] at h
  rw [h]
  congr 1
  omega

theorem load_ok (buf : List Byte) (i : Int) (h0 : 0 ≤ i) (h1 : i < buf.length) :
    load buf i = .ok (byteAt buf i.toNat) := by
  unfold load; rw [if_pos ⟨h0, h1⟩]

/-- Seek on a coherent handle to a position that fits in an `int`. -/
theorem seek_spec {f : io300_file} (hc : Coherent f) (pos : Int) (h0 : 0 ≤ pos)
    (h1 : pos ≤ 2147483647) :
    io300_seek f pos = .ok (pos, { f with head := pos - f.cache_start }) ∧
      Coherent { f with head := pos - f.cache_start } := by
  obtain ⟨a1, a2, a3, a4, a5, a6, a7, a8⟩ := hc.nums
  have e1 : toInt32 pos = pos := toInt32_eq _ (by unfold isInt32 INT_MAX; omega)
  have e2 : toInt32 (pos - f.cache_start) = pos - f.cache_start :=
    toInt32_eq _ (by unfold isInt32 INT_MAX; omega)
  have e3 : ¬ pos < 0 := by omega
  refine ⟨?_, coherent_with_head hc _ (by omega) (by omega)⟩
  unfold io300_seek
  simp only [guard_ok hc.inv.2, bind, Except.bind, if_neg e3, e1, e2]

/-- Character read at or beyond the end of the logical file: the sentinel is
returned and the logical position and file stay as they are. -/
theorem readc_eof {f : io300_file} (hc : Coherent f)
    (h : ((contents f).length : Int) ≤ position f) :
    ∃ f1, io300_readc f = .ok (-1, f1) ∧ Coherent f1 ∧ contents f1 = contents f ∧
      position f1 = position f := by
  obtain ⟨a1, a2, a3, a4, a5, a6, a7, a8⟩ := hc.nums
  unfold position at h
  have hcr := coherent_count_read hc
  unfold io300_readc
  simp only [guard_ok hc.inv.2, bind, Except.bind]
  by_cases hw : (count_read f).head < 0 ∨ (count_read f).head ≥ (CACHE_SIZE : Int)
  · rw [if_pos hw]
    obtain ⟨f1, e, c1, d1, da, cs, hd, -, vb⟩ := fetch_spec hcr
    have hv : f1.valid_bytes = 0 := by
      rw [vb]
      show min 8 (max 0 (((contents f).length : Int) - (f.cache_start + f.head))) = 0
      omega
    simp only [e, hv, if_true]
    refine ⟨f1, rfl, c1, ?_, ?_⟩
    · rw [contents_clean d1, da]; rfl
    · unfold position; rw [cs, hd]; show f.cache_start + f.head + 0 = _; omega
  · rw [if_neg hw]
    have hw2 : ¬ (f.head < 0 ∨ f.head ≥ (CACHE_SIZE : Int)) := hw
    unfold CACHE_SIZE at hw2
    have hv : (count_read f).valid_bytes ≤ (count_read f).head := by
      show f.valid_bytes ≤ f.head
      by_contra hlt
      have := window_inside hc (by omega)
      omega
    rw [if_pos hv]
    exact ⟨_, rfl, hcr, rfl, rfl⟩

/-- Character read before the end of the logical file: the byte at the logical
position is returned and the position advances by one. -/
theorem readc_byte {f : io300_file} (hc : Coherent f)
    (h : position f < ((contents f).length : Int)) (hr : position f + 1 ≤ 2147483647) :
    ∃ f1, io300_readc f = .ok (((byteAt (contents f) (position f).toNat).val : Int), f1) ∧
      Coherent f1 ∧ contents f1 = contents f ∧ position f1 = position f + 1 := by
  obtain ⟨a1, a2, a3, a4, a5, a6, a7, a8⟩ := hc.nums
  unfold position at h hr ⊢
  have hcr := coherent_count_read hc
  unfold io300_readc
  simp only [guard_ok hc.inv.2, bind, Except.bind]
  by_cases hw : (count_read f).head < 0 ∨ (count_read f).head ≥ (CACHE_SIZE : Int)
  · rw [if_pos hw]
    obtain ⟨f1, e, c1, d1, da, cs, hd, -, vb⟩ := fetch_spec hcr
    have cs2 : f1.cache_start = f.cache_start + f.head := cs
    have vb2 : f1.valid_bytes =
        min 8 (max 0 (((contents f).length : Int) - (f.cache_start + f.head))) := vb
    have da2 : f1.fd.data = contents f := da
    have hv : ¬ f1.valid_bytes = 0 := by omega
    have hl : load f1.cache f1.head = .ok (byteAt f1.cache 0) := by
      rw [hd]
      exact load_ok _ 0 (by omega) (by rw [c1.nums.2.2.2.2.2.2.2]; decide)
    have hb : byteAt f1.cache 0 = byteAt (contents f) (f.cache_start + f.head).toNat := by
      have := (c1.clean d1 0 (by omega)).2
      rw [this, da2, cs2]
      rfl
    have e1 : toInt32 (f1.head + 1) = 1 := by rw [hd]; rfl
    simp only [e, hv, if_false, hl, hb, e1]
    refine ⟨_, rfl, ?_, ?_, ?_⟩
    · exact coherent_with_head c1 1 (by omega) (by omega)
    · show contents f1 = _
      rw [contents_clean d1, da2]
    · show f1.cache_start + 1 = _
      omega
  · rw [if_neg hw]
    have hw2 : ¬ (f.head < 0 ∨ f.head ≥ (CACHE_SIZE : Int)) := hw
    unfold CACHE_SIZE at hw2
    have hv : ¬ (count_read f).valid_bytes ≤ (count_read f).head := by
      show ¬ f.valid_bytes ≤ f.head
      intro hle
      have := window_reaches_end hc (by omega)
      omega
    have hv2 : ¬ f.valid_bytes ≤ f.head := hv
    rw [if_neg hv]
    have hl : load (count_read f).cache (count_read f).head = .ok (byteAt f.cache f.head.toNat) :=
      load_ok _ _ (by show 0 ≤ f.head; omega) (by show f.head < f.cache.length; omega)
    have hb : byteAt f.cache f.head.toNat = byteAt (contents f) (f.cache_start + f.head).toNat :=
      window_byteAt hc _ (by omega) _ (by omega)
    have e1 : toInt32 ((count_read f).head + 1) = f.head + 1 :=
      toInt32_eq _ (by show isInt32 (f.head + 1); unfold isInt32 INT_MAX; omega)
    simp only [hl, hb, e1]
    refine ⟨_, rfl, ?_, rfl, ?_⟩
    · exact coherent_with_head hcr (f.head + 1) (by show 0 ≤ f.cache_start + _; omega)
        (by show f.cache_start + _ ≤ _; omega)
    · show f.cache_start + (f.head + 1) = _
      omega

/-- Writing the window back over the file gives the logical file. -/
theorem pwrite_window {f : io300_file} (hc : Coherent f) :
    pwrite f.fd.data f.cache_start.toNat (f.cache.take f.valid_bytes.toNat) = contents f := by
  obtain ⟨a1, a2, a3, a4, a5, a6, a7, a8⟩ := hc.nums
  by_cases hd : f.dirty = 0
  · rw [contents_clean hd]
    have hcl := hc.clean hd
    apply list_ext
    · rw [pwrite_length, List.length_take, a8]
      split
      · rfl
      · have := (hcl (f.valid_bytes - 1).toNat (by omega)).1
        omega
    · intro i _
      rw [pwrite_byteAt, List.length_take, a8]
      split
      · rename_i hi
        rw [byteAt_take, if_pos (by omega)]
        have := (hcl (i - f.cache_start.toNat) (by omega)).2
        rw [this]
        congr 1
        omega
      · rfl
  · unfold contents
    rw [if_pos hd]

/-- Overlaying a window in which the bytes `bs` were stored at index `h` equals
writing `bs` at offset `c + h` into the file overlaid with the old window. -/
theorem store_overlay (data cache cache1 bs : List Byte) (c v h : Nat)
    (hlen : cache.length = 8) (hlen1 : cache1.length = 8) (hv : v ≤ 8)
    (hn : 0 < bs.length) (hfit : h + bs.length ≤ 8)
    (hst : ∀ j, byteAt cache1 j =
      if h ≤ j ∧ j < h + bs.length then byteAt bs (j - h) else byteAt cache j)
    (htail : v < 8 → data.length ≤ c + v ∧ ∀ i, v ≤ i → byteAt cache i = 0) :
    pwrite data c (cache1.take (max v (h + bs.length))) =
      pwrite (pwrite data c (cache.take v)) (c + h) bs := by
  apply list_ext
  · simp only [pwrite_length, List.length_take, hlen, hlen1]
    split_ifs <;> omega
  · intro i _
    simp only [pwrite_byteAt, List.length_take, hlen, hlen1, byteAt_take, hst]
    by_cases h1 : c + h ≤ i ∧ i < c + h + bs.length
    · have e1 : c ≤ i ∧ i < c + min (max v (h + bs.length)) 8 := by omega
      have e2 : i - c < max v (h + bs.length) := by omega
      have e3 : h ≤ i - c ∧ i - c < h + bs.length := by omega
      rw [if_pos e1, if_pos e2, if_pos e3, if_pos h1]
      congr 1
      omega
    · rw [if_neg h1]
      by_cases h2 : c ≤ i ∧ i < c + min v 8
      · have e1 : c ≤ i ∧ i < c + min (max v (h + bs.length)) 8 := by omega
        have e2 : i - c < max v (h + bs.length) := by omega
        have e3 : ¬ (h ≤ i - c ∧ i - c < h + bs.length) := by omega
        have e4 : i - c < v := by omega
        rw [if_pos e1, if_pos e2, if_neg e3, if_pos h2, if_pos e4]
      · rw [if_neg h2]
        by_cases h3 : c ≤ i ∧ i < c + min (max v (h + bs.length)) 8
        · have e2 : i - c < max v (h + bs.length) := by omega
          have e3 : ¬ (h ≤ i - c ∧ i - c < h + bs.length) := by omega
          rw [if_pos h3, if_pos e2, if_neg e3]
          have hv8 : v < 8 := by omega
          obtain ⟨t1, t2⟩ := htail hv8
          rw [t2 (i - c) (by omega), byteAt_ge data i (by omega)]
        · rw [if_neg h3]

/-- The state after bytes were stored in the window at the cursor. -/
theorem window_store {f : io300_file} (hc : Coherent f) (cache1 bs : List Byte)
    (h0 : 0 ≤ f.head) (hfit : f.head + bs.length ≤ 8)
    (hr : f.cache_start + f.head + bs.length ≤ 2147483647)
    (hlen1 : cache1.length = 8)
    (hst : ∀ j, byteAt cache1 j =
      if f.head.toNat ≤ j ∧ j < f.head.toNat + bs.length then byteAt bs (j - f.head.toNat)
      else byteAt f.cache j) :
    Coherent { f with cache := cache1, dirty := 1, head := f.head + bs.length,
                      valid_bytes := if f.head + bs.length > f.valid_bytes
                        then f.head + bs.length else f.valid_bytes } ∧
    (0 < bs.length →
      contents { f with cache := cache1, dirty := 1, head := f.head + bs.length,
                        valid_bytes := if f.head + bs.length > f.valid_bytes
                          then f.head + bs.length else f.valid_bytes }
        = pwrite (contents f) (f.cache_start + f.head).toNat bs) := by
  obtain ⟨a1, a2, a3, a4, a5, a6, a7, a8⟩ := hc.nums
  have htl := hc.tail
  unfold CACHE_SIZE at htl
  constructor
  · refine ⟨?_, hc.fd_ok, ?_, ?_⟩
    · apply Invariants.of_nums <;> dsimp only
      · split <;> omega
      · split <;> omega
      · exact a3
      · omega
      · omega
      · exact Or.inr rfl
      · exact hlen1
      · exact a4
    · intro hd
      dsimp only at hd
      omega
    · intro hv
      dsimp only at hv ⊢
      unfold CACHE_SIZE at hv
      have hv8 : f.valid_bytes < 8 := by split at hv <;> omega
      obtain ⟨t1, t2⟩ := htl (by exact_mod_cast hv8)
      constructor
      · split <;> omega
      · intro i hi
        have e : ¬ (f.head.toNat ≤ i ∧ i < f.head.toNat + bs.length) := by
          split at hi <;> omega
        rw [hst, if_neg e]
        apply t2
        split at hi <;> omega
  · intro hn
    rw [← pwrite_window hc]
    unfold contents
    dsimp only
    rw [if_pos (by decide)]
    have e1 : (if f.head + (bs.length : Int) > f.valid_bytes then f.head + (bs.length : Int)
        else f.valid_bytes).toNat = max f.valid_bytes.toNat (f.head.toNat + bs.length) := by
      split <;> omega
    have e2 : (f.cache_start + f.head).toNat = f.cache_start.toNat + f.head.toNat := by omega
    rw [e1, e2]
    apply store_overlay _ _ _ _ _ _ _ a8 hlen1 (by omega) hn (by omega) hst
    intro hv
    obtain ⟨t1, t2⟩ := htl (by omega)
    exact ⟨by omega, fun i hi => t2 i (by omega)⟩

theorem write_ok (d : Fd) (bs : List Byte) (hok : d.ok = true) :
    write d bs = ((bs.length : Int),
      Fd.mk (pwrite d.data d.off bs) (d.off + bs.length) d.ok d.reads) := by
  unfold write; rw [if_pos hok]

theorem read_ok (d : Fd) (n : Nat) (hok : d.ok = true) :
    read d n = (((((d.data.drop d.off).take n).length : Nat) : Int), (d.data.drop d.off).take n,
      Fd.mk d.data (d.off + ((d.data.drop d.off).take n).length) d.ok d.reads) := by
  unfold read; rw [if_pos (Or.inl hok)]

theorem store_ok (buf : List Byte) (i : Int) (b : Byte) (h0 : 0 ≤ i) (h1 : i < buf.length) :
    store buf i b = .ok (buf.set i.toNat b) := by
  unfold store; rw [if_pos ⟨h0, h1⟩]

theorem storen_ok (buf : List Byte) (i : Int) (bs : List Byte) (h0 : 0 ≤ i)
    (h1 : i + bs.length ≤ buf.length) :
    storen buf i bs = .ok (buf.take i.toNat ++ bs ++ buf.drop (i.toNat + bs.length)) := by
  unfold storen; rw [if_pos ⟨h0, h1⟩]

theorem loadn_ok (buf : List Byte) (i n : Int) (h0 : 0 ≤ i) (hn : 0 ≤ n)
    (h1 : i + n ≤ buf.length) :
    loadn buf i n = .ok ((buf.drop i.toNat).take n.toNat) := by
  unfold loadn; rw [if_pos ⟨h0, hn, h1⟩]

/-- Bytes of a buffer after `memcpy` of `bs` to index `h`. -/
theorem byteAt_storen (buf bs : List Byte) (h : Nat) (hfit : h + bs.length ≤ buf.length)
    (j : Nat) :
    byteAt (buf.take h ++ bs ++ buf.drop (h + bs.length)) j =
      if h ≤ j ∧ j < h + bs.length then byteAt bs (j - h) else byteAt buf j := by
  have hA : (buf.take h).length = h := by rw [List.length_take]; omega
  rw [byteAt_append, List.length_append, hA, byteAt_append, hA, byteAt_take, byteAt_drop]
  by_cases h1 : j < h
  · have e : ¬ (h ≤ j ∧ j < h + bs.length) := by omega
    rw [if_pos (by omega), if_pos h1, if_pos h1, if_neg e]
  · by_cases h2 : j < h + bs.length
    · rw [if_pos h2, if_neg h1, if_pos ⟨by omega, h2⟩]
    · have e : ¬ (h ≤ j ∧ j < h + bs.length) := by omega
      rw [if_neg h2, if_neg e]
      congr 1
      omega

/-- The store step of `io300_writec` with the cursor inside the window. -/
theorem writec_store_spec {f : io300_file} (hc : Coherent f) (ch : Int)
    (h0 : 0 ≤ f.head) (h8 : f.head < 8) (hr : f.cache_start + f.head + 1 ≤ 2147483647) :
    ∃ f1, writec_store f ch = .ok (ch, f1) ∧ Coherent f1 ∧
      position f1 = position f + 1 ∧
      contents f1 = pwrite (contents f) (position f).toNat [toByte ch] := by
  obtain ⟨a1, a2, a3, a4, a5, a6, a7, a8⟩ := hc.nums
  have hs := store_ok f.cache f.head (toByte ch) h0 (by omega)
  have e1 : toInt32 (f.head + 1) = f.head + 1 :=
    toInt32_eq _ (by unfold isInt32 INT_MAX; omega)
  have hw := window_store hc (f.cache.set f.head.toNat (toByte ch)) [toByte ch] h0
    (by simp only [List.length_singleton]; omega)
    (by simp only [List.length_singleton]; omega)
    (by rw [List.length_set]; exact a8)
    (by
      intro j
      rw [byteAt_set]
      simp only [List.length_singleton]
      by_cases hj : j = f.head.toNat
      · subst hj
        rw [if_pos ⟨rfl, by omega⟩, if_pos ⟨by omega, by omega⟩, Nat.sub_self]
        rfl
      · rw [if_neg (by omega), if_neg (by omega)])
  simp only [List.length_singleton, Nat.cast_one] at hw
  unfold writec_store
  simp only [hs, bind, Except.bind, e1]
  refine ⟨_, rfl, hw.1, ?_, ?_⟩
  · unfold position; dsimp only; omega
  · unfold position; exact hw.2 (by decide)

/-- The store step of `io300_write` when the bytes fit in the window at the cursor. -/
theorem write_store_spec {f : io300_file} (hc : Coherent f) (bs : List Byte)
    (h0 : 0 ≤ f.head) (hfit : f.head + bs.length ≤ 8)
    (hr : f.cache_start + f.head + bs.length ≤ 2147483647) :
    ∃ f1, write_store f bs = .ok ((bs.length : Int), f1) ∧ Coherent f1 ∧
      position f1 = position f + bs.length ∧
      (0 < bs.length → contents f1 = pwrite (contents f) (position f).toNat bs) := by
  obtain ⟨a1, a2, a3, a4, a5, a6, a7, a8⟩ := hc.nums
  have hs := storen_ok f.cache f.head bs h0 (by omega)
  have e0 : toInt32 (bs.length : Int) = bs.length :=
    toInt32_eq _ (by unfold isInt32 INT_MAX; omega)
  have e1 : toInt32 (f.head + bs.length) = f.head + bs.length :=
    toInt32_eq _ (by unfold isInt32 INT_MAX; omega)
  have hw := window_store hc _ bs h0 hfit hr
    (by simp only [List.length_append, List.length_take, List.length_drop]; omega)
    (byteAt_storen f.cache bs f.head.toNat (by omega))
  unfold write_store
  simp only [hs, bind, Except.bind, e0, e1]
  refine ⟨_, rfl, hw.1, ?_, ?_⟩
  · unfold position; dsimp only; omega
  · unfold position; exact hw.2

/-- Character write on a coherent handle. -/
theorem writec_spec {f : io300_file} (hc : Coherent f) (ch : Int)
    (hr : position f + 1 ≤ 2147483647) :
    ∃ f1, io300_writec f ch = .ok (ch, f1) ∧ Coherent f1 ∧
      position f1 = position f + 1 ∧
      contents f1 = pwrite (contents f) (position f).toNat [toByte ch] := by
  obtain ⟨a1, a2, a3, a4, a5, a6, a7, a8⟩ := hc.nums
  have hcw := coherent_count_write hc
  unfold io300_writec
  simp only [guard_ok hc.inv.2, bind, Except.bind]
  by_cases hw : (count_write f).head < 0 ∨ (count_write f).head ≥ (CACHE_SIZE : Int)
  · rw [if_pos hw]
    obtain ⟨f1, e, c1, d1, da, cs, hd, -, -⟩ := fetch_spec hcw
    have cs2 : f1.cache_start = f.cache_start + f.head := cs
    have da2 : f1.fd.data = contents f := da
    have hp1 : position f1 = position f := by unfold position; rw [cs2, hd]; omega
    unfold position at hr
    obtain ⟨f2, e2, c2, p2, k2⟩ := writec_store_spec c1 ch (by omega) (by omega) (by omega)
    simp only [e]
    refine ⟨f2, e2, c2, by rw [p2, hp1], ?_⟩
    rw [k2, contents_clean d1, da2, hp1]
  · rw [if_neg hw]
    have hw2 : ¬ (f.head < 0 ∨ f.head ≥ (CACHE_SIZE : Int)) := hw
    unfold CACHE_SIZE at hw2
    unfold position at hr
    exact writec_store_spec hcw ch (by show 0 ≤ f.head; omega) (by show f.head < 8; omega)
      (by show f.cache_start + f.head + 1 ≤ _; omega)

/-- Block write on a coherent handle. -/
theorem write_spec {f : io300_file} (hc : Coherent f) (bs : List Byte)
    (hr : position f + bs.length ≤ 2147483647) :
    ∃ f1, io300_write f bs = .ok ((bs.length : Int), f1) ∧ Coherent f1 ∧
      position f1 = position f + bs.length ∧
      (0 < bs.length → contents f1 = pwrite (contents f) (position f).toNat bs) := by
  obtain ⟨a1, a2, a3, a4, a5, a6, a7, a8⟩ := hc.nums
  have hcw := coherent_count_write hc
  unfold position at hr
  have e0 : toInt32 (bs.length : Int) = bs.length :=
    toInt32_eq _ (by unfold isInt32 INT_MAX; omega)
  have e1 : toInt32 (f.head + bs.length) = f.head + bs.length :=
    toInt32_eq _ (by unfold isInt32 INT_MAX; omega)
  unfold io300_write
  simp only [guard_ok hc.inv.2, bind, Except.bind]
  by_cases hbig : bs.length > CACHE_SIZE
  · rw [if_pos hbig]
    obtain ⟨f0, hfl, hc0, hd0, hdata0, -, hv0, hh0, hs0, -⟩ := flush_spec hcw
    have hh : f0.head = f.head := hh0
    have hs : f0.cache_start = f.cache_start := hs0
    have hda : f0.fd.data = contents f := hdata0
    obtain ⟨b1, b2, b3, b4, b5, b6, b7, b8⟩ := hc0.nums
    have eP : toInt32 (f0.cache_start + f0.head) = f.cache_start + f.head := by
      rw [hh, hs]; exact toInt32_eq _ (by unfold isInt32 INT_MAX; omega)
    have eH : toInt32 (f0.head + toInt32 (bs.length : Int)) = f.head + bs.length := by
      rw [e0, hh, e1]
    have hi2 : Invariants { f0 with
        fd := Fd.mk (pwrite f0.fd.data (f.cache_start + f.head).toNat bs)
          ((f.cache_start + f.head).toNat + bs.length) f0.fd.ok f0.fd.reads,
        head := f.head + bs.length } := by
      apply Invariants.of_nums <;> dsimp only <;> omega
    obtain ⟨f3, e3, c3, d3, da3, cs3, hd3, -, -⟩ := fetch_of_clean hi2 hc0.fd_ok hd0
    have hwo := write_ok (Fd.mk f0.fd.data (f.cache_start + f.head).toNat f0.fd.ok f0.fd.reads) bs
      hc0.fd_ok
    simp only [hfl, eP, lseek_ok _ _ hc0.fd_ok a5, hwo, eH, e3]
    refine ⟨f3, rfl, c3, ?_, ?_⟩
    · unfold position
      rw [cs3, hd3]
      dsimp only
      omega
    · intro _
      rw [contents_clean d3, da3]
      dsimp only
      rw [hda]
      rfl
  · rw [if_neg hbig]
    unfold CACHE_SIZE at hbig
    by_cases hin : (count_write f).head ≥ 0 ∧
        toInt32 ((count_write f).head + toInt32 (bs.length : Int)) < (CACHE_SIZE : Int)
    · rw [if_pos hin]
      have hin2 : f.head ≥ 0 ∧ toInt32 (f.head + toInt32 (bs.length : Int)) < (CACHE_SIZE : Int) :=
        hin
      rw [e0, e1] at hin2
      unfold CACHE_SIZE at hin2
      exact write_store_spec hcw bs (by show 0 ≤ f.head; omega)
        (by show f.head + _ ≤ 8; omega) (by show f.cache_start + f.head + _ ≤ _; omega)
    · rw [if_neg hin]
      obtain ⟨f1, e, c1, d1, da, cs, hd, -, -⟩ := fetch_spec hcw
      have cs2 : f1.cache_start = f.cache_start + f.head := cs
      have da2 : f1.fd.data = contents f := da
      have hp1 : position f1 = f.cache_start + f.head := by
        unfold position; rw [cs2, hd]; omega
      obtain ⟨f2, e2, c2, p2, k2⟩ := write_store_spec c1 bs (by omega) (by omega) (by omega)
      simp only [e]
      refine ⟨f2, e2, c2, by rw [p2, hp1]; rfl, ?_⟩
      intro hn
      rw [k2 hn, contents_clean d1, da2, hp1]
      rfl

/-- A slice of the window equals a slice of the logical file once their bytes agree. -/
theorem slice_eq (cache cont : List Byte) (h p r n : Nat)
    (hlen : ((cont.drop p).take n).length = r) (hfit : h + r ≤ cache.length)
    (hb : ∀ i, i < r → byteAt cache (h + i) = byteAt cont (p + i)) :
    (cache.drop h).take r = (cont.drop p).take n := by
  apply list_ext
  · rw [hlen, List.length_take, List.length_drop]; omega
  · intro i hi
    rw [List.length_take, List.length_drop] at hi
    have hi1 : i < r := by omega
    have hi2 : i < n := by
      rw [List.length_take] at hlen; omega
    rw [byteAt_take, byteAt_take, byteAt_drop, byteAt_drop, if_pos hi1, if_pos hi2]
    exact hb i hi1

theorem toInt32_of_bounds (x : Int) (h1 : -2147483648 ≤ x) (h2 : x ≤ 2147483647) :
    toInt32 x = x := by
  unfold toInt32; omega

/-- Block read on a coherent handle: the bytes of the logical file at the
logical position, cut short at its end. -/
theorem read_spec {f : io300_file} (hc : Coherent f) (n : Nat)
    (hr : position f + n ≤ 2147483647) :
    ∃ f1, io300_read f n =
        .ok ((((((contents f).drop (position f).toNat).take n).length : Nat),
              ((contents f).drop (position f).toNat).take n), f1) ∧
      Coherent f1 ∧ contents f1 = contents f ∧
      position f1 = position f + (((contents f).drop (position f).toNat).take n).length := by
  obtain ⟨a1, a2, a3, a4, a5, a6, a7, a8⟩ := hc.nums
  have hcr := coherent_count_read hc
  unfold position at hr ⊢
  have hL : ((((contents f).drop (f.cache_start + f.head).toNat).take n).length : Int) =
      min (n : Int) (max 0 (((contents f).length : Int) - (f.cache_start + f.head))) := by
    rw [List.length_take, List.length_drop]; omega
  generalize hbs0 : ((contents f).drop (f.cache_start + f.head).toNat).take n = bs at hL ⊢
  have hlen_le : (bs.length : Int) ≤ n := by omega
  have n1 : (0 : Int) ≤ n := Int.ofNat_nonneg n
  have n2 : (n : Int) ≤ 2147483647 := by omega
  have k1 : -2147483648 ≤ f.head + n := by omega
  have k2 : f.head + n ≤ 2147483647 := by omega
  have k3 : -2147483648 ≤ f.head + bs.length := by omega
  have k4 : f.head + bs.length ≤ 2147483647 := by omega
  have k5 : (bs.length : Int) ≤ 2147483647 := by omega
  have k6 : (0 : Int) ≤ bs.length := Int.ofNat_nonneg _
  unfold io300_read
  simp only [guard_ok hc.inv.2, bind, Except.bind]
  by_cases hbig : n > CACHE_SIZE
  · rw [if_pos hbig]
    obtain ⟨f0, hfl, hc0, hd0, hdata0, -, hv0, hh0, hs0, -⟩ := flush_spec hcr
    have hh : f0.head = f.head := hh0
    have hs : f0.cache_start = f.cache_start := hs0
    have hda : f0.fd.data = contents f := hdata0
    obtain ⟨b1, b2, b3, b4, b5, b6, b7, b8⟩ := hc0.nums
    have hi2 : Invariants { f0 with
        fd := Fd.mk (contents f) ((f.cache_start + f.head).toNat + bs.length) f0.fd.ok f0.fd.reads,
        head := f.head + bs.length } := by
      apply Invariants.of_nums <;> dsimp only <;> omega
    obtain ⟨f3, e3, c3, d3, da3, cs3, hd3, -, -⟩ := fetch_of_clean hi2 hc0.fd_ok hd0
    have hpos : f3.cache_start + f3.head = f.cache_start + f.head + bs.length := by
      rw [cs3, hd3]; dsimp only; omega
    have hro := read_ok (Fd.mk f0.fd.data (f.cache_start + f.head).toNat f0.fd.ok f0.fd.reads) n hc0.fd_ok
    dsimp only at hro
    rw [hda, hbs0] at hro
    have eP : toInt32 (f0.cache_start + f0.head) = f.cache_start + f.head := by
      rw [hh, hs]; exact toInt32_of_bounds _ (by omega) a6
    have eL : toInt32 (bs.length : Int) = bs.length := toInt32_of_bounds _ (by omega) k5
    have eH : toInt32 (f0.head + (bs.length : Int)) = f.head + bs.length := by
      rw [hh]; exact toInt32_of_bounds _ k3 k4
    simp only [hfl, eP, lseek_ok _ _ hc0.fd_ok a5, hda, hro, eL, eH, e3]
    exact ⟨f3, rfl, c3, by rw [contents_clean d3, da3], hpos⟩
  · rw [if_neg hbig]
    unfold CACHE_SIZE at hbig
    have e0 : toInt32 (n : Int) = n := toInt32_of_bounds _ (by omega) n2
    have e1 : toInt32 (f.head + n) = f.head + n := toInt32_of_bounds _ k1 k2
    have hcond : ((count_read f).head < 0 ∨
        toInt32 ((count_read f).head + (n : Int)) ≥ (count_read f).valid_bytes) ↔
        (f.head < 0 ∨ f.head + n ≥ f.valid_bytes) := by
      show (f.head < 0 ∨ toInt32 (f.head + (n : Int)) ≥ f.valid_bytes) ↔ _
      rw [e1]
    simp only [e0]
    simp only [hcond]
    clear hcond e1
    by_cases hout : f.head < 0 ∨ f.head + n ≥ f.valid_bytes
    · rw [if_pos hout]
      clear hout e0
      obtain ⟨f1, e, c1, d1, da, cs, hd, -, vb⟩ := fetch_spec hcr
      have cs2 : f1.cache_start = f.cache_start + f.head := cs
      have da2 : f1.fd.data = contents f := da
      have vb2 : f1.valid_bytes =
          min 8 (max 0 (((contents f).length : Int) - (f.cache_start + f.head))) := vb
      clear vb cs da
      obtain ⟨b1, b2, b3, b4, b5, b6, b7, b8⟩ := c1.nums
      have hk : (bs.length : Int) ≤ f1.valid_bytes := by omega
      have hrd : (if f1.valid_bytes < (n : Int) then f1.valid_bytes else (n : Int))
          = ((bs.length : Nat) : Int) := by
        rw [hL]; split <;> omega
      clear vb2 hL
      have hlist : (f1.cache.drop 0).take bs.length = bs := by
        rw [← hbs0] 
        refine slice_eq f1.cache (contents f) 0 (f.cache_start + f.head).toNat _ n rfl ?_ ?_
        · rw [hbs0]; clear hrd; omega
        · intro i hi
          rw [hbs0] at hi
          have := (c1.clean d1 i (by clear hrd; omega)).2
          rw [da2, cs2] at this
          rw [Nat.zero_add, this]
      have hbs : loadn f1.cache f1.head ((bs.length : Nat) : Int) = .ok bs := by
        rw [hd, loadn_ok f1.cache 0 _ (le_refl 0) k6 (by clear hrd; omega)]
        simp only [Int.toNat_ofNat, Int.toNat_zero, hlist]
      have eH : toInt32 (f1.head + ((bs.length : Nat) : Int)) = bs.length := by
        rw [hd, Int.zero_add]; exact toInt32_of_bounds _ (by clear hrd; omega) k5
      simp only [e, hrd, hbs, eH]
      clear hrd eH
      refine ⟨_, rfl, ?_, ?_, ?_⟩
      · exact coherent_with_head c1 _ (by omega) (by omega)
      · show contents f1 = _
        rw [contents_clean d1, da2]
      · dsimp only
        omega
    · rw [if_neg hout]
      clear e0
      have hin := window_inside hc (by omega)
      have hlen : bs.length = n := by omega
      have hlist : (f.cache.drop f.head.toNat).take n = bs := by
        rw [← hbs0]
        refine slice_eq f.cache (contents f) f.head.toNat (f.cache_start + f.head).toNat
          n n (by rw [hbs0]; exact hlen) ?_ ?_
        · omega
        · intro i hi
          exact window_byteAt hc _ (by omega) _ (by omega)
      have hbs : loadn (count_read f).cache (count_read f).head (n : Int) = .ok bs := by
        rw [loadn_ok _ _ _ (by show 0 ≤ f.head; omega) n1
          (by show f.head + _ ≤ (f.cache.length : Int); omega)]
        simp only [Int.toNat_ofNat]
        exact congrArg Except.ok hlist
      have eH : toInt32 ((count_read f).head + (n : Int)) = f.head + n :=
        toInt32_of_bounds _ k1 k2
      simp only [hbs, eH, hlen]
      clear eH
      refine ⟨_, rfl, ?_, rfl, ?_⟩
      · exact coherent_with_head hcr _ (by show 0 ≤ f.cache_start + _; omega)
          (by show f.cache_start + _ ≤ _; omega)
      · show f.cache_start + (f.head + n) = _
        omega

/-- Flush on a state that satisfies the invariants, with a working descriptor. -/
theorem flush_inv {f : io300_file} (hi : Invariants f) (hok : f.fd.ok = true) :
    ∃ f1, io300_flush f = .ok (0, f1) ∧ Invariants f1 ∧ f1.fd.ok = true ∧ f1.dirty = 0 ∧
      f1.fd.data = contents f ∧ f1.cache = f.cache ∧ f1.valid_bytes = f.valid_bytes ∧
      f1.head = f.head ∧ f1.cache_start = f.cache_start ∧ f1.stats = f.stats := by
  obtain ⟨h1, h2, h3, h4, h5, h6, h7, h8⟩ := hi.bounds
  by_cases hd : f.dirty = 0
  · exact ⟨f, flush_clean f hi.2 hd, hi, hok, hd, (contents_clean hd).symm, rfl, rfl, rfl, rfl,
      rfl⟩
  · have hdata : (write (lseek f.fd f.cache_start).2 (f.cache.take f.valid_bytes.toNat)).2.data
        = contents f := by
      rw [lseek_ok _ _ hok h3]
      unfold write contents
      simp [hok, hd]
    have hok1 : (write (lseek f.fd f.cache_start).2 (f.cache.take f.valid_bytes.toNat)).2.ok
        = true := by
      rw [lseek_ok _ _ hok h3]
      unfold write
      simp [hok]
    exact ⟨_, flush_dirty f hi.2 hd, Invariants.of_nums h1 h2 h3 h5 h6 (Or.inl rfl) h8 h4, hok1,
      rfl, hdata, rfl, rfl, rfl, rfl, rfl⟩

/-- Fetch on a state that satisfies the invariants, with a working descriptor:
the window is reloaded at the logical position and the result is coherent. -/
theorem fetch_inv {f : io300_file} (hi : Invariants f) (hok : f.fd.ok = true) :
    ∃ f1, io300_fetch f = .ok (0, f1) ∧ Coherent f1 ∧ f1.dirty = 0 ∧
      f1.fd.data = contents f ∧ f1.cache_start = f.cache_start + f.head ∧ f1.head = 0 ∧
      f1.stats = f.stats ∧
      f1.valid_bytes =
        min 8 (max 0 (((contents f).length : Int) - (f.cache_start + f.head))) := by
  obtain ⟨f0, hfl, hi0, hok0, hd0, hdata0, -, -, hh0, hs0, hst0⟩ := flush_inv hi hok
  obtain ⟨f1, e, c1, d1, da, cs, hd, st, vb⟩ := fetch_core hi.2 hfl hi0 hok0 hd0
  rw [hdata0, hs0, hh0] at vb
  exact ⟨f1, e, c1, d1, da.trans hdata0, by rw [cs, hs0, hh0], hd, st.trans hst0, vb⟩

/-- Opening a working descriptor yields a coherent handle at position 0 whose
logical file is the file. -/
theorem open_spec (d : Fd) (mem : List Byte) (hok : d.ok = true)
    (hmem : mem.length = CACHE_SIZE) :
    ∃ f, io300_open d mem = .ok f ∧ Coherent f ∧ contents f = d.data ∧ position f = 0 := by
  have hi : Invariants (io300_file.mk d mem 0 0 0 0 (io300_statistics.mk 0 0 0)) := by
    apply Invariants.of_nums <;> dsimp only <;> first | omega | exact Or.inl rfl | exact hmem
  obtain ⟨f1, e, c1, d1, da, cs, hd, -, -⟩ := fetch_inv hi hok
  unfold io300_open
  simp only [e, bind, Except.bind, guard_ok c1.inv.2]
  refine ⟨f1, rfl, c1, ?_, ?_⟩
  · rw [contents_clean d1, da]; exact contents_clean rfl
  · unfold position; rw [cs, hd]; rfl

theorem f_empty_open : io300_open fd_empty (List.replicate CACHE_SIZE 0) = .ok f_empty := rfl

/-- A negative seek target is rejected and the handle is left as it was. -/
theorem seek_neg (f : io300_file) (pos : Int) (hck : check_invariants f = true)
    (h : pos < 0) : io300_seek f pos = .ok (-1, f) := by
  unfold io300_seek
  simp only [guard_ok hck, bind, Except.bind, if_pos h]
  rfl

/-- Seek to a position that fits in an `int`, on a state satisfying the invariants. -/
theorem seek_inv {f : io300_file} (hi : Invariants f) (pos : Int) (h0 : 0 ≤ pos)
    (h1 : pos ≤ 2147483647) :
    io300_seek f pos = .ok (pos, { f with head := pos - f.cache_start }) ∧
      Invariants { f with head := pos - f.cache_start } := by
  obtain ⟨a1, a2, a3, a4, a5, a6, a7, a8⟩ := hi.bounds
  have e3 : ¬ pos < 0 := by omega
  have k1 : -2147483648 ≤ pos := by omega
  have k2 : -2147483648 ≤ pos - f.cache_start := by omega
  have k3 : pos - f.cache_start ≤ 2147483647 := by omega
  have hi1 : Invariants { f with head := pos - f.cache_start } := by
    apply Invariants.of_nums <;> dsimp only <;> omega
  have e1 : toInt32 pos = pos := toInt32_of_bounds _ k1 h1
  have e2 : toInt32 (pos - f.cache_start) = pos - f.cache_start := toInt32_of_bounds _ k2 k3
  refine ⟨?_, hi1⟩
  unfold io300_seek
  simp only [guard_ok hi.2, bind, Except.bind, if_neg e3, e1, e2]

theorem invariants_count_read {f : io300_file} (hi : Invariants f) :
    Invariants (count_read f) :=
  ⟨⟨hi.1.buf_len, hi.1.valid_rng, hi.1.dirty_rng, hi.1.head_rng, hi.1.start_rng⟩, hi.2⟩

theorem invariants_count_write {f : io300_file} (hi : Invariants f) :
    Invariants (count_write f) :=
  ⟨⟨hi.1.buf_len, hi.1.valid_rng, hi.1.dirty_rng, hi.1.head_rng, hi.1.start_rng⟩, hi.2⟩

/-- Character read on a state satisfying the invariants returns and keeps them. -/
theorem readc_inv {f : io300_file} (hi : Invariants f) (hok : f.fd.ok = true)
    (hr : position f + 1 ≤ 2147483647) :
    ∃ r f1, io300_readc f = .ok (r, f1) ∧ Invariants f1 ∧ f1.fd.ok = true := by
  obtain ⟨a1, a2, a3, a4, a5, a6, a7, a8⟩ := hi.bounds
  unfold position at hr
  have hir := invariants_count_read hi
  unfold io300_readc
  simp only [guard_ok hi.2, bind, Except.bind]
  by_cases hw : (count_read f).head < 0 ∨ (count_read f).head ≥ (CACHE_SIZE : Int)
  · rw [if_pos hw]
    clear hw
    obtain ⟨f1, e, c1, d1, da, cs, hd, -, -⟩ := fetch_inv hir hok
    have cs2 : f1.cache_start = f.cache_start + f.head := cs
    obtain ⟨b1, b2, b3, b4, b5, b6, b7, b8⟩ := c1.nums
    simp only [e]
    by_cases hv : f1.valid_bytes = 0
    · rw [if_pos hv]
      exact ⟨_, _, rfl, c1.inv, c1.fd_ok⟩
    · rw [if_neg hv]
      have hl : load f1.cache f1.head = .ok (byteAt f1.cache 0) := by
        rw [hd]; exact load_ok _ 0 (le_refl 0) (by omega)
      have hi2 : Invariants { f1 with head := 1 } := (coherent_with_head c1 1 (by omega)
        (by omega)).inv
      have e1 : toInt32 (f1.head + 1) = 1 := by rw [hd]; rfl
      simp only [hl, e1]
      exact ⟨_, _, rfl, hi2, c1.fd_ok⟩
  · rw [if_neg hw]
    have hw2 : ¬ (f.head < 0 ∨ f.head ≥ (CACHE_SIZE : Int)) := hw
    clear hw
    unfold CACHE_SIZE at hw2
    by_cases hv : (count_read f).valid_bytes ≤ (count_read f).head
    · rw [if_pos hv]
      exact ⟨_, _, rfl, hir, hok⟩
    · rw [if_neg hv]
      clear hv
      have hl : load (count_read f).cache (count_read f).head =
          .ok (byteAt f.cache f.head.toNat) :=
        load_ok _ _ (by show 0 ≤ f.head; omega) (by show f.head < f.cache.length; omega)
      have hi2 : Invariants { count_read f with head := f.head + 1 } := by
        apply Invariants.of_nums <;> dsimp only [count_read] <;> omega
      have k1 : -2147483648 ≤ f.head + 1 := by omega
      have k2 : f.head + 1 ≤ 2147483647 := by omega
      have e1 : toInt32 ((count_read f).head + 1) = f.head + 1 := toInt32_of_bounds _ k1 k2
      simp only [hl, e1]
      exact ⟨_, _, rfl, hi2, hok⟩

/-- The store step of `io300_writec` with the cursor inside the buffer, as a record. -/
theorem writec_store_eq (f : io300_file) (ch : Int) (hlen : f.cache.length = 8)
    (h0 : 0 ≤ f.head) (h8 : f.head < 8) :
    writec_store f ch = .ok (ch, { f with
      cache := f.cache.set f.head.toNat (toByte ch), head := f.head + 1,
      valid_bytes := if f.head + 1 > f.valid_bytes then f.head + 1 else f.valid_bytes,
      dirty := 1 }) := by
  have hs := store_ok f.cache f.head (toByte ch) h0 (by omega)
  have k1 : -2147483648 ≤ f.head + 1 := by omega
  have k2 : f.head + 1 ≤ 2147483647 := by omega
  have e1 : toInt32 (f.head + 1) = f.head + 1 := toInt32_of_bounds _ k1 k2
  unfold writec_store
  simp only [hs, bind, Except.bind, e1]

/-- The store step of `io300_write` when the bytes fit in the buffer, as a record. -/
theorem write_store_eq (f : io300_file) (bs : List Byte) (hlen : f.cache.length = 8)
    (h0 : 0 ≤ f.head) (hfit : f.head + bs.length ≤ 8) :
    write_store f bs = .ok ((bs.length : Int), { f with
      cache := f.cache.take f.head.toNat ++ bs ++ f.cache.drop (f.head.toNat + bs.length),
      dirty := 1, head := f.head + bs.length,
      valid_bytes := if f.head + bs.length > f.valid_bytes then f.head + bs.length
        else f.valid_bytes }) := by
  have hs := storen_ok f.cache f.head bs h0 (by omega)
  have k1 : -2147483648 ≤ (bs.length : Int) := by omega
  have k2 : (bs.length : Int) ≤ 2147483647 := by omega
  have k3 : -2147483648 ≤ f.head + bs.length := by omega
  have k4 : f.head + bs.length ≤ 2147483647 := by omega
  have e0 : toInt32 (bs.length : Int) = bs.length := toInt32_of_bounds _ k1 k2
  have e1 : toInt32 (f.head + bs.length) = f.head + bs.length := toInt32_of_bounds _ k3 k4
  unfold write_store
  simp only [hs, bind, Except.bind, e0, e1]

/-- The invariants after `k` bytes were stored in the buffer at the cursor. -/
theorem stored_invariants {f : io300_file} (hi : Invariants f) (cache1 : List Byte) (k : Int)
    (hk : 0 ≤ k) (hfit : f.head + k ≤ 8)
    (hr : f.cache_start + f.head + k ≤ 2147483647) (hlen1 : cache1.length = 8) :
    Invariants { f with
      cache := cache1, dirty := 1, head := f.head + k,
      valid_bytes := if f.head + k > f.valid_bytes then f.head + k else f.valid_bytes } := by
  obtain ⟨a1, a2, a3, a4, a5, a6, a7, a8⟩ := hi.bounds
  apply Invariants.of_nums <;> dsimp only
  · split <;> omega
  · split <;> omega
  · exact a3
  · omega
  · omega
  · exact Or.inr rfl
  · exact hlen1
  · exact a4

/-- Character write on a state satisfying the invariants returns and keeps them. -/
theorem writec_inv {f : io300_file} (hi : Invariants f) (hok : f.fd.ok = true) (ch : Int)
    (hr : position f + 1 ≤ 2147483647) :
    ∃ f1, io300_writec f ch = .ok (ch, f1) ∧ Invariants f1 ∧ f1.fd.ok = true := by
  obtain ⟨a1, a2, a3, a4, a5, a6, a7, a8⟩ := hi.bounds
  unfold position at hr
  have hiw := invariants_count_write hi
  unfold io300_writec
  simp only [guard_ok hi.2, bind, Except.bind]
  by_cases hw : (count_write f).head < 0 ∨ (count_write f).head ≥ (CACHE_SIZE : Int)
  · rw [if_pos hw]
    clear hw
    obtain ⟨f1, e, c1, d1, da, cs, hd, -, -⟩ := fetch_inv hiw hok
    have cs2 : f1.cache_start = f.cache_start + f.head := cs
    obtain ⟨f2, e2, c2, -, -⟩ := writec_store_spec c1 ch (by omega) (by omega) (by omega)
    simp only [e]
    exact ⟨f2, e2, c2.inv, c2.fd_ok⟩
  · rw [if_neg hw]
    have hw2 : ¬ (f.head < 0 ∨ f.head ≥ (CACHE_SIZE : Int)) := hw
    clear hw
    unfold CACHE_SIZE at hw2
    have h0 : 0 ≤ (count_write f).head := by show 0 ≤ f.head; omega
    have h8 : (count_write f).head < 8 := by show f.head < 8; omega
    rw [writec_store_eq (count_write f) ch a8 h0 h8]
    refine ⟨_, rfl, ?_, hok⟩
    exact stored_invariants hiw ((count_write f).cache.set (count_write f).head.toNat (toByte ch))
      1 (by omega) (by omega)
      (by show f.cache_start + f.head + 1 ≤ _; omega) (by rw [List.length_set]; exact a8)

/-- Block write that ends strictly inside the buffer: the bytes are copied at
the cursor, nothing else happens. -/
theorem write_window {f : io300_file} (hck : check_invariants f = true)
    (hlen : f.cache.length = 8) (bs : List Byte)
    (h0 : 0 ≤ f.head) (hfit : f.head + bs.length < 8) :
    io300_write f bs = .ok ((bs.length : Int), { count_write f with
      cache := f.cache.take f.head.toNat ++ bs ++ f.cache.drop (f.head.toNat + bs.length),
      dirty := 1, head := f.head + bs.length,
      valid_bytes := if f.head + bs.length > f.valid_bytes then f.head + bs.length
        else f.valid_bytes }) := by
  have hbig : ¬ bs.length > CACHE_SIZE := by unfold CACHE_SIZE; omega
  have k1 : -2147483648 ≤ (bs.length : Int) := by omega
  have k2 : (bs.length : Int) ≤ 2147483647 := by omega
  have k3 : -2147483648 ≤ f.head + bs.length := by omega
  have k4 : f.head + bs.length ≤ 2147483647 := by omega
  have hfit8 : f.head + bs.length < (CACHE_SIZE : Int) := by unfold CACHE_SIZE; omega
  have e0 : toInt32 (bs.length : Int) = bs.length := toInt32_of_bounds _ k1 k2
  have e1 : toInt32 (f.head + bs.length) = f.head + bs.length := toInt32_of_bounds _ k3 k4
  have hin : (count_write f).head ≥ 0 ∧
      toInt32 ((count_write f).head + toInt32 (bs.length : Int)) < (CACHE_SIZE : Int) := by
    show f.head ≥ 0 ∧ toInt32 (f.head + toInt32 (bs.length : Int)) < (CACHE_SIZE : Int)
    rw [e0, e1]
    exact ⟨h0, hfit8⟩
  unfold io300_write
  simp only [guard_ok hck, bind, Except.bind, if_neg hbig, if_pos hin]
  clear hin e0 e1
  exact write_store_eq (count_write f) bs hlen h0 (le_of_lt hfit)

/-- The bypass path of `io300_write`: the dirty window is written back, the
bytes go to the file at the logical position, the window is reloaded behind them. -/
theorem write_bypass {f : io300_file} (hi : Invariants f) (hok : f.fd.ok = true)
    (bs : List Byte) (hbig : bs.length > CACHE_SIZE)
    (hr : position f + bs.length ≤ 2147483647) :
    ∃ f1, io300_write f bs = .ok ((bs.length : Int), f1) ∧ Coherent f1 ∧
      f1.cache_start = position f + bs.length ∧ f1.head = 0 ∧ f1.dirty = 0 ∧
      f1.fd.data = pwrite (contents f) (position f).toNat bs := by
  obtain ⟨a1, a2, a3, a4, a5, a6, a7, a8⟩ := hi.bounds
  have hiw := invariants_count_write hi
  unfold position at hr ⊢
  have k0 : (0 : Int) ≤ bs.length := Int.ofNat_nonneg _
  have k1 : (bs.length : Int) ≤ 2147483647 := by omega
  have k3 : -2147483648 ≤ f.head + bs.length := by omega
  have k4 : f.head + bs.length ≤ 2147483647 := by omega
  obtain ⟨f0, hfl, hi0, hok0, hd0, hdata0, -, hv0, hh0, hs0, -⟩ := flush_inv hiw hok
  have hh : f0.head = f.head := hh0
  have hs : f0.cache_start = f.cache_start := hs0
  have hda : f0.fd.data = contents f := hdata0
  obtain ⟨b1, b2, b3, b4, b5, b6, b7, b8⟩ := hi0.bounds
  have hi2 : Invariants { f0 with
      fd := Fd.mk (pwrite f0.fd.data (f.cache_start + f.head).toNat bs)
        ((f.cache_start + f.head).toNat + bs.length) f0.fd.ok f0.fd.reads,
      head := f.head + bs.length } := by
    apply Invariants.of_nums <;> dsimp only <;> omega
  obtain ⟨f3, e3, c3, d3, da3, cs3, hd3, -, -⟩ := fetch_of_clean hi2 hok0 hd0
  have hcs : f3.cache_start = f.cache_start + f.head + bs.length := by
    rw [cs3]; dsimp only; omega
  have hwo := write_ok (Fd.mk f0.fd.data (f.cache_start + f.head).toNat f0.fd.ok f0.fd.reads) bs hok0
  have eP : toInt32 (f0.cache_start + f0.head) = f.cache_start + f.head := by
    rw [hh, hs]; exact toInt32_of_bounds _ (by omega) a6
  have e0 : toInt32 (bs.length : Int) = bs.length := toInt32_of_bounds _ (by omega) k1
  have eH : toInt32 (f0.head + (bs.length : Int)) = f.head + bs.length := by
    rw [hh]; exact toInt32_of_bounds _ k3 k4
  unfold io300_write
  simp only [guard_ok hi.2, bind, Except.bind, if_pos hbig, hfl, eP,
    lseek_ok _ _ hok0 a5, hwo, e0, eH, e3]
  refine ⟨f3, rfl, c3, hcs, hd3, d3, ?_⟩
  rw [da3]
  dsimp only
  rw [hda]

/-- The bypass path of `io300_read`: the dirty window is written back, the
bytes come from the file at the logical position, the window is reloaded
behind them. -/
theorem read_bypass {f : io300_file} (hi : Invariants f) (hok : f.fd.ok = true)
    (n : Nat) (hbig : n > CACHE_SIZE)
    (hr : position f + (((contents f).drop (position f).toNat).take n).length ≤ 2147483647) :
    ∃ f1, io300_read f n =
        .ok ((((((contents f).drop (position f).toNat).take n).length : Nat),
              ((contents f).drop (position f).toNat).take n), f1) ∧
      Coherent f1 ∧
      f1.cache_start = position f + (((contents f).drop (position f).toNat).take n).length ∧
      f1.head = 0 ∧ f1.dirty = 0 ∧ f1.fd.data = contents f := by
  obtain ⟨a1, a2, a3, a4, a5, a6, a7, a8⟩ := hi.bounds
  have hir := invariants_count_read hi
  unfold position at hr ⊢
  generalize hbs0 : ((contents f).drop (f.cache_start + f.head).toNat).take n = bs at hr ⊢
  have k0 : (0 : Int) ≤ bs.length := Int.ofNat_nonneg _
  have k1 : (bs.length : Int) ≤ 2147483647 := by omega
  have k3 : -2147483648 ≤ f.head + bs.length := by omega
  have k4 : f.head + bs.length ≤ 2147483647 := by omega
  obtain ⟨f0, hfl, hi0, hok0, hd0, hdata0, -, hv0, hh0, hs0, -⟩ := flush_inv hir hok
  have hh : f0.head = f.head := hh0
  have hs : f0.cache_start = f.cache_start := hs0
  have hda : f0.fd.data = contents f := hdata0
  obtain ⟨b1, b2, b3, b4, b5, b6, b7, b8⟩ := hi0.bounds
  have hi2 : Invariants { f0 with
      fd := Fd.mk (contents f) ((f.cache_start + f.head).toNat + bs.length) f0.fd.ok f0.fd.reads,
      head := f.head + bs.length } := by
    apply Invariants.of_nums <;> dsimp only <;> omega
  obtain ⟨f3, e3, c3, d3, da3, cs3, hd3, -, -⟩ := fetch_of_clean hi2 hok0 hd0
  have hcs : f3.cache_start = f.cache_start + f.head + bs.length := by
    rw [cs3]; dsimp only; omega
  have hro := read_ok (Fd.mk f0.fd.data (f.cache_start + f.head).toNat f0.fd.ok f0.fd.reads) n hok0
  dsimp only at hro
  rw [hda, hbs0] at hro
  have eP : toInt32 (f0.cache_start + f0.head) = f.cache_start + f.head := by
    rw [hh, hs]; exact toInt32_of_bounds _ (by omega) a6
  have eL : toInt32 (bs.length : Int) = bs.length := toInt32_of_bounds _ (by omega) k1
  have eH : toInt32 (f0.head + (bs.length : Int)) = f.head + bs.length := by
    rw [hh]; exact toInt32_of_bounds _ k3 k4
  unfold io300_read
  simp only [guard_ok hi.2, bind, Except.bind, if_pos hbig, hfl, eP,
    lseek_ok _ _ hok0 a5, hda, hro, eL, eH, e3]
  exact ⟨f3, rfl, c3, hcs, hd3, d3, da3⟩

/-- One operation on a coherent handle, compared with the same operation on
the unbuffered file. -/
theorem step_spec {f : io300_file} (hc : Coherent f) (op : Op) (hf : fits f op) :
    ∃ f1, step f op = .ok f1 ∧ Coherent f1 ∧
      position f1 = (Plain.step ⟨contents f, position f⟩ op).pos ∧
      ((∀ bs, op = .write bs → bs ≠ []) →
        contents f1 = (Plain.step ⟨contents f, position f⟩ op).data) := by
  obtain ⟨a1, a2, a3, a4, a5, a6, a7, a8⟩ := hc.nums
  cases op with
  | seek pos =>
    by_cases hneg : pos < 0
    · refine ⟨f, ?_, hc, ?_, fun _ => ?_⟩
      · simp only [step, seek_neg f pos hc.inv.2 hneg, bind, Except.bind]
      · simp only [Plain.step, if_pos hneg]
      · simp only [Plain.step, if_pos hneg]
    · have hp : pos ≤ 2147483647 := hf
      obtain ⟨e, c1⟩ := seek_spec hc pos (by omega) hp
      refine ⟨_, ?_, c1, ?_, fun _ => ?_⟩
      · simp only [step, e, bind, Except.bind]
      · simp only [Plain.step, if_neg hneg, position]; omega
      · simp only [Plain.step, if_neg hneg]; rfl
  | readc =>
    have hp : position f + 1 ≤ 2147483647 := hf
    by_cases hlt : position f < ((contents f).length : Int)
    · obtain ⟨f1, e, c1, k1, p1⟩ := readc_byte hc hlt hp
      refine ⟨f1, ?_, c1, ?_, fun _ => ?_⟩
      · simp only [step, e, bind, Except.bind]
      · simp only [Plain.step, if_pos hlt]; exact p1
      · simp only [Plain.step, if_pos hlt]; exact k1
    · obtain ⟨f1, e, c1, k1, p1⟩ := readc_eof hc (by omega)
      refine ⟨f1, ?_, c1, ?_, fun _ => ?_⟩
      · simp only [step, e, bind, Except.bind]
      · simp only [Plain.step, if_neg hlt]; exact p1
      · simp only [Plain.step, if_neg hlt]; exact k1
  | writec ch =>
    have hp : position f + 1 ≤ 2147483647 := hf
    obtain ⟨f1, e, c1, p1, k1⟩ := writec_spec hc ch hp
    refine ⟨f1, ?_, c1, p1, fun _ => k1⟩
    simp only [step, e, bind, Except.bind]
  | read sz =>
    have hp : position f + sz ≤ 2147483647 := hf
    obtain ⟨f1, e, c1, k1, p1⟩ := read_spec hc sz hp
    refine ⟨f1, ?_, c1, p1, fun _ => k1⟩
    simp only [step, e, bind, Except.bind]
  | write buff =>
    have hp : position f + buff.length ≤ 2147483647 := hf
    obtain ⟨f1, e, c1, p1, k1⟩ := write_spec hc buff hp
    refine ⟨f1, ?_, c1, p1, fun hne => ?_⟩
    · simp only [step, e, bind, Except.bind]
    · have : buff ≠ [] := hne buff rfl
      exact k1 (List.length_pos.mpr this)
  | flush =>
    obtain ⟨f1, e, c1, d1, da, hca, hv, hh, hs, -⟩ := flush_spec hc
    refine ⟨f1, ?_, c1, ?_, fun _ => ?_⟩
    · simp only [step, e, bind, Except.bind]
    · unfold position; rw [hh, hs]; rfl
    · rw [contents_clean d1, da]; rfl
  | fetch =>
    obtain ⟨f1, e, c1, d1, da, cs, hd, -, -⟩ := fetch_spec hc
    refine ⟨f1, ?_, c1, ?_, fun _ => ?_⟩
    · simp only [step, e, bind, Except.bind]
    · unfold position; rw [cs, hd]; show _ = f.cache_start + f.head; omega
    · rw [contents_clean d1, da]; rfl

/-- The handle for an empty file is reachable. -/
theorem f_empty_reachable : Reachable f_empty :=
  Reachable.opened fd_empty (List.replicate CACHE_SIZE 0) f_empty rfl rfl f_empty_open

theorem f_empty_coherent : Coherent f_empty := by
  obtain ⟨g, e, c, -, -⟩ := open_spec fd_empty (List.replicate CACHE_SIZE 0) rfl rfl
  rw [f_empty_open] at e
  cases e
  exact c

theorem f_empty_invariants : Invariants f_empty := f_empty_coherent.inv

/-- Reading back right behind a positional write returns the bytes written. -/
theorem take_drop_pwrite (d : List Byte) (p : Nat) (S : List Byte) :
    ((pwrite d p S).drop p).take S.length = S := by
  cases hS : S with
  | nil => simp
  | cons b rest =>
    rw [← hS]
    have hpos : 0 < S.length := by rw [hS]; simp
    apply list_ext
    · rw [List.length_take, List.length_drop, pwrite_length]
      split <;> omega
    · intro i hi
      rw [List.length_take] at hi
      rw [byteAt_take, if_pos (by omega), byteAt_drop, pwrite_byteAt,
        if_pos ⟨by omega, by omega⟩]
      congr 1
      omega

/-- Claim C6: on a state that satisfies the invariants, a seek to a negative
position returns the error value `-1` and leaves the whole handle, descriptor
included, exactly as it was. -/
theorem seek_negative_rejected (f : io300_file) (pos : Int) (hi : Invariants f)
    (h : pos < 0) : io300_seek f pos = .ok (-1, f) :=
  seek_neg f pos hi.2 h

/-- Witness for C6: seeking to `-1` on the handle of an empty file. -/
theorem seek_negative_rejected_witness : io300_seek f_empty (-1) = .ok (-1, f_empty) :=
  seek_negative_rejected f_empty (-1) f_empty_invariants (by decide)

/-- Claim C9: on a state that satisfies the invariants, flush returns `0`; a
second flush right after it returns `0` and changes nothing, neither the handle
nor the file, so two flushes in a row equal one. -/
theorem flush_idempotent (f : io300_file) (hi : Invariants f) :
    ∃ f1, io300_flush f = .ok (0, f1) ∧ io300_flush f1 = .ok (0, f1) ∧
      (do let r ← io300_flush f; io300_flush r.2) = io300_flush f := by
  by_cases hd : f.dirty = 0
  · have e := flush_clean f hi.2 hd
    refine ⟨f, e, e, ?_⟩
    simp only [e, bind, Except.bind]
  · have e := flush_dirty f hi.2 hd
    have hck : check_invariants { f with
        fd := (write (lseek f.fd f.cache_start).2 (f.cache.take f.valid_bytes.toNat)).2,
        dirty := 0 } = true := by
      have := hi.2
      rw [check_iff] at this ⊢
      exact ⟨this.1, this.2.1, this.2.2.1, this.2.2.2.1, Or.inl rfl⟩
    have e2 := flush_clean _ hck rfl
    refine ⟨_, e, e2, ?_⟩
    simp only [e, bind, Except.bind, e2]

/-- Claim C10, as amended: on a state that satisfies the invariants, a seek to
a position between `0` and `INT_MAX` returns that position and only sets
`head = position - cache_start`: buffer, `valid_bytes`, `dirty`, `cache_start`,
the counters and the descriptor with its file are unchanged, and the logical
position becomes the target. -/
theorem seek_sets_head (f : io300_file) (pos : Int) (hi : Invariants f) (h0 : 0 ≤ pos)
    (h1 : pos ≤ INT_MAX) :
    io300_seek f pos = .ok (pos, { f with head := pos - f.cache_start }) ∧
      position { f with head := pos - f.cache_start } = pos := by
  refine ⟨(seek_inv hi pos h0 h1).1, ?_⟩
  unfold position
  dsimp only
  omega

/-- Witness for C10: seeking to position 12 on the handle of an empty file. -/
theorem seek_sets_head_witness :
    io300_seek f_empty 12 = .ok (12, { f_empty with head := 12 - f_empty.cache_start }) ∧
      position { f_empty with head := 12 - f_empty.cache_start } = 12 :=
  seek_sets_head f_empty 12 f_empty_invariants (by decide) (by decide)

/-- Counterexample to C10 as stated: the target `2^31` is a non-negative
`off_t`, yet the `int` result is `-2^31` and `head` becomes `-2^31`, so the
logical position is not the target. -/
theorem seek_beyond_int_truncates :
    io300_seek f_empty 2147483648 =
      .ok (-2147483648, { f_empty with head := -2147483648 }) ∧
    position { f_empty with head := -2147483648 } ≠ 2147483648 :=
  ⟨rfl, by decide⟩

theorem isInt32_toInt32 (x : Int) : isInt32 (toInt32 x) := by
  unfold isInt32 INT_MAX toInt32
  omega

theorem sound_of_coherent {f : io300_file} (hc : Coherent f) : Sound f :=
  ⟨hc.inv.1.head_rng, f.head, hc⟩

theorem sound_head {g : io300_file} (hc : Coherent g) (h : Int) (hh : isInt32 h) :
    Sound { g with head := h } :=
  ⟨hh, g.head, hc⟩

/-- A sound handle that passes the assertions is coherent. -/
theorem coherent_of_sound {f : io300_file} (hs : Sound f) (hck : check_invariants f = true) :
    Coherent f := by
  obtain ⟨hh, h, hc⟩ := hs
  exact ⟨⟨⟨hc.inv.1.buf_len, hc.inv.1.valid_rng, hc.inv.1.dirty_rng, hh, hc.inv.1.start_rng⟩,
    hck⟩, hc.fd_ok, hc.clean, hc.tail⟩

/-- The window after bytes were stored at the cursor, the cursor left in place. -/
theorem window_store_at {f : io300_file} (hc : Coherent f) (cache1 bs : List Byte)
    (h0 : 0 ≤ f.head) (hfit : f.head + bs.length ≤ 8)
    (hlen1 : cache1.length = 8)
    (hst : ∀ j, byteAt cache1 j =
      if f.head.toNat ≤ j ∧ j < f.head.toNat + bs.length then byteAt bs (j - f.head.toNat)
      else byteAt f.cache j) :
    Coherent { f with cache := cache1, dirty := 1, head := f.head,
                      valid_bytes := if f.head + bs.length > f.valid_bytes
                        then f.head + bs.length else f.valid_bytes } := by
  obtain ⟨a1, a2, a3, a4, a5, a6, a7, a8⟩ := hc.nums
  have htl := hc.tail
  unfold CACHE_SIZE at htl
  refine ⟨?_, hc.fd_ok, ?_, ?_⟩
  · apply Invariants.of_nums <;> dsimp only
    · split <;> omega
    · split <;> omega
    · exact a3
    · omega
    · omega
    · exact Or.inr rfl
    · exact hlen1
    · exact a4
  · intro hd
    dsimp only at hd
    omega
  · intro hv
    dsimp only at hv ⊢
    unfold CACHE_SIZE at hv
    have hv8 : f.valid_bytes < 8 := by split at hv <;> omega
    obtain ⟨t1, t2⟩ := htl (by exact_mod_cast hv8)
    constructor
    · split <;> omega
    · intro i hi
      have e : ¬ (f.head.toNat ≤ i ∧ i < f.head.toNat + bs.length) := by
        split at hi <;> omega
      rw [hst, if_neg e]
      apply t2
      split at hi <;> omega

/-- Whatever the store step of `io300_writec` returns on a coherent handle is sound. -/
theorem writec_store_sound {g : io300_file} (hc : Coherent g) (ch : Int)
    (r : Int × io300_file) (h : writec_store g ch = .ok r) : Sound r.2 := by
  obtain ⟨a1, a2, a3, a4, a5, a6, a7, a8⟩ := hc.nums
  by_cases hb : 0 ≤ g.head ∧ g.head < g.cache.length
  · have h0 : 0 ≤ g.head := hb.1
    have h8 : g.head < 8 := by have := hb.2; omega
    rw [writec_store_eq g ch a8 h0 h8] at h
    cases h
    refine ⟨?_, g.head, ?_⟩
    · show isInt32 (g.head + 1)
      unfold isInt32 INT_MAX; omega
    · have hw := window_store_at hc (g.cache.set g.head.toNat (toByte ch)) [toByte ch] h0
        (by simp only [List.length_singleton]; omega)
        (by rw [List.length_set]; exact a8)
        (by
          intro j
          rw [byteAt_set]
          simp only [List.length_singleton]
          by_cases hj : j = g.head.toNat
          · subst hj
            rw [if_pos ⟨rfl, by omega⟩, if_pos ⟨by omega, by omega⟩, Nat.sub_self]
            rfl
          · rw [if_neg (by omega), if_neg (by omega)])
      simp only [List.length_singleton, Nat.cast_one] at hw
      exact hw
  · unfold writec_store store at h
    rw [if_neg hb] at h
    cases h

/-- Whatever the store step of `io300_write` returns on a coherent handle is sound. -/
theorem write_store_sound {g : io300_file} (hc : Coherent g) (bs : List Byte)
    (r : Int × io300_file) (h : write_store g bs = .ok r) : Sound r.2 := by
  obtain ⟨a1, a2, a3, a4, a5, a6, a7, a8⟩ := hc.nums
  by_cases hb : 0 ≤ g.head ∧ g.head + bs.length ≤ g.cache.length
  · have h0 : 0 ≤ g.head := hb.1
    have hfit : g.head + bs.length ≤ 8 := by have := hb.2; omega
    rw [write_store_eq g bs a8 h0 hfit] at h
    cases h
    refine ⟨?_, g.head, ?_⟩
    · show isInt32 (g.head + bs.length)
      unfold isInt32 INT_MAX; omega
    · exact window_store_at hc _ bs h0 hfit
        (by simp only [List.length_append, List.length_take, List.length_drop]; omega)
        (byteAt_storen g.cache bs g.head.toNat (by omega))
  · unfold write_store storen at h
    rw [if_neg hb] at h
    cases h

theorem seek_sound {f : io300_file} (hc : Coherent f) (pos : Int) (r : Int × io300_file)
    (h : io300_seek f pos = .ok r) : Sound r.2 := by
  unfold io300_seek at h
  simp only [guard_ok hc.inv.2, bind, Except.bind] at h
  by_cases hneg : pos < 0
  · rw [if_pos hneg] at h
    cases h
    exact sound_of_coherent hc
  · rw [if_neg hneg] at h
    cases h
    exact sound_head hc _ (isInt32_toInt32 _)

theorem readc_sound {f : io300_file} (hc : Coherent f) (r : Int × io300_file)
    (h : io300_readc f = .ok r) : Sound r.2 := by
  have hcr := coherent_count_read hc
  unfold io300_readc at h
  simp only [guard_ok hc.inv.2, bind, Except.bind] at h
  by_cases hw : (count_read f).head < 0 ∨ (count_read f).head ≥ (CACHE_SIZE : Int)
  · rw [if_pos hw] at h
    obtain ⟨g, e, c1, -⟩ := fetch_spec hcr
    simp only [e] at h
    by_cases hv : g.valid_bytes = 0
    · rw [if_pos hv] at h
      cases h
      exact sound_of_coherent c1
    · rw [if_neg hv] at h
      cases hl : load g.cache g.head with
      | error x => rw [hl] at h; cases h
      | ok c =>
        rw [hl] at h
        cases h
        exact sound_head c1 _ (isInt32_toInt32 _)
  · rw [if_neg hw] at h
    by_cases hv : (count_read f).valid_bytes ≤ (count_read f).head
    · rw [if_pos hv] at h
      cases h
      exact sound_of_coherent hcr
    · rw [if_neg hv] at h
      cases hl : load (count_read f).cache (count_read f).head with
      | error x => rw [hl] at h; cases h
      | ok c =>
        rw [hl] at h
        cases h
        exact sound_head hcr _ (isInt32_toInt32 _)

theorem writec_sound {f : io300_file} (hc : Coherent f) (ch : Int) (r : Int × io300_file)
    (h : io300_writec f ch = .ok r) : Sound r.2 := by
  have hcw := coherent_count_write hc
  unfold io300_writec at h
  simp only [guard_ok hc.inv.2, bind, Except.bind] at h
  by_cases hw : (count_write f).head < 0 ∨ (count_write f).head ≥ (CACHE_SIZE : Int)
  · rw [if_pos hw] at h
    obtain ⟨g, e, c1, -⟩ := fetch_spec hcw
    simp only [e] at h
    exact writec_store_sound c1 ch r h
  · rw [if_neg hw] at h
    exact writec_store_sound hcw ch r h

theorem lseek_snd_ok (d : Fd) (o : Int) : (lseek d o).2.ok = d.ok := by
  unfold lseek; split <;> rfl

theorem read_snd_ok (d : Fd) (n : Nat) : (read d n).2.2.ok = d.ok := by
  unfold read; split <;> rfl

theorem write_snd_ok (d : Fd) (bs : List Byte) : (write d bs).2.ok = d.ok := by
  unfold write; split <;> rfl

theorem guard_fails {f : io300_file} (h : ¬ check_invariants f = true) :
    guard_invariants f = .error .assertion := by
  unfold guard_invariants; rw [if_neg h]

/-- Fetch on a well-typed handle with a working descriptor: whatever it returns
is sound. -/
theorem fetch_sound {f : io300_file} (hwt : WellTyped f) (hok : f.fd.ok = true)
    (r : Int × io300_file) (h : io300_fetch f = .ok r) : Sound r.2 := by
  by_cases hck : check_invariants f = true
  · obtain ⟨g, e, c1, -⟩ := fetch_inv ⟨hwt, hck⟩ hok
    rw [e] at h
    cases h
    exact sound_of_coherent c1
  · unfold io300_fetch at h
    simp only [guard_fails hck, bind, Except.bind] at h
    cases h

theorem read_sound {f : io300_file} (hc : Coherent f) (sz : Nat)
    (r : (Int × List Byte) × io300_file) (h : io300_read f sz = .ok r) : Sound r.2 := by
  have hcr := coherent_count_read hc
  unfold io300_read at h
  simp only [guard_ok hc.inv.2, bind, Except.bind] at h
  by_cases hbig : sz > CACHE_SIZE
  · rw [if_pos hbig] at h
    obtain ⟨f0, hfl, c0, -⟩ := flush_spec hcr
    simp only [hfl] at h
    split at h
    · cases h
    · rename_i g heq
      have h1 := Except.ok.inj h
      subst h1
      refine (fetch_sound ?_ ?_ g heq : Sound g.2)
      · exact ⟨c0.inv.1.buf_len, c0.inv.1.valid_rng, c0.inv.1.dirty_rng, isInt32_toInt32 _,
          c0.inv.1.start_rng⟩
      · show (read (lseek f0.fd _).2 sz).2.2.ok = true
        rw [read_snd_ok, lseek_snd_ok]
        exact c0.fd_ok
  · rw [if_neg hbig] at h
    split at h
    · obtain ⟨g, e, c1, -⟩ := fetch_spec hcr
      simp only [e] at h
      split at h
      · cases h
      · have h1 := Except.ok.inj h
        subst h1
        exact sound_head c1 _ (isInt32_toInt32 _)
    · split at h
      · cases h
      · have h1 := Except.ok.inj h
        subst h1
        exact sound_head hcr _ (isInt32_toInt32 _)

theorem write_sound {f : io300_file} (hc : Coherent f) (bs : List Byte)
    (r : Int × io300_file) (h : io300_write f bs = .ok r) : Sound r.2 := by
  have hcw := coherent_count_write hc
  unfold io300_write at h
  simp only [guard_ok hc.inv.2, bind, Except.bind] at h
  by_cases hbig : bs.length > CACHE_SIZE
  · rw [if_pos hbig] at h
    obtain ⟨f0, hfl, c0, -⟩ := flush_spec hcw
    simp only [hfl] at h
    split at h
    · cases h
    · rename_i g heq
      have h1 := Except.ok.inj h
      subst h1
      refine (fetch_sound ?_ ?_ g heq : Sound g.2)
      · exact ⟨c0.inv.1.buf_len, c0.inv.1.valid_rng, c0.inv.1.dirty_rng, isInt32_toInt32 _,
          c0.inv.1.start_rng⟩
      · show (write (lseek f0.fd _).2 bs).2.ok = true
        rw [write_snd_ok, lseek_snd_ok]
        exact c0.fd_ok
  · rw [if_neg hbig] at h
    split at h
    · exact write_store_sound hcw bs r h
    · obtain ⟨g, e, c1, -⟩ := fetch_spec hcw
      simp only [e] at h
      exact write_store_sound c1 bs r h

/-- An operation on a handle that fails an assertion aborts. -/
theorem step_guard {f : io300_file} (hck : ¬ check_invariants f = true) (op : Op) :
    step f op = .error .assertion := by
  cases op <;>
    simp only [step, io300_seek, io300_readc, io300_writec, io300_read, io300_write,
      io300_flush, io300_fetch, guard_fails hck, bind, Except.bind]

/-- Whatever state an operation on a coherent handle returns is sound. -/
theorem step_sound {f : io300_file} (hc : Coherent f) (op : Op) (f1 : io300_file)
    (h : step f op = .ok f1) : Sound f1 := by
  cases op with
  | seek pos =>
    cases hr : io300_seek f pos with
    | error x => simp only [step, hr, bind, Except.bind] at h; cases h
    | ok r =>
      simp only [step, hr, bind, Except.bind] at h
      cases h
      exact seek_sound hc pos r hr
  | readc =>
    cases hr : io300_readc f with
    | error x => simp only [step, hr, bind, Except.bind] at h; cases h
    | ok r =>
      simp only [step, hr, bind, Except.bind] at h
      cases h
      exact readc_sound hc r hr
  | writec ch =>
    cases hr : io300_writec f ch with
    | error x => simp only [step, hr, bind, Except.bind] at h; cases h
    | ok r =>
      simp only [step, hr, bind, Except.bind] at h
      cases h
      exact writec_sound hc ch r hr
  | read sz =>
    cases hr : io300_read f sz with
    | error x => simp only [step, hr, bind, Except.bind] at h; cases h
    | ok r =>
      simp only [step, hr, bind, Except.bind] at h
      cases h
      exact read_sound hc sz r hr
  | write buff =>
    cases hr : io300_write f buff with
    | error x => simp only [step, hr, bind, Except.bind] at h; cases h
    | ok r =>
      simp only [step, hr, bind, Except.bind] at h
      cases h
      exact write_sound hc buff r hr
  | flush =>
    obtain ⟨g, e, c1, -⟩ := flush_spec hc
    simp only [step, e, bind, Except.bind] at h
    cases h
    exact sound_of_coherent c1
  | fetch =>
    obtain ⟨g, e, c1, -⟩ := fetch_spec hc
    simp only [step, e, bind, Except.bind] at h
    cases h
    exact sound_of_coherent c1

/-- Every reachable state is sound. -/
theorem reachable_sound {f : io300_file} (h : Reachable f) : Sound f := by
  induction h with
  | opened d mem f hok hmem ho =>
    obtain ⟨g, e, c, -, -⟩ := open_spec d mem hok hmem
    rw [e] at ho
    cases ho
    exact sound_of_coherent c
  | next f f1 op _ hs ih =>
    by_cases hck : check_invariants f = true
    · exact step_sound (coherent_of_sound ih hck) op f1 hs
    · rw [step_guard hck op] at hs
      cases hs

/-- A reachable state that passes the assertions is coherent. -/
theorem reachable_coherent {f : io300_file} (h : Reachable f)
    (hck : check_invariants f = true) : Coherent f :=
  coherent_of_sound (reachable_sound h) hck

theorem f_stuck_reachable : Reachable f_stuck :=
  Reachable.next f_empty f_stuck (.seek 2147483648) f_empty_reachable rfl

theorem f_brim_reachable : Reachable f_brim :=
  Reachable.next _ f_brim (.writec 65)
    (Reachable.next f_empty _ (.seek 2147483647) f_empty_reachable rfl) rfl

theorem f_far_reachable : Reachable f_far :=
  Reachable.next _ f_far .readc
    (Reachable.next f_empty _ (.seek 12) f_empty_reachable rfl) rfl

theorem f_abc_open : io300_open fd_abc (List.replicate CACHE_SIZE 0) = .ok f_abc := rfl

theorem f_abc_reachable : Reachable f_abc :=
  Reachable.opened fd_abc (List.replicate CACHE_SIZE 0) f_abc rfl rfl f_abc_open

theorem f_abc_invariants : Invariants f_abc := by
  apply Invariants.of_nums <;> decide

theorem f_brim_end : ((contents f_brim).length : Int) ≤ position f_brim := by
  unfold contents
  rw [if_pos (by decide), pwrite_length]
  decide

theorem lseek_fail (d : Fd) (o : Int) (h : d.ok = false) (hr : d.reads = false) :
    lseek d o = (-1, d) := by
  unfold lseek; simp [h, hr]

theorem write_fail (d : Fd) (bs : List Byte) (h : d.ok = false) : write d bs = (-1, d) := by
  unfold write; simp [h]

theorem read_fail (d : Fd) (n : Nat) (h : d.ok = false) (hr : d.reads = false) :
    read d n = (-1, [], d) := by
  unfold read; simp [h, hr]

/-- On a descriptor whose calls all fail, fetch reports `-1`; the window and the
cursor stay as they were and only the dirty mark is cleared. -/
theorem fetch_fails {f : io300_file} (hck : check_invariants f = true)
    (hok : f.fd.ok = false) (hrd : f.fd.reads = false) :
    io300_fetch f = .ok (-1, { f with dirty := 0 }) := by
  unfold io300_fetch
  simp only [guard_ok hck, bind, Except.bind]
  by_cases hd : f.dirty = 0
  · rw [flush_clean f hck hd]
    simp only [lseek_fail _ _ hok hrd, if_true]
    cases f
    simp only at hd
    subst hd
    rfl
  · rw [flush_dirty f hck hd]
    simp only [lseek_fail _ _ hok hrd, write_fail _ _ hok, if_true]

/-- Claim C1, as amended: on every reachable state that satisfies the
invariants, for every position `p` with `0 <= p` and `p + len(S) <= INT_MAX` and
every byte sequence `S` of any length, seek to `p`, write `S`, seek to `p`,
read `len(S)` bytes returns `len(S)` and delivers exactly `S`. -/
theorem write_read_round_trip (f : io300_file) (p : Int) (S : List Byte)
    (hr : Reachable f) (hi : Invariants f) (h0 : 0 ≤ p) (h1 : p + S.length ≤ INT_MAX) :
    ∃ f1, write_then_read f p S = .ok (((S.length : Int), S), f1) := by
  have hc := reachable_coherent hr hi.2
  unfold INT_MAX at h1
  obtain ⟨e1, c1⟩ := seek_spec hc p h0 (by omega)
  have p1 : position { f with head := p - f.cache_start } = p := by
    unfold position; dsimp only; omega
  obtain ⟨f2, e2, c2, p2, k2⟩ := write_spec c1 S (by rw [p1]; exact h1)
  obtain ⟨e3, c3⟩ := seek_spec c2 p h0 (by omega)
  have p3 : position { f2 with head := p - f2.cache_start } = p := by
    unfold position; dsimp only; omega
  obtain ⟨f4, e4, -⟩ := read_spec c3 S.length (by rw [p3]; exact h1)
  have hbytes : ((contents { f2 with head := p - f2.cache_start }).drop
      (position { f2 with head := p - f2.cache_start }).toNat).take S.length = S := by
    rw [p3]
    by_cases hS : 0 < S.length
    · have k := k2 hS
      rw [p1] at k
      have k3 : contents { f2 with head := p - f2.cache_start } = contents f2 := rfl
      rw [k3, k]
      exact take_drop_pwrite _ _ _
    · have : S = [] := List.length_eq_zero.mp (by omega)
      subst this
      rfl
  rw [hbytes] at e4
  refine ⟨f4, ?_⟩
  unfold write_then_read
  simp only [e1, e2, e3, bind, Except.bind]
  exact e4

/-- Witness for C1: position 3 and the bytes `7, 8` on the handle of the empty file. -/
theorem write_read_round_trip_witness :
    ∃ f1, write_then_read f_empty 3 [7, 8] = .ok ((2, [7, 8]), f1) :=
  write_read_round_trip f_empty 3 [7, 8] f_empty_reachable f_empty_invariants (by decide)
    (by decide)

/-- Counterexample to C1 as stated: at the position `2^31` the round trip on the
handle of the empty file aborts on an assertion instead of returning the bytes;
and on the reachable handle left by that seek it aborts at position `0` too. -/
theorem round_trip_beyond_int_aborts :
    write_then_read f_empty 2147483648 [65] = .error .assertion ∧
    Reachable f_stuck ∧ write_then_read f_stuck 0 [65] = .error .assertion :=
  ⟨rfl, f_stuck_reachable, rfl⟩

/-- Claim C5, as amended: on every reachable state that satisfies the invariants
and whose logical position is at or beyond the end of the logical file,
`io300_readc` returns `-1` and the logical position (and the logical file) after
the call is the one before it, whether the cursor is inside the window or a
fetch is triggered. -/
theorem readc_end_of_stream (f : io300_file) (hr : Reachable f) (hi : Invariants f)
    (h : ((contents f).length : Int) ≤ position f) :
    ∃ f1, io300_readc f = .ok (-1, f1) ∧ position f1 = position f ∧
      contents f1 = contents f := by
  obtain ⟨f1, e, -, k, p⟩ := readc_eof (reachable_coherent hr hi.2) h
  exact ⟨f1, e, p, k⟩

/-- Witness for C5: the handle of the empty file, positioned at its end. -/
theorem readc_end_of_stream_witness :
    ∃ f1, io300_readc f_empty = .ok (-1, f1) ∧ position f1 = position f_empty ∧
      contents f1 = contents f_empty :=
  readc_end_of_stream f_empty f_empty_reachable f_empty_invariants (by decide)

/-- Counterexample to C5 as stated: after a seek to `INT_MAX` and one character
write the handle is reachable and its position `2^31` is at the end of the
logical file, yet `io300_readc` aborts on the assertion `cache_start + head >= 0`
instead of returning `-1`. -/
theorem readc_at_int_limit_aborts :
    Reachable f_brim ∧ ((contents f_brim).length : Int) ≤ position f_brim ∧
      io300_readc f_brim = .error .assertion :=
  ⟨f_brim_reachable, f_brim_end, rfl⟩

theorem f_ink_reachable : Reachable f_ink :=
  Reachable.next f_abc f_ink (.writec 9) f_abc_reachable rfl

theorem f_ink_invariants : Invariants f_ink := by
  apply Invariants.of_nums <;> decide

theorem f_ink_ro_invariants : Invariants f_ink_ro := by
  apply Invariants.of_nums <;> decide

/-- The fetch on the dirty handle `f_ink`: the window is written back and
reloaded at offset `1`. -/
theorem f_ink_fetch : io300_fetch f_ink = .ok (0, f_ink_fetched) := rfl

/-- Witness for C9: flushing twice the dirty handle left by one character write
on the handle opened on the file `1, 2, 3`; the first flush writes the window
back, the second does nothing. -/
theorem flush_idempotent_witness :
    f_ink.dirty = 1 ∧
      ∃ f1, io300_flush f_ink = .ok (0, f1) ∧ io300_flush f1 = .ok (0, f1) ∧
        (do let r ← io300_flush f_ink; io300_flush r.2) = io300_flush f_ink :=
  ⟨rfl, flush_idempotent f_ink f_ink_invariants⟩

/-- Claim C12, as amended: on a state that satisfies the invariants, with
`pos = cache_start + head`, on a descriptor whose calls all succeed,
`io300_fetch` returns `0` and ends with `cache_start = pos`, `head = 0`,
`dirty = 0`, the file equal to the file before with the dirty window written
back, `valid_bytes = min(CACHE_SIZE, size - pos)` when `pos < size` and `0`
otherwise, `buffer[i]` equal to the file byte at `pos + i` (an offset inside the
file) for `i < valid_bytes`, and `buffer[i] = 0` for `i >= valid_bytes`. -/
theorem fetch_postcondition (f : io300_file) (hi : Invariants f) (hok : f.fd.ok = true) :
    ∃ f1, io300_fetch f = .ok (0, f1) ∧
      f1.cache_start = position f ∧ f1.head = 0 ∧ f1.dirty = 0 ∧
      f1.fd.data = contents f ∧
      f1.valid_bytes =
        (if position f < ((contents f).length : Int)
          then min (CACHE_SIZE : Int) (((contents f).length : Int) - position f) else 0) ∧
      (∀ i : Nat, (i : Int) < f1.valid_bytes →
        (position f).toNat + i < f1.fd.data.length ∧
          byteAt f1.cache i = byteAt f1.fd.data ((position f).toNat + i)) ∧
      (∀ i : Nat, f1.valid_bytes ≤ (i : Int) → byteAt f1.cache i = 0) ∧
      f1.cache.length = CACHE_SIZE := by
  obtain ⟨a1, a2, a3, a4, a5, a6, a7, a8⟩ := hi.bounds
  obtain ⟨f1, e, c1, d1, da, cs, hd, -, vb⟩ := fetch_inv hi hok
  obtain ⟨b1, b2, b3, b4, b5, b6, b7, b8⟩ := c1.nums
  refine ⟨f1, e, cs, hd, d1, da, ?_, ?_, ?_, b8⟩
  · rw [vb]
    unfold position CACHE_SIZE
    split <;> omega
  · intro i hi2
    have hcl := c1.clean d1 i hi2
    refine ⟨?_, ?_⟩
    · have := hcl.1
      unfold position
      omega
    · rw [hcl.2, cs]
      rfl
  · intro i hi2
    by_cases hv : f1.valid_bytes < (CACHE_SIZE : Int)
    · exact (c1.tail hv).2 i hi2
    · apply byteAt_ge
      unfold CACHE_SIZE at hv
      omega

/-- Witness for C12: the fetch on the dirty handle `f_ink` (cursor at offset `1`),
which writes the window back and reloads it; the state it leaves is
`f_ink_fetched`. -/
theorem fetch_postcondition_witness :
    ∃ f1, io300_fetch f_ink = .ok (0, f1) ∧
      f1.cache_start = position f_ink ∧ f1.head = 0 ∧ f1.dirty = 0 ∧
      f1.fd.data = contents f_ink ∧
      f1.valid_bytes =
        (if position f_ink < ((contents f_ink).length : Int)
          then min (CACHE_SIZE : Int) (((contents f_ink).length : Int) - position f_ink)
          else 0) ∧
      (∀ i : Nat, (i : Int) < f1.valid_bytes →
        (position f_ink).toNat + i < f1.fd.data.length ∧
          byteAt f1.cache i = byteAt f1.fd.data ((position f_ink).toNat + i)) ∧
      (∀ i : Nat, f1.valid_bytes ≤ (i : Int) → byteAt f1.cache i = 0) ∧
      f1.cache.length = CACHE_SIZE :=
  fetch_postcondition f_ink f_ink_invariants rfl

/-- Counterexample to C12 as stated: on `f_ink_ro` the write inside the flush
fails and is not checked, `io300_fetch` still returns `0`, and the file it
leaves is `1, 2, 3`, not the file with the dirty window (`9, 2, 3`) written back. -/
theorem fetch_succeeds_without_write_back :
    Invariants f_ink_ro ∧ io300_fetch f_ink_ro = .ok (0, f_ink_ro_fetched) ∧
      contents f_ink_ro = [9, 2, 3] ∧ f_ink_ro_fetched.fd.data = [1, 2, 3] ∧
      f_ink_ro_fetched.fd.data ≠ contents f_ink_ro :=
  ⟨f_ink_ro_invariants, rfl, rfl, rfl, by decide⟩

/-- Claim C13, as amended: on a state that satisfies the invariants, on a
descriptor whose `lseek` and `write` succeed, `io300_flush` returns `0`; when
`dirty = 0` neither the handle nor the file changes; when `dirty = 1` the file
is extended as far as the window reaches, its bytes
`[cache_start, cache_start + valid_bytes)` become `buffer[0 .. valid_bytes)`,
every other byte the file already had is unchanged, `dirty` becomes `0`, and
buffer, `valid_bytes`, `head` and `cache_start` are unchanged. -/
theorem flush_postcondition (f : io300_file) (hi : Invariants f) (hok : f.fd.ok = true) :
    ∃ f1, io300_flush f = .ok (0, f1) ∧
      (f.dirty = 0 → f1 = f) ∧
      (f.dirty = 1 →
        (∀ i : Nat, (i : Int) < f.valid_bytes →
          f.cache_start.toNat + i < f1.fd.data.length ∧
            byteAt f1.fd.data (f.cache_start.toNat + i) = byteAt f.cache i) ∧
        (∀ j : Nat, j < f.fd.data.length →
          ¬ (f.cache_start ≤ (j : Int) ∧ (j : Int) < f.cache_start + f.valid_bytes) →
          byteAt f1.fd.data j = byteAt f.fd.data j) ∧
        f1.fd.data.length =
          (if f.valid_bytes = 0 then f.fd.data.length
            else max f.fd.data.length (f.cache_start.toNat + f.valid_bytes.toNat)) ∧
        f1.dirty = 0 ∧ f1.cache = f.cache ∧ f1.valid_bytes = f.valid_bytes ∧
        f1.head = f.head ∧ f1.cache_start = f.cache_start) := by
  obtain ⟨a1, a2, a3, a4, a5, a6, a7, a8⟩ := hi.bounds
  by_cases hd : f.dirty = 0
  · refine ⟨f, flush_clean f hi.2 hd, fun _ => rfl, fun h1 => ?_⟩
    omega
  · obtain ⟨f1, e, -, -, d1, da, hca, hv, hh, hs, -⟩ := flush_inv hi hok
    have hlen : f1.fd.data.length =
        (if f.valid_bytes = 0 then f.fd.data.length
          else max f.fd.data.length (f.cache_start.toNat + f.valid_bytes.toNat)) := by
      rw [da]
      unfold contents
      rw [if_pos hd, pwrite_length, List.length_take, a8]
      split <;> split <;> omega
    refine ⟨f1, e, fun h0 => absurd h0 hd, fun _ => ⟨?_, ?_, hlen, d1, hca, hv, hh, hs⟩⟩
    · intro i hlt
      refine ⟨?_, ?_⟩
      · rw [hlen, if_neg (by omega)]
        omega
      · rw [da]
        unfold contents
        rw [if_pos hd, pwrite_byteAt, List.length_take, a8,
          if_pos ⟨by omega, by omega⟩, byteAt_take, if_pos (by omega)]
        congr 1
        omega
    · intro j _ hout
      rw [da]
      unfold contents
      rw [if_pos hd, pwrite_byteAt, List.length_take, a8, if_neg (by omega)]

/-- Witness for C13: flushing the dirty handle left by one character write on the
handle opened on the file `1, 2, 3`. -/
theorem flush_postcondition_witness :
    ∃ f1, io300_flush f_ink = .ok (0, f1) ∧
      (f_ink.dirty = 0 → f1 = f_ink) ∧
      (f_ink.dirty = 1 →
        (∀ i : Nat, (i : Int) < f_ink.valid_bytes →
          f_ink.cache_start.toNat + i < f1.fd.data.length ∧
            byteAt f1.fd.data (f_ink.cache_start.toNat + i) = byteAt f_ink.cache i) ∧
        (∀ j : Nat, j < f_ink.fd.data.length →
          ¬ (f_ink.cache_start ≤ (j : Int) ∧
            (j : Int) < f_ink.cache_start + f_ink.valid_bytes) →
          byteAt f1.fd.data j = byteAt f_ink.fd.data j) ∧
        f1.fd.data.length =
          (if f_ink.valid_bytes = 0 then f_ink.fd.data.length
            else max f_ink.fd.data.length
              (f_ink.cache_start.toNat + f_ink.valid_bytes.toNat)) ∧
        f1.dirty = 0 ∧ f1.cache = f_ink.cache ∧ f1.valid_bytes = f_ink.valid_bytes ∧
        f1.head = f_ink.head ∧ f1.cache_start = f_ink.cache_start) :=
  flush_postcondition f_ink f_ink_invariants rfl

/-- Counterexample to C13 as stated: `f_ink_ro` satisfies the invariants and is
dirty; its `write` fails, `io300_flush` does not look at the result, returns `0`
and clears `dirty`, and the file byte at offset `0` is still `1` while
`buffer[0]` is `9`. -/
theorem flush_ignores_failed_write :
    Invariants f_ink_ro ∧ f_ink_ro.dirty = 1 ∧
      io300_flush f_ink_ro = .ok (0, f_ink_ro_flushed) ∧
      byteAt f_ink_ro_flushed.fd.data (f_ink_ro.cache_start.toNat + 0)
        ≠ byteAt f_ink_ro.cache 0 :=
  ⟨f_ink_ro_invariants, rfl, rfl, by decide⟩

/-- Claim C19, as amended: in every state reachable from `io300_open` through
the operations, if `dirty = 0` then for every `0 <= i < valid_bytes` the offset
`cache_start + i` lies inside the file and `buffer[i]` equals the file byte
there; in particular `cache_start + valid_bytes <= file size` whenever
`valid_bytes > 0`. -/
theorem clean_window_mirrors_file (f : io300_file) (hr : Reachable f) (hd : f.dirty = 0) :
    (∀ i : Nat, (i : Int) < f.valid_bytes →
      f.cache_start + i < f.fd.data.length ∧
        byteAt f.cache i = byteAt f.fd.data (f.cache_start.toNat + i)) ∧
    (0 < f.valid_bytes → f.cache_start + f.valid_bytes ≤ f.fd.data.length) := by
  obtain ⟨-, h, hc⟩ := reachable_sound hr
  have hcl : ∀ i : Nat, (i : Int) < f.valid_bytes →
      f.cache_start + i < f.fd.data.length ∧
        byteAt f.cache i = byteAt f.fd.data (f.cache_start.toNat + i) := hc.clean hd
  refine ⟨hcl, fun hv => ?_⟩
  have := (hcl (f.valid_bytes - 1).toNat (by omega)).1
  omega

/-- Witness for C19: the handle opened on the file `1, 2, 3`. -/
theorem clean_window_mirrors_file_witness :
    (∀ i : Nat, (i : Int) < f_abc.valid_bytes →
      f_abc.cache_start + i < f_abc.fd.data.length ∧
        byteAt f_abc.cache i = byteAt f_abc.fd.data (f_abc.cache_start.toNat + i)) ∧
    (0 < f_abc.valid_bytes →
      f_abc.cache_start + f_abc.valid_bytes ≤ f_abc.fd.data.length) :=
  clean_window_mirrors_file f_abc f_abc_reachable rfl

/-- Counterexample to C19 as stated: after a seek to `12` and a character read
on the empty file the handle is reachable and clean, but
`cache_start + valid_bytes` is `12` and the file size is `0`. -/
theorem clean_window_past_end :
    Reachable f_far ∧ f_far.dirty = 0 ∧
      ¬ (f_far.cache_start + f_far.valid_bytes ≤ (f_far.fd.data.length : Int)) :=
  ⟨f_far_reachable, rfl, by decide⟩

/-- Claim C20: in every state reachable from `io300_open` through the
operations, if `valid_bytes < CACHE_SIZE` then the file has no byte at an offset
`>= cache_start + valid_bytes` (its size is at most `cache_start + valid_bytes`)
and every buffer byte at an index `>= valid_bytes` is `0`. -/
theorem short_window_ends_file (f : io300_file) (hr : Reachable f)
    (hv : f.valid_bytes < CACHE_SIZE) :
    (f.fd.data.length : Int) ≤ f.cache_start + f.valid_bytes ∧
      ∀ i : Nat, f.valid_bytes ≤ (i : Int) → byteAt f.cache i = 0 := by
  obtain ⟨-, h, hc⟩ := reachable_sound hr
  exact hc.tail hv

/-- Witness for C20: the handle opened on the file `1, 2, 3`, with three valid bytes. -/
theorem short_window_ends_file_witness :
    (f_abc.fd.data.length : Int) ≤ f_abc.cache_start + f_abc.valid_bytes ∧
      ∀ i : Nat, f_abc.valid_bytes ≤ (i : Int) → byteAt f_abc.cache i = 0 :=
  short_window_ends_file f_abc f_abc_reachable (by decide)

theorem f_edge_invariants : Invariants f_edge := by
  apply Invariants.of_nums <;> decide

/-- Claim C16, as amended: on a state that satisfies the invariants, a write of
`sz` bytes with `0 <= head` and `head + sz < CACHE_SIZE` performs no fetch and no
flush: `cache_start` and the descriptor with its file are unchanged,
`buffer[head .. head + sz)` becomes the data and the other buffer bytes stay,
`head` advances by `sz`, `dirty = 1`, `valid_bytes = max(old, new head)`, and the
call returns `sz`. -/
theorem write_in_window (f : io300_file) (bs : List Byte) (hi : Invariants f)
    (h0 : 0 ≤ f.head) (hfit : f.head + bs.length < CACHE_SIZE) :
    ∃ f1, io300_write f bs = .ok ((bs.length : Int), f1) ∧
      f1.cache_start = f.cache_start ∧ f1.fd = f.fd ∧
      (∀ j : Nat, byteAt f1.cache j =
        if f.head ≤ (j : Int) ∧ (j : Int) < f.head + bs.length
          then byteAt bs (j - f.head.toNat) else byteAt f.cache j) ∧
      f1.head = f.head + bs.length ∧ f1.dirty = 1 ∧
      f1.valid_bytes = max f.valid_bytes (f.head + bs.length) := by
  obtain ⟨a1, a2, a3, a4, a5, a6, a7, a8⟩ := hi.bounds
  unfold CACHE_SIZE at hfit
  have hfit2 : f.head + (bs.length : Int) < 8 := by exact_mod_cast hfit
  refine ⟨_, write_window hi.2 a8 bs h0 hfit2, rfl, rfl, ?_, rfl, rfl, ?_⟩
  · intro j
    dsimp only
    rw [byteAt_storen f.cache bs f.head.toNat (by omega)]
    by_cases hj : f.head ≤ (j : Int) ∧ (j : Int) < f.head + bs.length
    · rw [if_pos hj, if_pos (by omega)]
    · rw [if_neg hj, if_neg (by omega)]
  · dsimp only
    split <;> omega

/-- Witness for C16: two bytes written at the cursor of the handle opened on
the file `1, 2, 3`. -/
theorem write_in_window_witness :
    ∃ f1, io300_write f_abc [7, 8] = .ok ((([7, 8] : List Byte).length : Int), f1) ∧
      f1.cache_start = f_abc.cache_start ∧ f1.fd = f_abc.fd ∧
      (∀ j : Nat, byteAt f1.cache j =
        if f_abc.head ≤ (j : Int) ∧ (j : Int) < f_abc.head + ([7, 8] : List Byte).length
          then byteAt [7, 8] (j - f_abc.head.toNat) else byteAt f_abc.cache j) ∧
      f1.head = f_abc.head + ([7, 8] : List Byte).length ∧ f1.dirty = 1 ∧
      f1.valid_bytes = max f_abc.valid_bytes (f_abc.head + ([7, 8] : List Byte).length) :=
  write_in_window f_abc [7, 8] f_abc_invariants (by decide) (by decide)

/-- Counterexample to C16 as stated: on `f_ink` (`head = 1`) a write of seven
bytes fits the window exactly, `head + sz = CACHE_SIZE`, yet the call fetches:
the dirty window is written back, so the file changes, and `cache_start` moves
from `0` to `1`. -/
theorem write_exact_fit_fetches :
    Invariants f_ink ∧ 0 ≤ f_ink.head ∧
      f_ink.head + (([4, 4, 4, 4, 4, 4, 4] : List Byte).length : Int) ≤ CACHE_SIZE ∧
      io300_write f_ink [4, 4, 4, 4, 4, 4, 4] = .ok (7, f_ink_full) ∧
      f_ink_full.cache_start ≠ f_ink.cache_start ∧ f_ink_full.fd.data ≠ f_ink.fd.data :=
  ⟨f_ink_invariants, by decide, by decide, rfl, by decide, by decide⟩

/-- Claim C17, as amended: on a state that satisfies the invariants, with a
working descriptor and `pos = cache_start + head` (`head` of any sign or size),
every write of more than `CACHE_SIZE` bytes with `pos + sz <= INT_MAX`, and every
read of more than `CACHE_SIZE` bytes that transfers `t` bytes with
`pos + t <= INT_MAX`, first writes back the dirty window, transfers against the
file at offset `pos`, returns the number `t` of bytes transferred, and ends with
`cache_start = pos + t`, `head = 0`, `dirty = 0` and the buffer holding the file
bytes from `pos + t` on, zero behind them. -/
theorem bypass_post_state (f : io300_file) (hi : Invariants f) (hok : f.fd.ok = true) :
    (∀ bs : List Byte, bs.length > CACHE_SIZE → position f + bs.length ≤ INT_MAX →
      ∃ f1, io300_write f bs = .ok ((bs.length : Int), f1) ∧
        f1.fd.data = pwrite (contents f) (position f).toNat bs ∧
        f1.cache_start = position f + bs.length ∧ f1.head = 0 ∧ f1.dirty = 0 ∧
        (∀ i : Nat, byteAt f1.cache i =
          if i < CACHE_SIZE then byteAt f1.fd.data (f1.cache_start.toNat + i) else 0)) ∧
    (∀ n : Nat, n > CACHE_SIZE →
      position f + (((contents f).drop (position f).toNat).take n).length ≤ INT_MAX →
      ∃ f1, io300_read f n =
          .ok ((((((contents f).drop (position f).toNat).take n).length : Nat),
            ((contents f).drop (position f).toNat).take n), f1) ∧
        f1.fd.data = contents f ∧
        f1.cache_start = position f + (((contents f).drop (position f).toNat).take n).length ∧
        f1.head = 0 ∧ f1.dirty = 0 ∧
        (∀ i : Nat, byteAt f1.cache i =
          if i < CACHE_SIZE then byteAt f1.fd.data (f1.cache_start.toNat + i) else 0)) := by
  have key : ∀ g : io300_file, Coherent g → g.dirty = 0 → ∀ i : Nat, byteAt g.cache i =
      if i < CACHE_SIZE then byteAt g.fd.data (g.cache_start.toNat + i) else 0 := by
    intro g c d i
    obtain ⟨b1, b2, b3, b4, b5, b6, b7, b8⟩ := c.nums
    unfold CACHE_SIZE
    by_cases hi8 : i < 8
    · rw [if_pos hi8]
      by_cases hv : (i : Int) < g.valid_bytes
      · exact (c.clean d i hv).2
      · have ht := c.tail (by unfold CACHE_SIZE; omega)
        rw [ht.2 i (by omega), byteAt_ge]
        have := ht.1
        omega
    · rw [if_neg hi8]
      exact byteAt_ge _ _ (by omega)
  constructor
  · intro bs hbs hrw
    obtain ⟨f1, e, c, cs, hd, d, da⟩ := write_bypass hi hok bs hbs hrw
    exact ⟨f1, e, da, cs, hd, d, key f1 c d⟩
  · intro n hn hrr
    obtain ⟨f1, e, c, cs, hd, d, da⟩ := read_bypass hi hok n hn hrr
    exact ⟨f1, e, da, cs, hd, d, key f1 c d⟩

/-- Witness for C17: a write of nine bytes on the handle opened on the file
`1, 2, 3`, a read of nine bytes there (three are transferred), and a read of nine
bytes at position `INT_MAX - 5` of the empty file (none is transferred). -/
theorem bypass_post_state_witness :
    (∃ f1, io300_write f_abc (List.replicate 9 5) =
          .ok (((List.replicate 9 (5 : Byte)).length : Int), f1) ∧
        f1.fd.data = pwrite (contents f_abc) (position f_abc).toNat (List.replicate 9 5) ∧
        f1.cache_start = position f_abc + (List.replicate 9 (5 : Byte)).length ∧
        f1.head = 0 ∧ f1.dirty = 0 ∧
        (∀ i : Nat, byteAt f1.cache i =
          if i < CACHE_SIZE then byteAt f1.fd.data (f1.cache_start.toNat + i) else 0)) ∧
    (∃ f1, io300_read f_abc 9 =
          .ok ((((((contents f_abc).drop (position f_abc).toNat).take 9).length : Nat),
            ((contents f_abc).drop (position f_abc).toNat).take 9), f1) ∧
        f1.fd.data = contents f_abc ∧
        f1.cache_start =
          position f_abc + (((contents f_abc).drop (position f_abc).toNat).take 9).length ∧
        f1.head = 0 ∧ f1.dirty = 0 ∧
        (∀ i : Nat, byteAt f1.cache i =
          if i < CACHE_SIZE then byteAt f1.fd.data (f1.cache_start.toNat + i) else 0)) ∧
    (∃ f1, io300_read f_edge 9 =
          .ok ((((((contents f_edge).drop (position f_edge).toNat).take 9).length : Nat),
            ((contents f_edge).drop (position f_edge).toNat).take 9), f1) ∧
        f1.fd.data = contents f_edge ∧
        f1.cache_start =
          position f_edge + (((contents f_edge).drop (position f_edge).toNat).take 9).length ∧
        f1.head = 0 ∧ f1.dirty = 0 ∧
        (∀ i : Nat, byteAt f1.cache i =
          if i < CACHE_SIZE then byteAt f1.fd.data (f1.cache_start.toNat + i) else 0)) :=
  ⟨(bypass_post_state f_abc f_abc_invariants rfl).1 (List.replicate 9 5) (by decide)
      (by decide),
    (bypass_post_state f_abc f_abc_invariants rfl).2 9 (by decide) (by decide),
    (bypass_post_state f_edge f_edge_invariants rfl).2 9 (by decide) (by decide)⟩

/-- Counterexample to C17 as stated: the handle at position `INT_MAX - 5`
satisfies the invariants, and a write of nine bytes aborts on an assertion
instead of ending with the window behind the bytes written. -/
theorem bypass_beyond_int_aborts :
    Invariants f_edge ∧ ((List.replicate 9 0 : List Byte).length > CACHE_SIZE) ∧
      io300_write f_edge (List.replicate 9 0) = .error .assertion :=
  ⟨f_edge_invariants, by decide, rfl⟩

theorem f_top_reachable : Reachable f_top :=
  Reachable.next f_empty f_top (.seek 2147483647) f_empty_reachable rfl

theorem f_top_invariants : Invariants f_top := by
  apply Invariants.of_nums <;> decide

theorem toByte_val (b : Int) (h0 : 0 ≤ b) (h1 : b ≤ 255) : ((toByte b).val : Int) = b := by
  unfold toByte
  simp only [Fin.ofNat, Fin.val_mk]
  omega

theorem byte_range (c : Byte) : 0 ≤ (c.val : Int) ∧ (c.val : Int) ≤ 255 := by
  have := c.isLt
  omega

/-- Character read strictly before the end of the logical file, with no bound
on the position: the byte there is returned and the position advances by one. -/
theorem readc_value {f : io300_file} (hc : Coherent f)
    (h : position f < ((contents f).length : Int)) :
    ∃ f1, io300_readc f = .ok (((byteAt (contents f) (position f).toNat).val : Int), f1) ∧
      contents f1 = contents f ∧ position f1 = position f + 1 := by
  obtain ⟨a1, a2, a3, a4, a5, a6, a7, a8⟩ := hc.nums
  unfold position at h ⊢
  have hcr := coherent_count_read hc
  unfold io300_readc
  simp only [guard_ok hc.inv.2, bind, Except.bind]
  by_cases hw : (count_read f).head < 0 ∨ (count_read f).head ≥ (CACHE_SIZE : Int)
  · rw [if_pos hw]
    obtain ⟨f1, e, c1, d1, da, cs, hd, -, vb⟩ := fetch_spec hcr
    have cs2 : f1.cache_start = f.cache_start + f.head := cs
    have vb2 : f1.valid_bytes =
        min 8 (max 0 (((contents f).length : Int) - (f.cache_start + f.head))) := vb
    have da2 : f1.fd.data = contents f := da
    have hv : ¬ f1.valid_bytes = 0 := by omega
    have hl : load f1.cache f1.head = .ok (byteAt f1.cache 0) := by
      rw [hd]
      exact load_ok _ 0 (by omega) (by rw [c1.nums.2.2.2.2.2.2.2]; decide)
    have hb : byteAt f1.cache 0 = byteAt (contents f) (f.cache_start + f.head).toNat := by
      have := (c1.clean d1 0 (by omega)).2
      rw [this, da2, cs2]
      rfl
    have e1 : toInt32 (f1.head + 1) = 1 := by rw [hd]; rfl
    simp only [e, hv, if_false, hl, hb, e1]
    refine ⟨_, rfl, ?_, ?_⟩
    · show contents f1 = _
      rw [contents_clean d1, da2]
    · show f1.cache_start + 1 = _
      omega
  · rw [if_neg hw]
    have hw2 : ¬ (f.head < 0 ∨ f.head ≥ (CACHE_SIZE : Int)) := hw
    unfold CACHE_SIZE at hw2
    have hv : ¬ (count_read f).valid_bytes ≤ (count_read f).head := by
      show ¬ f.valid_bytes ≤ f.head
      intro hle
      have := window_reaches_end hc (by omega)
      omega
    have hv2 : ¬ f.valid_bytes ≤ f.head := hv
    rw [if_neg hv]
    have hl : load (count_read f).cache (count_read f).head = .ok (byteAt f.cache f.head.toNat) :=
      load_ok _ _ (by show 0 ≤ f.head; omega) (by show f.head < f.cache.length; omega)
    have hb : byteAt f.cache f.head.toNat = byteAt (contents f) (f.cache_start + f.head).toNat :=
      window_byteAt hc _ (by omega) _ (by omega)
    have e1 : toInt32 ((count_read f).head + 1) = f.head + 1 :=
      toInt32_eq _ (by show isInt32 (f.head + 1); unfold isInt32 INT_MAX; omega)
    simp only [hl, hb, e1]
    refine ⟨_, rfl, rfl, ?_⟩
    show f.cache_start + (f.head + 1) = _
    omega

/-- Claim C15, as amended: on every reachable state that satisfies the
invariants and whose logical position `pos` is strictly before the end of the
logical file, `io300_readc` returns a value in `0..255` equal to the logical
file byte at `pos` and advances the logical position by exactly one; and on
every such state `io300_readc` returns `-1` exactly when `pos` is at or beyond
the end of the logical file. -/
theorem readc_returns_byte (f : io300_file) (hr : Reachable f) (hi : Invariants f) :
    (position f < ((contents f).length : Int) →
      ∃ f1, io300_readc f = .ok (((byteAt (contents f) (position f).toNat).val : Int), f1) ∧
        0 ≤ ((byteAt (contents f) (position f).toNat).val : Int) ∧
        ((byteAt (contents f) (position f).toNat).val : Int) ≤ 255 ∧
        position f1 = position f + 1) ∧
    ((∃ f1, io300_readc f = .ok (-1, f1)) ↔ ((contents f).length : Int) ≤ position f) := by
  have hc := reachable_coherent hr hi.2
  constructor
  · intro h
    obtain ⟨f1, e, -, p⟩ := readc_value hc h
    exact ⟨f1, e, (byte_range _).1, (byte_range _).2, p⟩
  · constructor
    · rintro ⟨f1, e⟩
      by_contra hlt
      obtain ⟨f2, e2, -, -⟩ := readc_value hc (by omega)
      rw [e2] at e
      have h1 := congrArg Prod.fst (Except.ok.inj e)
      have := (byte_range (byteAt (contents f) (position f).toNat)).1
      simp only at h1
      omega
    · intro h
      obtain ⟨f1, e, -⟩ := readc_eof hc h
      exact ⟨f1, e⟩

/-- Witness for C15: the handle opened on the file `1, 2, 3`, positioned at
its first byte. -/
theorem readc_returns_byte_witness :
    (∃ f1, io300_readc f_abc =
          .ok (((byteAt (contents f_abc) (position f_abc).toNat).val : Int), f1) ∧
        0 ≤ ((byteAt (contents f_abc) (position f_abc).toNat).val : Int) ∧
        ((byteAt (contents f_abc) (position f_abc).toNat).val : Int) ≤ 255 ∧
        position f1 = position f_abc + 1) ∧
    ((∃ f1, io300_readc f_abc = .ok (-1, f1)) ↔
      ((contents f_abc).length : Int) ≤ position f_abc) :=
  ⟨(readc_returns_byte f_abc f_abc_reachable f_abc_invariants).1 (by decide),
    (readc_returns_byte f_abc f_abc_reachable f_abc_invariants).2⟩

/-- Counterexample to C15 as stated: the handle left by a seek to `2^31` is
reachable and its logical position lies strictly before the end of the file,
yet `io300_readc` aborts on an assertion instead of returning a byte. -/
theorem readc_after_wrapped_seek_aborts :
    Reachable f_stuck ∧ position f_stuck < ((contents f_stuck).length : Int) ∧
      io300_readc f_stuck = .error .assertion :=
  ⟨f_stuck_reachable, by decide, rfl⟩

/-- Character write on a state that satisfies the invariants, with a working
descriptor, for a byte value `b` in `0..255`: the call returns `b`, advances the
logical position by one, sets `dirty = 1`, stores `b` at `buffer[head]` when
`0 <= head < CACHE_SIZE` and at `buffer[0]` of the refetched window otherwise, and
sets `valid_bytes` to the larger of its value before the store and the new `head`. -/
theorem writec_step (f : io300_file) (b : Int) (hi : Invariants f) (hok : f.fd.ok = true)
    (hb0 : 0 ≤ b) (hb1 : b ≤ 255) :
    ∃ f1, io300_writec f b = .ok (b, f1) ∧ position f1 = position f + 1 ∧ f1.dirty = 1 ∧
      ((toByte b).val : Int) = b ∧
      (0 ≤ f.head ∧ f.head < CACHE_SIZE →
        f1.cache = f.cache.set f.head.toNat (toByte b) ∧ f1.head = f.head + 1 ∧
        f1.valid_bytes = max f.valid_bytes f1.head ∧
        f1.cache_start = f.cache_start ∧ f1.fd = f.fd) ∧
      (¬ (0 ≤ f.head ∧ f.head < CACHE_SIZE) →
        ∃ g, io300_fetch (count_write f) = .ok (0, g) ∧
          f1.cache = g.cache.set 0 (toByte b) ∧ f1.head = 1 ∧
          f1.valid_bytes = max g.valid_bytes f1.head ∧ f1.cache_start = position f) := by
  obtain ⟨a1, a2, a3, a4, a5, a6, a7, a8⟩ := hi.bounds
  have hiw := invariants_count_write hi
  unfold io300_writec
  simp only [guard_ok hi.2, bind, Except.bind]
  by_cases hw : (count_write f).head < 0 ∨ (count_write f).head ≥ (CACHE_SIZE : Int)
  · rw [if_pos hw]
    have hw2 : f.head < 0 ∨ f.head ≥ (CACHE_SIZE : Int) := hw
    clear hw
    obtain ⟨g, e, c1, d1, da, cs, hd, -, -⟩ := fetch_inv hiw hok
    have cs2 : g.cache_start = f.cache_start + f.head := cs
    obtain ⟨b1, b2, b3, b4, b5, b6, b7, b8⟩ := c1.nums
    simp only [e]
    rw [writec_store_eq g b b8 (by omega) (by omega)]
    refine ⟨_, rfl, ?_, rfl, toByte_val b hb0 hb1, ?_, ?_⟩
    · unfold position; dsimp only; omega
    · intro hin
      unfold CACHE_SIZE at hin hw2
      omega
    · intro _
      refine ⟨g, rfl, ?_, ?_, ?_, ?_⟩
      · dsimp only; rw [hd]; rfl
      · dsimp only; omega
      · dsimp only; split <;> omega
      · unfold position; dsimp only; omega
  · rw [if_neg hw]
    have hw2 : ¬ (f.head < 0 ∨ f.head ≥ (CACHE_SIZE : Int)) := hw
    clear hw
    have hw3 := hw2
    unfold CACHE_SIZE at hw3
    have h0 : 0 ≤ (count_write f).head := by show 0 ≤ f.head; omega
    have h8 : (count_write f).head < 8 := by show f.head < 8; omega
    rw [writec_store_eq (count_write f) b a8 h0 h8]
    refine ⟨_, rfl, ?_, rfl, toByte_val b hb0 hb1, ?_, ?_⟩
    · unfold position; dsimp only [count_write]; omega
    · intro _
      refine ⟨rfl, rfl, ?_, rfl, rfl⟩
      dsimp only [count_write]; split <;> omega
    · intro hout
      exact absurd (by omega) hout

/-- Example: the byte `255` written on the handle opened on the file `1, 2, 3`. -/
theorem writec_step_example :
    ∃ f1, io300_writec f_abc 255 = .ok (255, f1) ∧ position f1 = position f_abc + 1 ∧
      f1.dirty = 1 ∧ ((toByte 255).val : Int) = 255 ∧
      (0 ≤ f_abc.head ∧ f_abc.head < CACHE_SIZE →
        f1.cache = f_abc.cache.set f_abc.head.toNat (toByte 255) ∧ f1.head = f_abc.head + 1 ∧
        f1.valid_bytes = max f_abc.valid_bytes f1.head ∧
        f1.cache_start = f_abc.cache_start ∧ f1.fd = f_abc.fd) ∧
      (¬ (0 ≤ f_abc.head ∧ f_abc.head < CACHE_SIZE) →
        ∃ g, io300_fetch (count_write f_abc) = .ok (0, g) ∧
          f1.cache = g.cache.set 0 (toByte 255) ∧ f1.head = 1 ∧
          f1.valid_bytes = max g.valid_bytes f1.head ∧ f1.cache_start = position f_abc) :=
  writec_step f_abc 255 f_abc_invariants rfl (by decide) (by decide)

theorem filesize_ok {f : io300_file} (hc : Coherent f) :
    io300_filesize f = .ok (f.fd.data.length : Int) := by
  unfold io300_filesize fstat_size
  simp only [guard_ok hc.inv.2, bind, Except.bind, hc.fd_ok, true_or, if_true]

theorem f_dead_invariants : Invariants f_dead := by
  apply Invariants.of_nums <;> decide

/-- Claim C14, evaluated on the handle `f_dead`, which satisfies the invariants
and has its cursor outside the window: the fetch inside `io300_writec` fails
with `-1`, the result is dropped, and the byte is stored at `cache[8]`, outside
the buffer, instead of at `buffer[0]` of a refetched window. -/
theorem writec_after_failed_fetch :
    Invariants f_dead ∧
      io300_fetch (count_write f_dead) = .ok (-1, count_write f_dead) ∧
      ¬ (0 ≤ f_dead.head ∧ f_dead.head < CACHE_SIZE) ∧
      io300_writec f_dead 65 = .error .out_of_bounds :=
  ⟨f_dead_invariants, rfl, by decide, rfl⟩

/-- Block read within `int` positions: on every reachable state that satisfies
the invariants, with logical position `pos` and logical file length `L`, and
every `n` with `pos + n <= INT_MAX`, `io300_read(n)` returns exactly
`min(n, max(0, L - pos))` bytes, the bytes are the logical file content from
`pos` on, the logical position advances by exactly the returned count, and the
logical file is unchanged. -/
theorem read_returns_available (f : io300_file) (n : Nat) (hr : Reachable f)
    (hi : Invariants f) (hrange : position f + n ≤ INT_MAX) :
    ∃ (bytes : List Byte) (f1 : io300_file),
      io300_read f n = .ok (((bytes.length : Int), bytes), f1) ∧
      (bytes.length : Int) = min (n : Int) (max 0 (((contents f).length : Int) - position f)) ∧
      bytes = ((contents f).drop (position f).toNat).take n ∧
      (∀ i : Nat, i < bytes.length →
        byteAt bytes i = byteAt (contents f) ((position f).toNat + i)) ∧
      position f1 = position f + bytes.length ∧ contents f1 = contents f := by
  have hc := reachable_coherent hr hi.2
  obtain ⟨a1, a2, a3, a4, a5, a6, a7, a8⟩ := hc.nums
  obtain ⟨f1, e, -, k, p⟩ := read_spec hc n hrange
  refine ⟨_, f1, e, ?_, rfl, ?_, p, k⟩
  · rw [List.length_take, List.length_drop]
    unfold position
    omega
  · intro i hlt
    rw [List.length_take] at hlt
    rw [byteAt_take, if_pos (by omega), byteAt_drop]

/-- Example: eight bytes requested one byte into the file `1, 2, 3`. -/
theorem read_returns_available_example :
    ∃ (bytes : List Byte) (f1 : io300_file),
      io300_read f_ink 8 = .ok (((bytes.length : Int), bytes), f1) ∧
      (bytes.length : Int) =
        min ((8 : Nat) : Int) (max 0 (((contents f_ink).length : Int) - position f_ink)) ∧
      bytes = ((contents f_ink).drop (position f_ink).toNat).take 8 ∧
      (∀ i : Nat, i < bytes.length →
        byteAt bytes i = byteAt (contents f_ink) ((position f_ink).toNat + i)) ∧
      position f1 = position f_ink + bytes.length ∧ contents f1 = contents f_ink :=
  read_returns_available f_ink 8 f_ink_reachable f_ink_invariants (by decide)

/-- Claim C4, evaluated on the handle left by a seek to `INT_MAX` on the empty
file, which is reachable and satisfies the invariants: a read of eight bytes
there should return no bytes, as a character read does (it returns `-1`), but
`head + sz` overflows in the window test, the branch that copies from the window
is taken, and the copy starts at `cache + INT_MAX`, outside the buffer. -/
theorem read_at_int_limit_faults :
    Reachable f_top ∧ Invariants f_top ∧ ((contents f_top).length : Int) ≤ position f_top ∧
      io300_read f_top 8 = .error .out_of_bounds ∧
      io300_readc f_top = .ok (-1, f_top_read) :=
  ⟨f_top_reachable, f_top_invariants, by decide, rfl, rfl⟩

/-- Claim C7, as amended: on every reachable state that satisfies the
invariants, for every position `p` at or beyond the end of the logical file and
every non-empty `S` with `p + len(S) <= INT_MAX`: after `io300_seek(p)`,
`io300_write(S)` and a flush, `io300_filesize` returns `p + len(S)`; it does so
without the flush when `len(S) > CACHE_SIZE`; and after `io300_seek(p)`,
`io300_writec` and a flush it returns `p + 1`. -/
theorem flushed_write_extends_file (f : io300_file) (p : Int) (S : List Byte) (ch : Int)
    (hr : Reachable f) (hi : Invariants f) (hp : ((contents f).length : Int) ≤ p)
    (hS : S ≠ []) (h1 : p + S.length ≤ INT_MAX) :
    size_after_flush f p S = .ok (p + S.length) ∧
      (S.length > CACHE_SIZE → size_after_write f p S = .ok (p + S.length)) ∧
      size_after_writec f p ch = .ok (p + 1) := by
  have hc := reachable_coherent hr hi.2
  have hlen : 0 < S.length := List.length_pos.mpr hS
  unfold INT_MAX at h1
  have h0 : 0 ≤ p := by omega
  obtain ⟨e1, c1⟩ := seek_spec hc p h0 (by omega)
  have p1 : position { f with head := p - f.cache_start } = p := by
    unfold position; dsimp only; omega
  have k1 : contents { f with head := p - f.cache_start } = contents f := rfl
  obtain ⟨f2, e2, c2, -, k2⟩ := write_spec c1 S (by rw [p1]; exact h1)
  have k2b := k2 hlen
  rw [p1, k1] at k2b
  have hL2 : ((contents f2).length : Int) = p + S.length := by
    rw [k2b, pwrite_length, if_neg (by omega)]
    omega
  obtain ⟨f3, e3, c3, -, da3, -⟩ := flush_spec c2
  refine ⟨?_, ?_, ?_⟩
  · unfold size_after_flush
    simp only [e1, e2, e3, bind, Except.bind]
    rw [filesize_ok c3, da3, hL2]
  · intro hbig
    obtain ⟨g2, eg, cg, -, -, -, dag⟩ := write_bypass c1.inv c1.fd_ok S hbig (by rw [p1]; exact h1)
    rw [p1, k1] at dag
    unfold size_after_write
    simp only [e1, eg, bind, Except.bind]
    rw [filesize_ok cg, dag, pwrite_length, if_neg (by omega)]
    congr 1
    omega
  · obtain ⟨g2, eg, cg, -, kg⟩ := writec_spec c1 ch (by rw [p1]; omega)
    rw [p1, k1] at kg
    obtain ⟨g3, eg3, cg3, -, dag3, -⟩ := flush_spec cg
    unfold size_after_writec
    simp only [e1, eg, eg3, bind, Except.bind]
    rw [filesize_ok cg3, dag3, kg, pwrite_length, if_neg (by simp)]
    congr 1
    simp only [List.length_singleton]
    omega

/-- Witness for C7: the bytes `1, 2` written at position 3 of the empty file. -/
theorem flushed_write_extends_file_witness :
    size_after_flush f_empty 3 [1, 2] = .ok (3 + (([1, 2] : List Byte).length : Int)) ∧
      (([1, 2] : List Byte).length > CACHE_SIZE →
        size_after_write f_empty 3 [1, 2] = .ok (3 + (([1, 2] : List Byte).length : Int))) ∧
      size_after_writec f_empty 3 65 = .ok (3 + 1) :=
  flushed_write_extends_file f_empty 3 [1, 2] 65 f_empty_reachable f_empty_invariants
    (by decide) (by decide) (by decide)

/-- Counterexample to C7 as stated: after a seek to `3` and a write of the two
bytes `1, 2` on the empty file `io300_filesize` returns `0`, not `5`: the bytes
are still in the window and the size is the one `fstat` reports. -/
theorem filesize_ignores_window :
    Reachable f_empty ∧ size_after_write f_empty 3 [1, 2] = .ok 0 :=
  ⟨f_empty_reachable, rfl⟩

theorem invariants_with_head {f : io300_file} (hi : Invariants f) (h : Int)
    (h0 : 0 ≤ f.cache_start + h) (h1 : f.cache_start + h ≤ 2147483647) :
    Invariants { f with head := h } := by
  obtain ⟨a1, a2, a3, a4, a5, a6, a7, a8⟩ := hi.bounds
  exact Invariants.of_nums a1 a2 a3 h0 h1 a7 a8 a4

/-- Character read on a state satisfying the invariants returns, whatever the position. -/
theorem readc_returns {f : io300_file} (hi : Invariants f) (hok : f.fd.ok = true) :
    ∃ r, io300_readc f = .ok r := by
  obtain ⟨a1, a2, a3, a4, a5, a6, a7, a8⟩ := hi.bounds
  have hir := invariants_count_read hi
  unfold io300_readc
  simp only [guard_ok hi.2, bind, Except.bind]
  by_cases hw : (count_read f).head < 0 ∨ (count_read f).head ≥ (CACHE_SIZE : Int)
  · rw [if_pos hw]
    obtain ⟨g, e, c1, d1, da, cs, hd, -, -⟩ := fetch_inv hir hok
    obtain ⟨b1, b2, b3, b4, b5, b6, b7, b8⟩ := c1.nums
    simp only [e]
    by_cases hv : g.valid_bytes = 0
    · rw [if_pos hv]
      exact ⟨_, rfl⟩
    · rw [if_neg hv]
      have hl := load_ok g.cache g.head (by omega) (by omega)
      simp only [hl]
      exact ⟨_, rfl⟩
  · rw [if_neg hw]
    have hw2 : ¬ (f.head < 0 ∨ f.head ≥ (CACHE_SIZE : Int)) := hw
    unfold CACHE_SIZE at hw2
    by_cases hv : (count_read f).valid_bytes ≤ (count_read f).head
    · rw [if_pos hv]
      exact ⟨_, rfl⟩
    · rw [if_neg hv]
      have hl := load_ok (count_read f).cache (count_read f).head
        (by show 0 ≤ f.head; omega) (by show f.head < f.cache.length; omega)
      simp only [hl]
      exact ⟨_, rfl⟩

/-- Character write on a state satisfying the invariants returns, whatever the position. -/
theorem writec_returns {f : io300_file} (hi : Invariants f) (hok : f.fd.ok = true)
    (ch : Int) : ∃ r, io300_writec f ch = .ok r := by
  obtain ⟨a1, a2, a3, a4, a5, a6, a7, a8⟩ := hi.bounds
  have hiw := invariants_count_write hi
  unfold io300_writec
  simp only [guard_ok hi.2, bind, Except.bind]
  by_cases hw : (count_write f).head < 0 ∨ (count_write f).head ≥ (CACHE_SIZE : Int)
  · rw [if_pos hw]
    obtain ⟨g, e, c1, d1, da, cs, hd, -, -⟩ := fetch_inv hiw hok
    obtain ⟨b1, b2, b3, b4, b5, b6, b7, b8⟩ := c1.nums
    simp only [e]
    rw [writec_store_eq g ch b8 (by omega) (by omega)]
    exact ⟨_, rfl⟩
  · rw [if_neg hw]
    have hw2 : ¬ (f.head < 0 ∨ f.head ≥ (CACHE_SIZE : Int)) := hw
    unfold CACHE_SIZE at hw2
    rw [writec_store_eq (count_write f) ch a8 (by show 0 ≤ f.head; omega)
      (by show f.head < 8; omega)]
    exact ⟨_, rfl⟩

/-- Block read of at most `CACHE_SIZE` bytes on a state satisfying the
invariants, with `head + sz` an `int`: the call returns, and the invariants
hold afterwards when the position plus `sz` is an `int` too. -/
theorem read_small {f : io300_file} (hi : Invariants f) (hok : f.fd.ok = true) (sz : Nat)
    (hsz : sz ≤ 8) (hr : f.head + sz ≤ 2147483647) :
    ∃ r f1, io300_read f sz = .ok (r, f1) ∧ f1.fd.ok = true ∧
      (position f + sz ≤ 2147483647 → Invariants f1) := by
  obtain ⟨a1, a2, a3, a4, a5, a6, a7, a8⟩ := hi.bounds
  have hh := hi.1.head_rng
  unfold isInt32 INT_MAX at hh
  have hir := invariants_count_read hi
  have hbig : ¬ sz > CACHE_SIZE := by unfold CACHE_SIZE; omega
  have k1 : -2147483648 ≤ (sz : Int) := by omega
  have k2 : (sz : Int) ≤ 2147483647 := by omega
  have k3 : -2147483648 ≤ f.head + sz := by omega
  have e0 : toInt32 (sz : Int) = sz := toInt32_of_bounds _ k1 k2
  have e1 : toInt32 ((count_read f).head + (sz : Int)) = f.head + sz :=
    toInt32_of_bounds _ k3 hr
  unfold io300_read
  simp only [guard_ok hi.2, bind, Except.bind, if_neg hbig, e0, e1]
  clear e0 e1
  by_cases hw : (count_read f).head < 0 ∨ f.head + (sz : Int) ≥ (count_read f).valid_bytes
  · rw [if_pos hw]
    clear hw
    obtain ⟨g, e, c1, d1, da, cs, hd, -, -⟩ := fetch_inv hir hok
    have cs2 : g.cache_start = f.cache_start + f.head := cs
    obtain ⟨b1, b2, b3, b4, b5, b6, b7, b8⟩ := c1.nums
    simp only [e]
    have hrb0 : 0 ≤ (if g.valid_bytes < (sz : Int) then g.valid_bytes else (sz : Int)) := by
      split <;> omega
    have hrb1 : (if g.valid_bytes < (sz : Int) then g.valid_bytes else (sz : Int)) ≤ sz := by
      split <;> omega
    generalize (if g.valid_bytes < (sz : Int) then g.valid_bytes else (sz : Int)) = rb
      at hrb0 hrb1 ⊢
    have hl := loadn_ok g.cache g.head rb (by omega) hrb0 (by omega)
    have k5 : -2147483648 ≤ rb := by omega
    have k6 : rb ≤ 2147483647 := by omega
    have e2 : toInt32 (g.head + rb) = rb := by
      rw [hd, zero_add]; exact toInt32_of_bounds _ k5 k6
    simp only [hl, e2]
    clear e2
    refine ⟨_, _, rfl, c1.fd_ok, fun hp => ?_⟩
    unfold position at hp
    exact invariants_with_head c1.inv rb (by omega) (by omega)
  · rw [if_neg hw]
    have hw2 : ¬ (f.head < 0 ∨ f.head + (sz : Int) ≥ f.valid_bytes) := hw
    clear hw
    have hl := loadn_ok (count_read f).cache (count_read f).head sz
      (by show 0 ≤ f.head; omega) (by omega) (by show f.head + sz ≤ f.cache.length; omega)
    simp only [hl]
    refine ⟨_, _, rfl, hok, fun hp => ?_⟩
    unfold position at hp
    exact invariants_with_head hir (f.head + sz) (by show 0 ≤ f.cache_start + _; omega)
      (by show f.cache_start + _ ≤ _; omega)

/-- Block write of at most `CACHE_SIZE` bytes on a state satisfying the
invariants, with `head + sz` an `int`: the call returns, and the invariants
hold afterwards when the position plus `sz` is an `int` too. -/
theorem write_small {f : io300_file} (hi : Invariants f) (hok : f.fd.ok = true)
    (bs : List Byte) (hsz : bs.length ≤ 8) (hr : f.head + bs.length ≤ 2147483647) :
    ∃ r f1, io300_write f bs = .ok (r, f1) ∧ f1.fd.ok = true ∧
      (position f + bs.length ≤ 2147483647 → Invariants f1) := by
  obtain ⟨a1, a2, a3, a4, a5, a6, a7, a8⟩ := hi.bounds
  have hh := hi.1.head_rng
  unfold isInt32 INT_MAX at hh
  have hiw := invariants_count_write hi
  by_cases hin : 0 ≤ f.head ∧ f.head + (bs.length : Int) < 8
  · rw [write_window hi.2 a8 bs hin.1 hin.2]
    refine ⟨_, _, rfl, hok, fun hp => ?_⟩
    unfold position at hp
    exact stored_invariants hiw _ bs.length (by omega) (by show f.head + _ ≤ 8; omega)
      (by show f.cache_start + f.head + _ ≤ _; omega)
      (by
        show (f.cache.take f.head.toNat ++ bs ++ f.cache.drop (f.head.toNat + bs.length)).length
          = 8
        simp only [List.length_append, List.length_take, List.length_drop]; omega)
  · have hbig : ¬ bs.length > CACHE_SIZE := by unfold CACHE_SIZE; omega
    have k1 : -2147483648 ≤ (bs.length : Int) := by omega
    have k2 : (bs.length : Int) ≤ 2147483647 := by omega
    have k3 : -2147483648 ≤ f.head + bs.length := by omega
    have e0 : toInt32 (bs.length : Int) = bs.length := toInt32_of_bounds _ k1 k2
    have e1 : toInt32 ((count_write f).head + (bs.length : Int)) = f.head + bs.length :=
      toInt32_of_bounds _ k3 hr
    have hout : ¬ ((count_write f).head ≥ 0 ∧
        toInt32 ((count_write f).head + toInt32 (bs.length : Int)) < (CACHE_SIZE : Int)) := by
      rw [e0, e1]
      unfold CACHE_SIZE
      show ¬ (f.head ≥ 0 ∧ f.head + (bs.length : Int) < 8)
      omega
    unfold io300_write
    simp only [guard_ok hi.2, bind, Except.bind, if_neg hbig, if_neg hout]
    clear hout e0 e1
    obtain ⟨g, e, c1, d1, da, cs, hd, -, -⟩ := fetch_inv hiw hok
    have cs2 : g.cache_start = f.cache_start + f.head := cs
    obtain ⟨b1, b2, b3, b4, b5, b6, b7, b8⟩ := c1.nums
    simp only [e]
    rw [write_store_eq g bs b8 (by omega) (by omega)]
    refine ⟨_, _, rfl, c1.fd_ok, fun hp => ?_⟩
    unfold position at hp
    exact stored_invariants c1.inv _ bs.length (by omega) (by omega) (by omega)
      (by simp only [List.length_append, List.length_take, List.length_drop]; omega)

/-- Buffer accesses without overflow: on a state that satisfies the invariants,
with a working descriptor (so the internal fetch succeeds), `io300_readc` and
`io300_writec` return, and `io300_read` and `io300_write` of at most `CACHE_SIZE`
bytes return provided `head + sz <= INT_MAX`; since every buffer access outside
`[0, CACHE_SIZE)` ends the run with `out_of_bounds`, every index they read or
write lies inside the buffer. -/
theorem buffer_accesses_in_bounds (f : io300_file) (ch : Int) (sz : Nat) (bs : List Byte)
    (hi : Invariants f) (hok : f.fd.ok = true) (hsz : sz ≤ CACHE_SIZE)
    (hbs : bs.length ≤ CACHE_SIZE) (hr1 : f.head + sz ≤ INT_MAX)
    (hr2 : f.head + bs.length ≤ INT_MAX) :
    (∃ r, io300_readc f = .ok r) ∧ (∃ r, io300_writec f ch = .ok r) ∧
      (∃ r, io300_read f sz = .ok r) ∧ (∃ r, io300_write f bs = .ok r) := by
  unfold CACHE_SIZE at hsz hbs
  refine ⟨readc_returns hi hok, writec_returns hi hok ch, ?_, ?_⟩
  · obtain ⟨r, f1, e, -⟩ := read_small hi hok sz hsz hr1
    exact ⟨_, e⟩
  · obtain ⟨r, f1, e, -⟩ := write_small hi hok bs hbs hr2
    exact ⟨_, e⟩

/-- Example: the four calls on the handle left by a seek to `INT_MAX - 5`
on the empty file, where `head` is far outside the window. -/
theorem buffer_accesses_in_bounds_example :
    (∃ r, io300_readc f_edge = .ok r) ∧ (∃ r, io300_writec f_edge 65 = .ok r) ∧
      (∃ r, io300_read f_edge 4 = .ok r) ∧ (∃ r, io300_write f_edge [1, 2, 3] = .ok r) :=
  buffer_accesses_in_bounds f_edge 65 4 [1, 2, 3] f_edge_invariants rfl (by decide)
    (by decide) (by decide) (by decide)

/-- Claim C18, evaluated on the handle left by a seek to `INT_MAX` on the empty
file, which satisfies the invariants, with a working descriptor: a write of
eight bytes (no more than `CACHE_SIZE`) computes `head + sz` past `INT_MAX`, passes
the test `head + sz < CACHE_SIZE` with the wrapped value, and copies to
`cache + INT_MAX`, outside the buffer, and a read of eight bytes copies from
there; `io300_writec` on the same handle fetches first and returns. -/
theorem write_at_int_limit_faults :
    Invariants f_top ∧ f_top.fd.ok = true ∧
      (List.replicate 8 (0 : Byte)).length ≤ CACHE_SIZE ∧
      io300_write f_top (List.replicate 8 0) = .error .out_of_bounds ∧
      io300_read f_top 8 = .error .out_of_bounds ∧
      ∃ g, io300_writec f_top 65 = .ok (65, g) :=
  ⟨f_top_invariants, rfl, by decide, rfl, rfl, _, rfl⟩

/-- Claim C11, evaluated on a handle whose descriptor fails: `io300_fetch`
returns `-1`, yet `io300_writec` and `io300_readc` go on to access `cache[8]`,
outside the buffer, and `io300_read` returns the success count `3` with bytes
taken from the stale window. -/
theorem fetch_failure_not_propagated :
    io300_fetch f_dead = .ok (-1, f_dead) ∧
      io300_fetch (count_write f_dead) = .ok (-1, count_write f_dead) ∧
      io300_writec f_dead 65 = .error .out_of_bounds ∧
      io300_readc f_dead = .error .out_of_bounds ∧
      io300_write f_dead [7] = .error .out_of_bounds ∧
      io300_fetch (count_read f_dead_in) = .ok (-1, count_read f_dead_in) ∧
      io300_read f_dead_in 3 = .ok ((3, [2, 3, 0]), { count_read f_dead_in with head := 4 }) :=
  ⟨rfl, rfl, rfl, rfl, rfl, rfl, rfl⟩

/-- One operation that stays within `int` positions, on a state satisfying the
invariants with a working descriptor, returns and keeps both. -/
theorem step_inv {f : io300_file} (hi : Invariants f) (hok : f.fd.ok = true) (op : Op)
    (hf : fits f op) : ∃ f1, step f op = .ok f1 ∧ Invariants f1 ∧ f1.fd.ok = true := by
  cases op with
  | seek pos =>
    by_cases hneg : pos < 0
    · refine ⟨f, ?_, hi, hok⟩
      simp only [step, seek_neg f pos hi.2 hneg, bind, Except.bind]
    · have hp : pos ≤ 2147483647 := hf
      obtain ⟨e, i1⟩ := seek_inv hi pos (by omega) hp
      refine ⟨_, ?_, i1, hok⟩
      simp only [step, e, bind, Except.bind]
  | readc =>
    have hp : position f + 1 ≤ 2147483647 := hf
    obtain ⟨r, f1, e, i1, o1⟩ := readc_inv hi hok hp
    refine ⟨f1, ?_, i1, o1⟩
    simp only [step, e, bind, Except.bind]
  | writec ch =>
    have hp : position f + 1 ≤ 2147483647 := hf
    obtain ⟨f1, e, i1, o1⟩ := writec_inv hi hok ch hp
    refine ⟨f1, ?_, i1, o1⟩
    simp only [step, e, bind, Except.bind]
  | read sz =>
    have hp : position f + sz ≤ 2147483647 := hf
    obtain ⟨a1, a2, a3, a4, a5, a6, a7, a8⟩ := hi.bounds
    by_cases hbig : sz > CACHE_SIZE
    · have hle : (((contents f).drop (position f).toNat).take sz).length ≤ sz :=
        List.length_take_le _ _
      obtain ⟨f1, e, c1, -⟩ := read_bypass hi hok sz hbig (by omega)
      refine ⟨f1, ?_, c1.inv, c1.fd_ok⟩
      simp only [step, e, bind, Except.bind]
    · unfold CACHE_SIZE at hbig
      obtain ⟨r, f1, e, o1, i1⟩ := read_small hi hok sz (by omega)
        (by unfold position at hp; omega)
      refine ⟨f1, ?_, i1 hp, o1⟩
      simp only [step, e, bind, Except.bind]
  | write buff =>
    have hp : position f + buff.length ≤ 2147483647 := hf
    obtain ⟨a1, a2, a3, a4, a5, a6, a7, a8⟩ := hi.bounds
    by_cases hbig : buff.length > CACHE_SIZE
    · obtain ⟨f1, e, c1, -⟩ := write_bypass hi hok buff hbig hp
      refine ⟨f1, ?_, c1.inv, c1.fd_ok⟩
      simp only [step, e, bind, Except.bind]
    · unfold CACHE_SIZE at hbig
      obtain ⟨r, f1, e, o1, i1⟩ := write_small hi hok buff (by omega)
        (by unfold position at hp; omega)
      refine ⟨f1, ?_, i1 hp, o1⟩
      simp only [step, e, bind, Except.bind]
  | flush =>
    obtain ⟨f1, e, i1, o1, -⟩ := flush_inv hi hok
    refine ⟨f1, ?_, i1, o1⟩
    simp only [step, e, bind, Except.bind]
  | fetch =>
    obtain ⟨f1, e, c1, -⟩ := fetch_inv hi hok
    refine ⟨f1, ?_, c1.inv, c1.fd_ok⟩
    simp only [step, e, bind, Except.bind]

/-- A run that stays within `int` positions still does so when cut short. -/
theorem runFits_take (ops : List Op) : ∀ (f : io300_file) (n : Nat),
    runFits f ops → runFits f (ops.take n) := by
  induction ops with
  | nil => intro f n h; cases n <;> exact h
  | cons op ops ih =>
    intro f n h
    cases n with
    | zero => exact True.intro
    | succ n => exact ⟨h.1, fun f1 hs => ih f1 n (h.2 f1 hs)⟩

/-- A run that stays within `int` positions, from a state satisfying the
invariants with a working descriptor, returns and keeps both. -/
theorem run_inv (ops : List Op) : ∀ (f : io300_file), Invariants f → f.fd.ok = true →
    runFits f ops → ∃ f1, run f ops = .ok f1 ∧ Invariants f1 ∧ f1.fd.ok = true := by
  induction ops with
  | nil => intro f hi hok _; exact ⟨f, rfl, hi, hok⟩
  | cons op ops ih =>
    intro f hi hok h
    obtain ⟨f1, e, i1, o1⟩ := step_inv hi hok op h.1
    obtain ⟨f2, e2, i2, o2⟩ := ih f1 i1 o1 (h.2 f1 e)
    refine ⟨f2, ?_, i2, o2⟩
    simp only [run, e, bind, Except.bind, e2]

/-- Claim C3, as amended: if a handle state satisfies the invariants and its
descriptor works, then after every call of every sequence of operations (seek,
readc, writec, read, write, flush, fetch) whose seek targets and whose
positions plus requested sizes stay at or below `INT_MAX`, the call has
returned and the resulting state satisfies the invariants again; a single
operation is the sequence of length one, and the state `io300_open` returns
is such a state. -/
theorem invariants_preserved (f : io300_file) (ops : List Op) (n : Nat)
    (hi : Invariants f) (hok : f.fd.ok = true) (hfit : runFits f ops) :
    ∃ f1, run f (ops.take n) = .ok f1 ∧ Invariants f1 := by
  obtain ⟨f1, e, i1, -⟩ := run_inv (ops.take n) f hi hok (runFits_take ops f n hfit)
  exact ⟨f1, e, i1⟩

/-- Witness for C3: a seek, a block write and two character reads on the handle
opened on the file `1, 2, 3`. -/
theorem invariants_preserved_witness :
    ∃ f1, run f_abc ([.seek 6, .write [4, 5, 6], .readc, .readc].take 3) = .ok f1 ∧
      Invariants f1 :=
  invariants_preserved f_abc [.seek 6, .write [4, 5, 6], .readc, .readc] 3 f_abc_invariants
    rfl (by
      refine ⟨(by decide : (6 : Int) ≤ INT_MAX), fun f1 h1 => ?_⟩
      cases h1
      refine ⟨by show position _ + _ ≤ INT_MAX; decide, fun f2 h2 => ?_⟩
      cases h2
      refine ⟨by show position _ + _ ≤ INT_MAX; decide, fun f3 h3 => ?_⟩
      cases h3
      exact ⟨by show position _ + _ ≤ INT_MAX; decide, fun _ _ => True.intro⟩)

/-- Counterexample to C3 as stated: the handle of the empty file satisfies the
invariants, `io300_seek` to the `off_t` value `2^31` returns, and the state it
leaves fails the assertion `cache_start + head >= 0`. -/
theorem seek_breaks_invariants :
    Invariants f_empty ∧ step f_empty (.seek 2147483648) = .ok f_stuck ∧
      check_invariants f_stuck = false :=
  ⟨f_empty_invariants, rfl, rfl⟩

/-- What the conditions on an unbuffered run say about its first operation. -/
theorem admits_cons {f : io300_file} (op : Op) (ops : List Op)
    (h : Plain.admits ⟨contents f, position f⟩ (op :: ops)) :
    fits f op ∧ (∀ bs, op = .write bs → bs ≠ []) ∧
      Plain.admits (Plain.step ⟨contents f, position f⟩ op) ops := by
  obtain ⟨h1, h2⟩ := h
  cases op with
  | seek pos => exact ⟨h1, fun bs e => (by cases e), h2⟩
  | readc => exact ⟨h1, fun bs e => (by cases e), h2⟩
  | writec ch => exact ⟨h1, fun bs e => (by cases e), h2⟩
  | read sz => exact ⟨h1, fun bs e => (by cases e), h2⟩
  | write buff => exact ⟨h1.2, fun bs e => (by cases e; exact h1.1), h2⟩
  | flush => exact ⟨h1, fun bs e => (by cases e), h2⟩
  | fetch => exact ⟨h1, fun bs e => (by cases e), h2⟩

/-- A run on a coherent handle follows the same run on the unbuffered file. -/
theorem run_spec (ops : List Op) : ∀ (f : io300_file), Coherent f →
    Plain.admits ⟨contents f, position f⟩ ops →
    ∃ f1, run f ops = .ok f1 ∧ Coherent f1 ∧
      contents f1 = (Plain.run ⟨contents f, position f⟩ ops).data ∧
      position f1 = (Plain.run ⟨contents f, position f⟩ ops).pos := by
  induction ops with
  | nil => intro f hc _; exact ⟨f, rfl, hc, rfl, rfl⟩
  | cons op ops ih =>
    intro f hc h
    obtain ⟨hf, hne, hrest⟩ := admits_cons op ops h
    obtain ⟨f1, e, c1, p1, k1⟩ := step_spec hc op hf
    have k := k1 hne
    have hs : Plain.step ⟨contents f, position f⟩ op = ⟨contents f1, position f1⟩ := by
      rw [k, p1]
    rw [hs] at hrest
    obtain ⟨f2, e2, c2, k2, p2⟩ := ih f1 c1 hrest
    refine ⟨f2, ?_, c2, ?_, ?_⟩
    · simp only [run, e, bind, Except.bind, e2]
    · rw [k2]; simp only [Plain.run, hs]
    · rw [p2]; simp only [Plain.run, hs]

/-- Claim C2, as amended: for every sequence of seek, readc, writec, read and
write calls (flush and fetch calls may be among them) on a handle opened on a
working descriptor, with seek targets and positions plus sizes at most `INT_MAX`
and at least one byte in every block write, the run returns, and after
`io300_flush`, or `io300_close`, the bytes of the file equal the bytes obtained
by applying the same seeks and writes directly, unbuffered, to the initial file. -/
theorem flushed_file_matches_plain (d : Fd) (mem : List Byte) (ops : List Op)
    (hok : d.ok = true) (hmem : mem.length = CACHE_SIZE)
    (hadm : Plain.admits ⟨d.data, 0⟩ ops) :
    ∃ f0 f1 f2 d2, io300_open d mem = .ok f0 ∧ run f0 ops = .ok f1 ∧
      io300_flush f1 = .ok (0, f2) ∧ f2.fd.data = (Plain.run ⟨d.data, 0⟩ ops).data ∧
      io300_close f1 = .ok (0, d2) ∧ d2.data = (Plain.run ⟨d.data, 0⟩ ops).data := by
  obtain ⟨f0, e0, c0, k0, p0⟩ := open_spec d mem hok hmem
  rw [← k0, ← p0] at hadm
  obtain ⟨f1, e1, c1, k1, -⟩ := run_spec ops f0 c0 hadm
  rw [k0, p0] at k1
  obtain ⟨f2, e2, c2, -, da2, -⟩ := flush_spec c1
  refine ⟨f0, f1, f2, f2.fd, e0, e1, e2, da2.trans k1, ?_, da2.trans k1⟩
  unfold io300_close
  simp only [guard_ok c1.inv.2, bind, Except.bind, e2]

/-- Witness for C2: a block write beyond the end, a character write and reads on
the file `1, 2, 3`. -/
theorem flushed_file_matches_plain_witness :
    ∃ f0 f1 f2 d2, io300_open fd_abc (List.replicate CACHE_SIZE 0) = .ok f0 ∧
      run f0 [.seek 5, .write [7, 8], .writec 9, .seek 0, .read 4, .readc] = .ok f1 ∧
      io300_flush f1 = .ok (0, f2) ∧
      f2.fd.data =
        (Plain.run ⟨fd_abc.data, 0⟩
          [.seek 5, .write [7, 8], .writec 9, .seek 0, .read 4, .readc]).data ∧
      io300_close f1 = .ok (0, d2) ∧
      d2.data =
        (Plain.run ⟨fd_abc.data, 0⟩
          [.seek 5, .write [7, 8], .writec 9, .seek 0, .read 4, .readc]).data :=
  flushed_file_matches_plain fd_abc (List.replicate CACHE_SIZE 0)
    [.seek 5, .write [7, 8], .writec 9, .seek 0, .read 4, .readc] rfl rfl
    ⟨by decide, ⟨by decide, by decide⟩, by decide, by decide, by decide, by decide,
      True.intro⟩

/-- Counterexample to C2 as stated: on the empty file, a seek to `3` followed by a
block write of no bytes and a flush leaves the three bytes `0, 0, 0` in the
file, while the same calls applied directly leave it empty; and a seek to
`2^31` followed by a character write aborts. -/
theorem empty_write_extends_file :
    ∃ g g2, io300_open fd_empty (List.replicate CACHE_SIZE 0) = .ok f_empty ∧
      run f_empty [.seek 3, .write []] = .ok g ∧ io300_flush g = .ok (0, g2) ∧
      g2.fd.data = [0, 0, 0] ∧ (Plain.run ⟨fd_empty.data, 0⟩ [.seek 3, .write []]).data = [] ∧
      run f_empty [.seek 2147483648, .writec 65] = .error .assertion :=
  ⟨_, _, rfl, rfl, rfl, rfl, rfl, rfl⟩

/-- Bytes between the old end of a file and a later positional write are zero. -/
theorem pwrite_gap (data : List Byte) (p : Nat) (S : List Byte) (q : Nat)
    (hE : data.length ≤ q) (hq : q < p) : byteAt (pwrite data p S) q = 0 := by
  rw [pwrite_byteAt, if_neg (by omega)]
  exact byteAt_ge _ _ hE

/-- The state after a seek to `p`, a block write there, and a seek to `q`, on a
coherent handle. -/
theorem gap_state_write {f : io300_file} (hc : Coherent f) (p q : Int) (S : List Byte)
    (h0 : 0 ≤ p) (hS : S ≠ []) (hr : p + S.length ≤ 2147483647) (hq0 : 0 ≤ q)
    (hq : q ≤ 2147483647) :
    ∃ g, run f [.seek p, .write S, .seek q] = .ok g ∧ Coherent g ∧
      contents g = pwrite (contents f) p.toNat S ∧ position g = q := by
  have hadm : Plain.admits ⟨contents f, position f⟩ [.seek p, .write S, .seek q] := by
    simp only [Plain.admits, Plain.step, if_neg (not_lt.mpr h0), INT_MAX, and_true]
    exact ⟨by omega, ⟨hS, hr⟩, hq⟩
  obtain ⟨g, e, c, k, pp⟩ := run_spec _ f hc hadm
  simp only [Plain.run, Plain.step, if_neg (not_lt.mpr h0), if_neg (not_lt.mpr hq0)] at k pp
  exact ⟨g, e, c, k, pp⟩

/-- The state after a seek to `p`, a character write there, and a seek to `q`, on
a coherent handle. -/
theorem gap_state_writec {f : io300_file} (hc : Coherent f) (p q : Int) (ch : Int)
    (h0 : 0 ≤ p) (hr : p + 1 ≤ 2147483647) (hq0 : 0 ≤ q) (hq : q ≤ 2147483647) :
    ∃ g, run f [.seek p, .writec ch, .seek q] = .ok g ∧ Coherent g ∧
      contents g = pwrite (contents f) p.toNat [toByte ch] ∧ position g = q := by
  have hadm : Plain.admits ⟨contents f, position f⟩ [.seek p, .writec ch, .seek q] := by
    simp only [Plain.admits, Plain.step, if_neg (not_lt.mpr h0), INT_MAX, and_true, span]
    exact ⟨by omega, hr, hq⟩
  obtain ⟨g, e, c, k, pp⟩ := run_spec _ f hc hadm
  simp only [Plain.run, Plain.step, if_neg (not_lt.mpr h0), if_neg (not_lt.mpr hq0)] at k pp
  exact ⟨g, e, c, k, pp⟩

/-- Reading inside a zero gap: a character read returns `0`, and a block read
that stays inside the gap returns zeros only. -/
theorem gap_reads_zero {g : io300_file} (c : Coherent g) (E p : Nat) (T : List Byte)
    (data : List Byte) (hk : contents g = pwrite data p T) (hT : T ≠ [])
    (hE : data.length ≤ E) (q : Nat) (n : Nat) (hq : position g = q) (hEq : E ≤ q)
    (hqn : q + n ≤ p) (hn : 0 < n) (hp : (p : Int) ≤ 2147483647) :
    (∃ g1, io300_readc g = .ok (0, g1)) ∧
      (∃ g1, io300_read g n = .ok (((n : Int), List.replicate n 0), g1)) := by
  have hTl : 0 < T.length := List.length_pos.mpr hT
  have hlen : (contents g).length = max data.length (p + T.length) := by
    rw [hk, pwrite_length, if_neg (by omega)]
  constructor
  · obtain ⟨g1, e, -⟩ := readc_value c (by rw [hq, hlen]; omega)
    rw [hq, hk] at e
    simp only [Int.toNat_ofNat] at e
    rw [pwrite_gap data p T q (by omega) (by omega)] at e
    exact ⟨g1, e⟩
  · obtain ⟨g1, e, -⟩ := read_spec c n (by rw [hq]; omega)
    rw [hq, hk] at e
    simp only [Int.toNat_ofNat] at e
    have hb : ((pwrite data p T).drop q).take n = List.replicate n 0 := by
      apply list_ext
      · rw [List.length_take, List.length_drop, List.length_replicate, ← hk, hlen]
        omega
      · intro i hi
        rw [List.length_take] at hi
        rw [byteAt_take, if_pos (by omega), byteAt_drop, byteAt_replicate]
        exact pwrite_gap data p T (q + i) (by omega) (by omega)
    rw [hb, List.length_replicate] at e
    exact ⟨g1, e⟩

/-- Claim C8, as amended: on every reachable state that satisfies the
invariants, with the end of the logical file at `E`, after a write of at least
one byte (`io300_write` or `io300_writec`) at a position `p` with
`p + len <= INT_MAX`, every offset `q` with `E <= q < p` reads back as `0`:
`io300_readc` at `q` returns `0`, and `io300_read` of `n` bytes at `q` with
`q + n <= p` returns `n` zero bytes, whether `p` lies inside the window or not. -/
theorem gap_reads_back_zero (f : io300_file) (p q : Int) (S : List Byte) (ch : Int) (n : Nat)
    (hr : Reachable f) (hi : Invariants f) (hS : S ≠ [])
    (hE : ((contents f).length : Int) ≤ q) (hqn : q + n ≤ p) (hn : 0 < n)
    (hrange : p + S.length ≤ INT_MAX) :
    (∃ g, run f [.seek p, .write S, .seek q] = .ok g ∧
      (∃ g1, io300_readc g = .ok (0, g1)) ∧
      (∃ g1, io300_read g n = .ok (((n : Int), List.replicate n 0), g1))) ∧
    (∃ g, run f [.seek p, .writec ch, .seek q] = .ok g ∧
      (∃ g1, io300_readc g = .ok (0, g1)) ∧
      (∃ g1, io300_read g n = .ok (((n : Int), List.replicate n 0), g1))) := by
  have hc := reachable_coherent hr hi.2
  have hlen : 0 < S.length := List.length_pos.mpr hS
  unfold INT_MAX at hrange
  have hq0 : 0 ≤ q := by omega
  have hp0 : 0 ≤ p := by omega
  constructor
  · obtain ⟨g, e, c, k, pp⟩ := gap_state_write hc p q S hp0 hS hrange hq0 (by omega)
    obtain ⟨r1, r2⟩ := gap_reads_zero c q.toNat p.toNat S (contents f) k hS (by omega)
      q.toNat n (by rw [pp]; omega) (le_refl _) (by omega) hn (by omega)
    exact ⟨g, e, r1, r2⟩
  · obtain ⟨g, e, c, k, pp⟩ := gap_state_writec hc p q ch hp0 (by omega) hq0 (by omega)
    obtain ⟨r1, r2⟩ := gap_reads_zero c q.toNat p.toNat [toByte ch] (contents f) k
      (by simp) (by omega) q.toNat n (by rw [pp]; omega) (le_refl _) (by omega) hn (by omega)
    exact ⟨g, e, r1, r2⟩

/-- Witness for C8: a write at offset 10 of the file `1, 2, 3`, read back from
offset 4. -/
theorem gap_reads_back_zero_witness :
    (∃ g, run f_abc [.seek 10, .write [7, 8], .seek 4] = .ok g ∧
      (∃ g1, io300_readc g = .ok (0, g1)) ∧
      (∃ g1, io300_read g 5 = .ok ((((5 : Nat) : Int), List.replicate 5 0), g1))) ∧
    (∃ g, run f_abc [.seek 10, .writec 65, .seek 4] = .ok g ∧
      (∃ g1, io300_readc g = .ok (0, g1)) ∧
      (∃ g1, io300_read g 5 = .ok ((((5 : Nat) : Int), List.replicate 5 0), g1))) :=
  gap_reads_back_zero f_abc 10 4 [7, 8] 65 5 f_abc_reachable f_abc_invariants (by decide)
    (by decide) (by decide) (by decide) (by decide)

/-- Counterexample to C8 as stated: on the empty file, after a seek to the
`off_t` position `2^32 + 5` and a write of the byte `65` there, offset `5`, which
lies before that position, reads back as `65`; and after a seek to `12` and a
block write of no bytes, offset `5` reads back as end of stream, not as `0`. -/
theorem gap_not_zero :
    ∃ g g1 k k1, run f_empty [.seek 4294967301, .write [65], .seek 5] = .ok g ∧
      io300_readc g = .ok (65, g1) ∧
      run f_empty [.seek 12, .write [], .seek 5] = .ok k ∧
      io300_readc k = .ok (-1, k1) :=
  ⟨_, _, _, _, rfl, rfl, rfl, rfl⟩

end Io300
